import Mathlib

/-!
# Verification of the markdown/math rendering pipeline of `app.py`

This file gives a shallow embedding of the text-processing core of the
repository's `app.py`:

* `fix_list_spacing`  — inserts a blank line before list items
  (`app.py`, lines 172–190);
* `fix_math_content`  — math-span normalizer: newline removal and
  subscript bracing (`app.py`, lines 192–201);
* `process_math_pre_markdown` — math-span extraction with placeholder
  substitution in three regex passes (`app.py`, lines 203–252), with the
  inner `store_math` (lines 210–226) and `replace_bracket_math`
  (lines 242–248);
* `restore_math` — placeholder restoration (`app.py`, lines 254–258).

Documents are embedded as `List Char`.  Each Python regex substitution is
embedded as a left-to-right scanner implementing exactly the semantics of
the concrete (non-greedy, DOTALL) pattern used in the source; the scanners
take a fuel argument (consumed once per scanned position) so that they are
structurally recursive and compute inside the kernel; the exported
functions supply fuel `length + 1`, which is never exhausted.  The
`uuid.uuid4().hex` stream is a parameter `us : Nat → List Char`; theorems
that depend on the freshness of the generated identifiers state that
freshness as explicit hypotheses (32 lowercase hexadecimal characters,
pairwise distinct, not occurring in the document), which is exactly the
probabilistic guarantee `uuid4` provides.
-/

set_option maxHeartbeats 2000000
set_option maxRecDepth 8000

namespace LocalServio

/-- Convert a string literal to the character-list representation. -/
def strL (s : String) : List Char := s.data

/-- ASCII alphanumeric, the Python regex class `[a-zA-Z0-9]`. -/
def isAlnum (c : Char) : Bool :=
  ('a' ≤ c && c ≤ 'z') || ('A' ≤ c && c ≤ 'Z') || ('0' ≤ c && c ≤ '9')

/-- ASCII decimal digit, the Python regex class `\d` on ASCII input. -/
def isDigitC (c : Char) : Bool := '0' ≤ c && c ≤ '9'

/-- Whitespace as recognized by Python's `\s` and `str.strip` (ASCII range). -/
def isWs (c : Char) : Bool :=
  c = ' ' || c = '\t' || c = '\n' || c = '\r' || c = '\x0b' || c = '\x0c'

/-- Python `str.strip()`: drop whitespace from both ends. -/
def stripWs (s : List Char) : List Char :=
  ((s.dropWhile isWs).reverse.dropWhile isWs).reverse

/-- Does `pat` occur as a contiguous substring of `s` (Python `in`)? -/
def containsSubB : List Char → List Char → Bool
  | [], pat => pat.isEmpty
  | c :: rest, pat => pat.isPrefixOf (c :: rest) || containsSubB rest pat

/-- Number of positions of `s` at which `pat` starts (occurrences may overlap). -/
def countOcc : List Char → List Char → Nat
  | [], _ => 0
  | c :: rest, pat => (if pat.isPrefixOf (c :: rest) then 1 else 0) + countOcc rest pat

/-- Index of the first position of `s` where `pat` starts, if any. -/
def findSub (pat : List Char) : List Char → Option Nat
  | [] => if pat.isEmpty then some 0 else none
  | c :: rest =>
    if pat.isPrefixOf (c :: rest) then some 0
    else (findSub pat rest).map (· + 1)

/-- Fueled scanner for Python `str.replace(pat, repl)` with nonempty `pat`:
scan left to right, replace every (non-overlapping) occurrence, never
rescanning replaced text. -/
def replaceAllF : Nat → List Char → List Char → List Char → List Char
  | 0, s, _, _ => s
  | _ + 1, [], _, _ => []
  | fuel + 1, c :: rest, pat, repl =>
    if pat ≠ [] ∧ pat.isPrefixOf (c :: rest) then
      repl ++ replaceAllF fuel ((c :: rest).drop pat.length) pat repl
    else
      c :: replaceAllF fuel rest pat repl

/-- Python `str.replace(pat, repl)` (for `pat = ''` Python inserts `repl`
between all characters; the pipeline never calls it that way, and we return
`s` unchanged in that irrelevant case). -/
def replaceAll (s pat repl : List Char) : List Char :=
  if pat.isEmpty then s else replaceAllF (s.length + 1) s pat repl

/-! ## `fix_math_content` (`app.py` lines 192–201) -/

/-- First rule of `fix_math_content`: `content.replace('\n', ' ')`. -/
def fixNewlines (s : List Char) : List Char :=
  s.map (fun c => if c = '\n' then ' ' else c)

/-- Fueled scanner for the second rule of `fix_math_content`:
`re.sub(r'_([a-zA-Z0-9]+)', r'_{\1}', content)`.  At each `_` followed by a
nonempty maximal alphanumeric run the run is wrapped in braces. -/
def braceSubsF : Nat → List Char → List Char
  | 0, s => s
  | _ + 1, [] => []
  | fuel + 1, c :: rest =>
    if c = '_' ∧ rest.takeWhile isAlnum ≠ [] then
      '_' :: '{' :: (rest.takeWhile isAlnum ++ '}' :: braceSubsF fuel (rest.dropWhile isAlnum))
    else c :: braceSubsF fuel rest

/-- The subscript-bracing rule of `fix_math_content`. -/
def braceSubs (s : List Char) : List Char := braceSubsF (s.length + 1) s

/-- `fix_math_content` from `app.py`: replace newlines by spaces, then brace
subscripts. -/
def fix_math_content (content : List Char) : List Char :=
  braceSubs (fixNewlines content)

/-! ## `fix_list_spacing` (`app.py` lines 172–190) -/

/-- Does a line start with the list-item pattern
`^(\s*([*+-]|\d+\.)\s+)` (Python `re.match`)? -/
def listItemMatch (l : List Char) : Bool :=
  match l.dropWhile isWs with
  | '*' :: c :: _ => isWs c
  | '+' :: c :: _ => isWs c
  | '-' :: c :: _ => isWs c
  | r =>
    match r.takeWhile isDigitC, r.dropWhile isDigitC with
    | _ :: _, '.' :: c :: _ => isWs c
    | _, _ => false

/-- The insertion condition of `fix_list_spacing`: the current line is a list
item, the previous line has nonblank content, and the previous line is not
itself a list item. -/
def needsBlank (prev l : List Char) : Bool :=
  listItemMatch l && !(stripWs prev).isEmpty && !listItemMatch prev

/-- The loop body of `fix_list_spacing` for every line after the first,
carrying the (original) previous line. -/
def fixLinesGo : List Char → List (List Char) → List (List Char)
  | _, [] => []
  | prev, l :: ls =>
    if needsBlank prev l then [] :: l :: fixLinesGo l ls
    else l :: fixLinesGo l ls

/-- The full line-level pass of `fix_list_spacing`. -/
def fixLines : List (List Char) → List (List Char)
  | [] => []
  | l :: ls => l :: fixLinesGo l ls

/-- Python `str.split('\n')`. -/
def splitNl : List Char → List (List Char)
  | [] => [[]]
  | c :: rest =>
    if c = '\n' then [] :: splitNl rest
    else (c :: (splitNl rest).headD []) :: (splitNl rest).tail

/-- Python `'\n'.join(...)`. -/
def joinNl (ls : List (List Char)) : List Char :=
  List.intercalate ['\n'] ls

/-- `fix_list_spacing` from `app.py`: split into lines, insert a blank line
before each list item preceded by a nonblank non-list line, rejoin. -/
def fix_list_spacing (s : List Char) : List Char :=
  joinNl (fixLines (splitNl s))

/-! ## `process_math_pre_markdown` (`app.py` lines 203–252) -/

/-- The fixed placeholder prefix `MATHPLACEHOLDER` used by `store_math`. -/
def markerL : List Char :=
  ['M', 'A', 'T', 'H', 'P', 'L', 'A', 'C', 'E', 'H', 'O', 'L', 'D', 'E', 'R']

/-- The placeholder suffix `ENDMATHPLACEHOLDER`. -/
def endMarkL : List Char := 'E' :: 'N' :: 'D' :: markerL

/-- The placeholder key `f"MATHPLACEHOLDER{uuid.uuid4().hex}ENDMATHPLACEHOLDER"`,
with the `n`-th drawn hex string supplied by the stream `us`. -/
def mkKey (us : Nat → List Char) (n : Nat) : List Char :=
  markerL ++ us n ++ endMarkL

/-- The extraction state: the insertion-ordered placeholder dictionary and the
count of placeholders generated so far (the position in the uuid stream). -/
structure ExtractState where
  phs : List (List Char × List Char)
  ctr : Nat
deriving DecidableEq

/-- The delimiter wrapping applied by `store_math`: bracket spans become
`\[ ... \]`, display spans `$$ ... $$`, inline spans `$ ... $`. -/
def wrapMath (isDisp : Bool) (isBracket : Bool) (fixed : List Char) : List Char :=
  if isBracket then '\\' :: '[' :: ' ' :: (fixed ++ [' ', '\\', ']'])
  else if isDisp then '$' :: '$' :: ' ' :: (fixed ++ [' ', '$', '$'])
  else '$' :: ' ' :: (fixed ++ [' ', '$'])

/-- `store_math` from `app.py`: normalize the span content, generate a fresh
placeholder key, record the wrapped span under the key, return the key. -/
def store_math (us : Nat → List Char) (st : ExtractState) (content : List Char)
    (isDisp : Bool) (isBracket : Bool) : List Char × ExtractState :=
  (mkKey us st.ctr,
   ⟨st.phs ++ [(mkKey us st.ctr, wrapMath isDisp isBracket (fix_math_content content))],
    st.ctr + 1⟩)

/-- Fueled scanner for pass 1 of `process_math_pre_markdown`:
`re.sub(r'\$\$(.*?)\$\$', ..., text, flags=re.DOTALL)`.  A `$$` immediately
followed (non-greedily) by a closing `$$` is extracted as a display span;
otherwise the scanner emits one character and advances. -/
def pass1F (us : Nat → List Char) : Nat → List Char → ExtractState → List Char × ExtractState
  | 0, s, st => (s, st)
  | _ + 1, [], st => ([], st)
  | fuel + 1, c :: rest, st =>
    match (if c = '$' ∧ rest.head? = some '$' then findSub ['$', '$'] rest.tail else none) with
    | some j =>
      let ks := store_math us st (rest.tail.take j) true false
      let os := pass1F us fuel (rest.tail.drop (j + 2)) ks.2
      (ks.1 ++ os.1, os.2)
    | none =>
      let os := pass1F us fuel rest st
      (c :: os.1, os.2)

/-- Pass 1 of `process_math_pre_markdown` (display-dollar spans). -/
def pass1 (us : Nat → List Char) (s : List Char) (st : ExtractState) :
    List Char × ExtractState :=
  pass1F us (s.length + 1) s st

/-- Fueled scanner for pass 2 of `process_math_pre_markdown`:
`re.sub(r'\$(.*?)\$', ..., text, flags=re.DOTALL)`. -/
def pass2F (us : Nat → List Char) : Nat → List Char → ExtractState → List Char × ExtractState
  | 0, s, st => (s, st)
  | _ + 1, [], st => ([], st)
  | fuel + 1, c :: rest, st =>
    match (if c = '$' then findSub ['$'] rest else none) with
    | some j =>
      let ks := store_math us st (rest.take j) false false
      let os := pass2F us fuel (rest.drop (j + 1)) ks.2
      (ks.1 ++ os.1, os.2)
    | none =>
      let os := pass2F us fuel rest st
      (c :: os.1, os.2)

/-- Pass 2 of `process_math_pre_markdown` (inline-dollar spans). -/
def pass2 (us : Nat → List Char) (s : List Char) (st : ExtractState) :
    List Char × ExtractState :=
  pass2F us (s.length + 1) s st

/-- The formula-character heuristic of `replace_bracket_math`
(`app.py` line 245). -/
def isMathChar (c : Char) : Bool :=
  c = '\\' || c = '^' || c = '_' || c = '{' || c = '}' || c = '=' ||
  c = '<' || c = '>' || c = '+' || c = '-' || c = '*' || c = '/'

/-- Fueled scanner for pass 3 of `process_math_pre_markdown`:
`re.sub(r'\[\s*(.*?)\s*\]', replace_bracket_math, text, flags=re.DOTALL)`.
Each `[` with a following `]` delimits a candidate span (the non-greedy match
ends at the first `]`); its stripped content is extracted as bracket math
exactly when it contains a formula character, and is left in place otherwise.
Scanning resumes after the `]` in both cases. -/
def pass3F (us : Nat → List Char) : Nat → List Char → ExtractState → List Char × ExtractState
  | 0, s, st => (s, st)
  | _ + 1, [], st => ([], st)
  | fuel + 1, c :: rest, st =>
    match (if c = '[' then findSub [']'] rest else none) with
    | some j =>
      if (stripWs (rest.take j)).any isMathChar then
        let ks := store_math us st (stripWs (rest.take j)) true true
        let os := pass3F us fuel (rest.drop (j + 1)) ks.2
        (ks.1 ++ os.1, os.2)
      else
        let os := pass3F us fuel (rest.drop (j + 1)) st
        ('[' :: (rest.take j ++ ']' :: os.1), os.2)
    | none =>
      let os := pass3F us fuel rest st
      (c :: os.1, os.2)

/-- Pass 3 of `process_math_pre_markdown` (bracket-heuristic spans). -/
def pass3 (us : Nat → List Char) (s : List Char) (st : ExtractState) :
    List Char × ExtractState :=
  pass3F us (s.length + 1) s st

/-- `process_math_pre_markdown` from `app.py`: the three passes in their fixed
priority order (display-dollar, then inline-dollar, then bracket heuristic),
returning the placeholder-substituted text and the placeholder dictionary. -/
def process_math_pre_markdown (us : Nat → List Char) (text : List Char) :
    List Char × List (List Char × List Char) :=
  let r1 := pass1 us text ⟨[], 0⟩
  let r2 := pass2 us r1.1 r1.2
  let r3 := pass3 us r2.1 r2.2
  (r3.1, r3.2.phs)

/-- `restore_math` from `app.py`: replace every occurrence of every key by its
stored span, in dictionary insertion order. -/
def restore_math (html : List Char) (phs : List (List Char × List Char)) : List Char :=
  phs.foldl (fun h kv => replaceAll h kv.1 kv.2) html

/-- A concrete uuid-hex stream for evaluating the pipeline on closed inputs:
32 copies of the hex digit of `n % 16` (injective on the indices any concrete
document in this file uses). -/
def hexDigitC (n : Nat) : Char :=
  if n < 10 then Char.ofNat (48 + n) else Char.ofNat (87 + n)

/-- Concrete default uuid stream. -/
def usd (n : Nat) : List Char := List.replicate 32 (hexDigitC (n % 16))

end LocalServio

namespace LocalServio

/-! ## Basic lemmas about substring search and replacement -/

theorem containsSubB_eq_infix (s pat : List Char) : containsSubB s pat = true ↔ pat <:+: s := by
  induction s with
  | nil => simp [containsSubB, List.isEmpty_iff, List.infix_nil]
  | cons c rest ih =>
    simp [containsSubB, List.infix_cons_iff, ih, List.isPrefixOf_iff_prefix]

theorem containsSubB_nil_pat (s : List Char) : containsSubB s [] = true := by
  cases s <;> simp [containsSubB, List.isPrefixOf]

theorem containsSubB_cons_of (c : Char) {s pat : List Char} (h : containsSubB s pat = true) :
    containsSubB (c :: s) pat = true := by
  simp [containsSubB, h]

theorem containsSubB_of_isPrefixOf {s pat : List Char} (h : pat.isPrefixOf s = true) :
    containsSubB s pat = true := by
  cases s with
  | nil =>
    cases pat with
    | nil => simp [containsSubB]
    | cons p ps => simp [List.isPrefixOf] at h
  | cons c rest => simp [containsSubB, h]

theorem containsSubB_append_self (repl X : List Char) :
    containsSubB (repl ++ X) repl = true := by
  cases repl with
  | nil => exact containsSubB_nil_pat X
  | cons r rs =>
    exact containsSubB_of_isPrefixOf
      (List.isPrefixOf_iff_prefix.mpr (List.prefix_append (r :: rs) X))

theorem replaceAllF_not_contains (repl : List Char) :
    ∀ (fuel : Nat) (s pat : List Char), containsSubB s pat = false →
      replaceAllF fuel s pat repl = s := by
  intro fuel
  induction fuel with
  | zero => intro s pat _; rfl
  | succ f ih =>
    intro s pat h
    cases s with
    | nil => rfl
    | cons c rest =>
      simp only [containsSubB, Bool.or_eq_false_iff] at h
      simp only [replaceAllF]
      rw [if_neg, ih rest pat h.2]
      rintro ⟨-, hp⟩
      simp [h.1] at hp

theorem replaceAll_not_contains (repl : List Char) {s pat : List Char}
    (h : containsSubB s pat = false) : replaceAll s pat repl = s := by
  unfold replaceAll
  split
  · rfl
  · exact replaceAllF_not_contains repl _ s pat h

theorem restore_math_not_contains :
    ∀ (phs : List (List Char × List Char)) (html : List Char),
      (∀ kv ∈ phs, containsSubB html kv.1 = false) → restore_math html phs = html := by
  intro phs
  induction phs with
  | nil => intro html _; rfl
  | cons kv rest ih =>
    intro html h
    show restore_math (replaceAll html kv.1 kv.2) rest = html
    rw [replaceAll_not_contains kv.2 (h kv (List.mem_cons_self kv rest))]
    exact ih html (fun kv' hkv' => h kv' (List.mem_cons_of_mem kv hkv'))

theorem replaceAllF_contains_repl :
    ∀ (fuel : Nat) (s pat repl : List Char), pat ≠ [] → s.length < fuel →
      containsSubB s pat = true →
      containsSubB (replaceAllF fuel s pat repl) repl = true := by
  intro fuel
  induction fuel with
  | zero => intro s pat repl _ h _; omega
  | succ f ih =>
    intro s pat repl hp hlen h
    cases s with
    | nil =>
      cases pat with
      | nil => exact absurd rfl hp
      | cons p ps => simp [containsSubB, List.isEmpty] at h
    | cons c rest =>
      simp only [replaceAllF]
      by_cases hpre : pat.isPrefixOf (c :: rest) = true
      · rw [if_pos ⟨hp, hpre⟩]
        exact containsSubB_append_self repl _
      · rw [if_neg (fun hc => hpre hc.2)]
        simp only [containsSubB, hpre, Bool.false_or] at h
        simp only [List.length_cons] at hlen
        exact containsSubB_cons_of c (ih rest pat repl hp (by omega) h)

theorem replaceAll_contains_repl {s pat : List Char} (repl : List Char) (hp : pat ≠ [])
    (h : containsSubB s pat = true) :
    containsSubB (replaceAll s pat repl) repl = true := by
  unfold replaceAll
  rw [if_neg (by simpa [List.isEmpty_iff] using hp)]
  exact replaceAllF_contains_repl _ s pat repl hp (by omega) h

/-! ## Lemmas about the math-content normalizer -/

/-- No underscore in `s` is immediately followed by an alphanumeric character
(the fixed points of the subscript-bracing rule). -/
def noBareSub : List Char → Bool
  | [] => true
  | [_] => true
  | a :: b :: rest => !(a == '_' && isAlnum b) && noBareSub (b :: rest)

theorem noBareSub_cons (a : Char) (l : List Char) :
    noBareSub (a :: l) =
      ((match l with
        | [] => true
        | b :: _ => !(a == '_' && isAlnum b)) && noBareSub l) := by
  cases l <;> simp [noBareSub]

theorem noBareSub_of_cons {a : Char} {l : List Char} (h : noBareSub (a :: l) = true) :
    noBareSub l = true := by
  rw [noBareSub_cons] at h
  exact (Bool.and_eq_true_iff.mp h).2

theorem noBareSub_append_of_no_underscore :
    ∀ (l t : List Char), (∀ x ∈ l, x ≠ '_') → noBareSub t = true →
      noBareSub (l ++ t) = true := by
  intro l
  induction l with
  | nil => intro t _ ht; simpa using ht
  | cons a l' ih =>
    intro t h ht
    have ha : a ≠ '_' := h a (List.mem_cons_self a l')
    have hrec : noBareSub (l' ++ t) = true :=
      ih t (fun x hx => h x (List.mem_cons_of_mem a hx)) ht
    rw [List.cons_append, noBareSub_cons]
    refine Bool.and_eq_true_iff.mpr ⟨?_, hrec⟩
    cases hl : l' ++ t with
    | nil => rfl
    | cons b rest => simp [ha]

theorem braceSubsF_agree :
    ∀ (f₁ f₂ : Nat) (s : List Char), s.length < f₁ → s.length < f₂ →
      braceSubsF f₁ s = braceSubsF f₂ s := by
  intro f₁
  induction f₁ with
  | zero => intro f₂ s h1 _; omega
  | succ f ih =>
    intro f₂ s h1 h2
    match f₂, s with
    | 0, s => omega
    | g + 1, [] => rfl
    | g + 1, c :: rest =>
      simp only [List.length_cons] at h1 h2
      simp only [braceSubsF]
      by_cases hc : c = '_' ∧ rest.takeWhile isAlnum ≠ []
      · rw [if_pos hc, if_pos hc]
        have hlt : (rest.dropWhile isAlnum).length < rest.length := by
          have hsplit := List.takeWhile_append_dropWhile (p := isAlnum) (l := rest)
          have := congrArg List.length hsplit
          simp only [List.length_append] at this
          have hpos : 0 < (rest.takeWhile isAlnum).length :=
            List.length_pos.mpr hc.2
          omega
        rw [ih g (rest.dropWhile isAlnum) (by omega) (by omega)]
      · rw [if_neg hc, if_neg hc, ih g rest (by omega) (by omega)]

theorem braceSubs_cons_pos {c : Char} {rest : List Char}
    (h : c = '_' ∧ rest.takeWhile isAlnum ≠ []) :
    braceSubs (c :: rest) =
      '_' :: '{' :: (rest.takeWhile isAlnum ++ '}' :: braceSubs (rest.dropWhile isAlnum)) := by
  show braceSubsF ((c :: rest).length + 1) (c :: rest) = _
  simp only [List.length_cons, braceSubsF, if_pos h]
  have hle : (rest.dropWhile isAlnum).length ≤ rest.length :=
    (List.dropWhile_sublist isAlnum).length_le
  rw [braceSubsF_agree (rest.length + 1) ((rest.dropWhile isAlnum).length + 1)
    (rest.dropWhile isAlnum) (by omega) (by omega)]
  rfl

theorem braceSubs_cons_neg {c : Char} {rest : List Char}
    (h : ¬(c = '_' ∧ rest.takeWhile isAlnum ≠ [])) :
    braceSubs (c :: rest) = c :: braceSubs rest := by
  show braceSubsF ((c :: rest).length + 1) (c :: rest) = _
  simp only [List.length_cons, braceSubsF, if_neg h]
  rfl

theorem braceSubs_nil : braceSubs [] = [] := rfl

theorem braceSubs_cons_shape (c : Char) (rest : List Char) :
    ∃ t, braceSubs (c :: rest) = c :: t := by
  by_cases h : c = '_' ∧ rest.takeWhile isAlnum ≠ []
  · rw [braceSubs_cons_pos h, h.1]
    exact ⟨_, rfl⟩
  · rw [braceSubs_cons_neg h]
    exact ⟨_, rfl⟩

theorem braceSubs_noBare_aux :
    ∀ (n : Nat) (s : List Char), s.length ≤ n → noBareSub (braceSubs s) = true := by
  intro n
  induction n with
  | zero =>
    intro s h
    have : s = [] := List.length_eq_zero.mp (by omega)
    subst this
    rfl
  | succ m ih =>
    intro s hs
    cases s with
    | nil => rfl
    | cons c rest =>
      simp only [List.length_cons] at hs
      by_cases h : c = '_' ∧ rest.takeWhile isAlnum ≠ []
      · rw [braceSubs_cons_pos h]
        have hlenrun : 0 < (rest.takeWhile isAlnum).length := List.length_pos.mpr h.2
        have hsplit := congrArg List.length (List.takeWhile_append_dropWhile (p := isAlnum) (l := rest))
        simp only [List.length_append] at hsplit
        have hrec : noBareSub (braceSubs (rest.dropWhile isAlnum)) = true :=
          ih (rest.dropWhile isAlnum) (by omega)
        have hbrace : noBareSub ('}' :: braceSubs (rest.dropWhile isAlnum)) = true := by
          rw [noBareSub_cons]
          refine Bool.and_eq_true_iff.mpr ⟨?_, hrec⟩
          cases braceSubs (rest.dropWhile isAlnum) <;> simp
        have hmid : noBareSub (('{' :: rest.takeWhile isAlnum) ++
            ('}' :: braceSubs (rest.dropWhile isAlnum))) = true := by
          refine noBareSub_append_of_no_underscore _ _ ?_ hbrace
          intro x hx
          rcases List.mem_cons.mp hx with hx | hx
          · subst hx; decide
          · have hax : isAlnum x = true := List.mem_takeWhile_imp hx
            intro hxe
            subst hxe
            simp [isAlnum] at hax
        rw [noBareSub_cons]
        refine Bool.and_eq_true_iff.mpr ⟨?_, ?_⟩
        · show (!('_' == '_' && isAlnum '{')) = true
          decide
        · simpa using hmid
      · rw [braceSubs_cons_neg h]
        have hrec : noBareSub (braceSubs rest) = true := ih rest (by omega)
        cases rest with
        | nil => rfl
        | cons r rest' =>
          obtain ⟨t, ht⟩ := braceSubs_cons_shape r rest'
          rw [ht]
          rw [ht] at hrec
          rw [noBareSub_cons]
          refine Bool.and_eq_true_iff.mpr ⟨?_, hrec⟩
          rcases not_and_or.mp h with hc | hc
          · simp [hc]
          · have : rest'.takeWhile isAlnum = rest'.takeWhile isAlnum := rfl
            have hr : isAlnum r = false := by
              by_contra har
              apply hc
              simp only [List.takeWhile_cons]
              rw [Bool.not_eq_false] at har
              rw [har]
              simp
            simp [hr]

theorem braceSubs_noBare (s : List Char) : noBareSub (braceSubs s) = true :=
  braceSubs_noBare_aux s.length s le_rfl

theorem braceSubs_id_aux :
    ∀ (n : Nat) (s : List Char), s.length ≤ n → noBareSub s = true → braceSubs s = s := by
  intro n
  induction n with
  | zero =>
    intro s h _
    have : s = [] := List.length_eq_zero.mp (by omega)
    subst this
    rfl
  | succ m ih =>
    intro s hs hnb
    cases s with
    | nil => rfl
    | cons c rest =>
      simp only [List.length_cons] at hs
      by_cases h : c = '_' ∧ rest.takeWhile isAlnum ≠ []
      · exfalso
        obtain ⟨hc, hrun⟩ := h
        subst hc
        cases rest with
        | nil => simp at hrun
        | cons b rest' =>
          by_cases hb : isAlnum b = true
          · rw [noBareSub_cons] at hnb
            have := (Bool.and_eq_true_iff.mp hnb).1
            simp [hb] at this
          · apply hrun
            simp only [List.takeWhile_cons]
            rw [Bool.not_eq_true] at hb
            rw [hb]
            simp
      · rw [braceSubs_cons_neg h, ih rest (by omega) (noBareSub_of_cons hnb)]

theorem braceSubs_id {s : List Char} (h : noBareSub s = true) : braceSubs s = s :=
  braceSubs_id_aux s.length s le_rfl h

theorem mem_fixNewlines_ne_nl {s : List Char} {x : Char} (h : x ∈ fixNewlines s) :
    x ≠ '\n' := by
  simp only [fixNewlines, List.mem_map] at h
  obtain ⟨c, -, hc⟩ := h
  by_cases hcn : c = '\n'
  · rw [hcn] at hc
    simp at hc
    subst hc
    decide
  · rw [if_neg hcn] at hc
    subst hc
    exact hcn

theorem fixNewlines_id {s : List Char} (h : ∀ x ∈ s, x ≠ '\n') : fixNewlines s = s := by
  unfold fixNewlines
  induction s with
  | nil => rfl
  | cons c rest ih =>
    simp only [List.map_cons]
    rw [if_neg (h c (List.mem_cons_self c rest)), ih (fun x hx => h x (List.mem_cons_of_mem c hx))]

theorem mem_braceSubs_aux :
    ∀ (n : Nat) (s : List Char), s.length ≤ n → ∀ x ∈ braceSubs s, x ∈ s ∨ x = '{' ∨ x = '}' := by
  intro n
  induction n with
  | zero =>
    intro s h
    have : s = [] := List.length_eq_zero.mp (by omega)
    subst this
    intro x hx
    simp [braceSubs_nil] at hx
  | succ m ih =>
    intro s hs x hx
    cases s with
    | nil => simp [braceSubs_nil] at hx
    | cons c rest =>
      simp only [List.length_cons] at hs
      by_cases h : c = '_' ∧ rest.takeWhile isAlnum ≠ []
      · rw [braceSubs_cons_pos h] at hx
        have hsplit := congrArg List.length (List.takeWhile_append_dropWhile (p := isAlnum) (l := rest))
        simp only [List.length_append] at hsplit
        have hlenrun : 0 < (rest.takeWhile isAlnum).length := List.length_pos.mpr h.2
        rcases List.mem_cons.mp hx with hx1 | hx
        · left; rw [hx1, h.1]; exact List.mem_cons_self _ _
        rcases List.mem_cons.mp hx with hx1 | hx
        · right; left; exact hx1
        rcases List.mem_append.mp hx with hx1 | hx
        · left
          exact List.mem_cons_of_mem c ((List.takeWhile_sublist isAlnum).mem hx1)
        rcases List.mem_cons.mp hx with hx1 | hx
        · right; right; exact hx1
        · rcases ih (rest.dropWhile isAlnum) (by omega) x hx with hm | hb
          · left
            exact List.mem_cons_of_mem c ((List.dropWhile_sublist isAlnum).mem hm)
          · right; exact hb
      · rw [braceSubs_cons_neg h] at hx
        rcases List.mem_cons.mp hx with hx1 | hx
        · left; rw [hx1]; exact List.mem_cons_self c rest
        · rcases ih rest (by omega) x hx with hm | hb
          · left; exact List.mem_cons_of_mem c hm
          · right; exact hb

theorem mem_braceSubs {s : List Char} {x : Char} (hx : x ∈ braceSubs s) :
    x ∈ s ∨ x = '{' ∨ x = '}' :=
  mem_braceSubs_aux s.length s le_rfl x hx

theorem mem_fix_math_content_ne_nl {c : List Char} {x : Char}
    (hx : x ∈ fix_math_content c) : x ≠ '\n' := by
  rcases mem_braceSubs hx with hm | hb | hb
  · exact mem_fixNewlines_ne_nl hm
  · rw [hb]; decide
  · rw [hb]; decide

/-- **C5.** `fix_math_content` is idempotent with respect to subscript
bracing: a content string with no embedded newline whose subscripts are all
already braced (no underscore is followed by an alphanumeric character, as in
`x_{i}`) is returned unchanged, and for every string `c`,
`fix_math_content (fix_math_content c) = fix_math_content c`. -/
theorem claim_C5 :
    (∀ c : List Char, (∀ x ∈ c, x ≠ '\n') → noBareSub c = true → fix_math_content c = c) ∧
    (∀ c : List Char, fix_math_content (fix_math_content c) = fix_math_content c) := by
  constructor
  · intro c hnl hnb
    unfold fix_math_content
    rw [fixNewlines_id hnl, braceSubs_id hnb]
  · intro c
    show braceSubs (fixNewlines (braceSubs (fixNewlines c))) = braceSubs (fixNewlines c)
    rw [fixNewlines_id (s := braceSubs (fixNewlines c))
        (fun x hx => mem_fix_math_content_ne_nl (c := c) hx),
      braceSubs_id (braceSubs_noBare (fixNewlines c))]

/-- Witness for C5 at the concrete inputs `x_{i}` (already braced, returned
unchanged) and `x_1` (double application agrees with single application). -/
theorem claim_C5_witness :
    fix_math_content (strL "x_{i}") = strL "x_{i}" ∧
    fix_math_content (fix_math_content (strL "x_1")) = fix_math_content (strL "x_1") :=
  ⟨claim_C5.1 (strL "x_{i}") (by decide) (by decide), claim_C5.2 (strL "x_1")⟩

/-- **C9 (counterexample).** The span content `a \n + b` (with an actual
embedded newline surrounded by spaces) does *not* normalize to the content of
`$a + b$`: the newline becomes a single space, and the surrounding spaces are
kept, giving `a   + b` (three spaces), not `a + b`. -/
theorem claim_C9_counterexample :
    fix_math_content (strL "a \n + b") = strL "a   + b" ∧
    fix_math_content (strL "a \n + b") ≠ fix_math_content (strL "a + b") := by
  constructor
  · decide
  · decide

/-- **C9 (amended).** `fix_math_content` applies its two rules in order —
newline replacement first, then subscript bracing — so no output ever
contains a newline character; the content `a \n + b` normalizes to
`a   + b`: each newline becomes exactly one space and pre-existing spaces are
preserved. -/
theorem claim_C9 :
    (∀ (c : List Char) (x : Char), x ∈ fix_math_content c → x ≠ '\n') ∧
    fix_math_content (strL "a \n + b") = strL "a   + b" := by
  constructor
  · intro c x hx
    exact mem_fix_math_content_ne_nl hx
  · decide

/-- Witness for C9 at a concrete input: the normalized form of `a\nb`
contains no newline. -/
theorem claim_C9_witness :
    ('\n' ∈ fix_math_content (strL "a\nb") → False) ∧
    fix_math_content (strL "a \n + b") = strL "a   + b" :=
  ⟨fun h => claim_C9.1 (strL "a\nb") '\n' h rfl, claim_C9.2⟩

/-- A renderer-corrupted placeholder fragment: the marker text survives but no
longer matches any stored key. -/
def corruptedHtml : List Char := strL "<p>MATHPLACEHOLDERcorruptedENDMATHPLACEHOLDER</p>"

/-- **C4 (counterexample).** `restore_math` performs no cleanup of residual
placeholder-marker fragments: restoring a document whose only
placeholder-marker text is a corrupted fragment (matching no stored key)
leaves the fragment — marker and all — in the output. -/
theorem claim_C4_counterexample :
    restore_math corruptedHtml [(mkKey usd 0, strL "$ x $")] = corruptedHtml ∧
    containsSubB (restore_math corruptedHtml [(mkKey usd 0, strL "$ x $")]) markerL = true := by
  constructor
  · decide
  · decide

/-- **C4 (amended).** After `restore_math` has replaced all known
placeholders, *no* cleanup of residual unmatched placeholder-marker fragments
is performed: any text containing no occurrence of a stored key — corrupted
placeholder fragments included — is left in the output verbatim (in
particular no legitimate text is ever deleted). -/
theorem claim_C4 (html : List Char) (phs : List (List Char × List Char))
    (h : ∀ kv ∈ phs, containsSubB html kv.1 = false) :
    restore_math html phs = html :=
  restore_math_not_contains phs html h

/-- Witness for C4: a corrupted placeholder fragment passes through
`restore_math` unchanged. -/
theorem claim_C4_witness :
    restore_math corruptedHtml [(mkKey usd 0, strL "$ x $")] = corruptedHtml :=
  claim_C4 corruptedHtml [(mkKey usd 0, strL "$ x $")] (by decide)

/-! ## Lemmas about `fix_list_spacing` -/

theorem listItemMatch_nil : listItemMatch [] = false := rfl

theorem needsBlank_prev_blank (l : List Char) : needsBlank [] l = false := by
  simp [needsBlank, stripWs]

theorem needsBlank_nil (prev : List Char) : needsBlank prev [] = false := by
  simp [needsBlank, listItemMatch_nil]

/-- The claim's specification of the blank-line pass: keep the first line, and
for every adjacent pair of original lines emit a blank line before the second
exactly when it matches the list-item pattern while the line immediately
preceding it is nonblank and not itself a list item. -/
def specInsert (ls : List (List Char)) : List (List Char) :=
  match ls with
  | [] => []
  | l0 :: rest =>
    l0 :: (List.zip (l0 :: rest) rest).flatMap
      (fun pl => if needsBlank pl.1 pl.2 then [[], pl.2] else [pl.2])

theorem fixLinesGo_eq_spec :
    ∀ (ls : List (List Char)) (prev : List Char),
      fixLinesGo prev ls =
        (List.zip (prev :: ls) ls).flatMap
          (fun pl => if needsBlank pl.1 pl.2 then [[], pl.2] else [pl.2]) := by
  intro ls
  induction ls with
  | nil => intro prev; rfl
  | cons l ls' ih =>
    intro prev
    rw [List.zip_cons_cons, List.flatMap_cons, fixLinesGo, ih l]
    by_cases h : needsBlank prev l = true
    · rw [if_pos h, if_pos h]
      rfl
    · rw [if_neg h, if_neg h]
      rfl

theorem fixLines_eq_specInsert (ls : List (List Char)) : fixLines ls = specInsert ls := by
  cases ls with
  | nil => rfl
  | cons l0 rest =>
    show l0 :: fixLinesGo l0 rest = specInsert (l0 :: rest)
    rw [fixLinesGo_eq_spec rest l0]
    rfl

/-- **C6.** `fix_list_spacing` inserts a blank line exactly before every line
that matches the list-item pattern, is not the first line, and whose
immediately preceding original line is nonblank and not itself a list item —
and inserts nothing otherwise; in particular `"text\n- item"` becomes
`"text\n\n- item"` and `"- item1\n- item2"` is returned unchanged. -/
theorem claim_C6 :
    (∀ s : List Char, fix_list_spacing s = joinNl (specInsert (splitNl s))) ∧
    fix_list_spacing (strL "text\n- item") = strL "text\n\n- item" ∧
    fix_list_spacing (strL "- item1\n- item2") = strL "- item1\n- item2" := by
  refine ⟨fun s => ?_, by decide, by decide⟩
  unfold fix_list_spacing
  rw [fixLines_eq_specInsert]

/-- Adjacent-pair invariant: no line of `ls` together with its predecessor
(`prev` for the head) triggers a blank-line insertion. -/
def chainOkB : List Char → List (List Char) → Bool
  | _, [] => true
  | prev, l :: ls => !needsBlank prev l && chainOkB l ls

theorem fixLinesGo_of_chainOk :
    ∀ (ls : List (List Char)) (prev : List Char),
      chainOkB prev ls = true → fixLinesGo prev ls = ls := by
  intro ls
  induction ls with
  | nil => intro prev _; rfl
  | cons l ls' ih =>
    intro prev h
    simp only [chainOkB, Bool.and_eq_true_iff, Bool.not_eq_true'] at h
    rw [fixLinesGo, if_neg (by simp [h.1]), ih l h.2]

theorem chainOk_fixLinesGo :
    ∀ (ls : List (List Char)) (prev : List Char),
      chainOkB prev (fixLinesGo prev ls) = true := by
  intro ls
  induction ls with
  | nil => intro prev; rfl
  | cons l ls' ih =>
    intro prev
    rw [fixLinesGo]
    by_cases h : needsBlank prev l = true
    · rw [if_pos h]
      show (!needsBlank prev [] && (!needsBlank [] l && chainOkB l (fixLinesGo l ls'))) = true
      rw [needsBlank_nil, needsBlank_prev_blank, ih l]
      rfl
    · rw [if_neg h]
      show (!needsBlank prev l && chainOkB l (fixLinesGo l ls')) = true
      rw [Bool.not_eq_true] at h
      rw [h, ih l]
      rfl

theorem splitNl_ne_nil (s : List Char) : splitNl s ≠ [] := by
  cases s with
  | nil => simp [splitNl]
  | cons c rest => by_cases h : c = '\n' <;> simp [splitNl, h]

theorem mem_splitNl_no_nl : ∀ (s : List Char), ∀ l ∈ splitNl s, '\n' ∉ l := by
  intro s
  induction s with
  | nil =>
    intro l hl
    simp only [splitNl, List.mem_singleton] at hl
    simp [hl]
  | cons c rest ih =>
    intro l hl
    by_cases h : c = '\n'
    · rw [splitNl, if_pos h] at hl
      rcases List.mem_cons.mp hl with h1 | h1
      · simp [h1]
      · exact ih l h1
    · rw [splitNl, if_neg h] at hl
      cases hsr : splitNl rest with
      | nil => exact absurd hsr (splitNl_ne_nil rest)
      | cons m ms =>
        rw [hsr] at hl
        rcases List.mem_cons.mp hl with h1 | h1
        · subst h1
          intro hmem
          rcases List.mem_cons.mp hmem with h2 | h2
          · exact h h2.symm
          · exact ih m (hsr ▸ List.mem_cons_self m ms) (by simpa using h2)
        · exact ih l (hsr ▸ List.mem_cons_of_mem m (by simpa using h1))

theorem joinNl_single (l : List Char) : joinNl [l] = l := by
  simp [joinNl, List.intercalate]

theorem joinNl_cons₂ (l m : List Char) (ls : List (List Char)) :
    joinNl (l :: m :: ls) = l ++ '\n' :: joinNl (m :: ls) := by
  simp [joinNl, List.intercalate, List.intersperse]

theorem splitNl_no_nl_id {l : List Char} (h : '\n' ∉ l) : splitNl l = [l] := by
  induction l with
  | nil => rfl
  | cons c rest ih =>
    have hc : c ≠ '\n' := fun hc => h (hc ▸ List.mem_cons_self c rest)
    have hr : '\n' ∉ rest := fun hm => h (List.mem_cons_of_mem c hm)
    rw [splitNl, if_neg hc, ih hr]
    rfl

theorem splitNl_append_nl {l : List Char} (X : List Char) (h : '\n' ∉ l) :
    splitNl (l ++ '\n' :: X) = l :: splitNl X := by
  induction l with
  | nil =>
    show splitNl ('\n' :: X) = [] :: splitNl X
    rw [splitNl, if_pos rfl]
  | cons c rest ih =>
    have hc : c ≠ '\n' := fun hc => h (hc ▸ List.mem_cons_self c rest)
    have hr : '\n' ∉ rest := fun hm => h (List.mem_cons_of_mem c hm)
    show splitNl (c :: (rest ++ '\n' :: X)) = (c :: rest) :: splitNl X
    rw [splitNl, if_neg hc, ih hr]
    rfl

theorem splitNl_joinNl :
    ∀ (ls : List (List Char)), ls ≠ [] → (∀ l ∈ ls, '\n' ∉ l) →
      splitNl (joinNl ls) = ls := by
  intro ls
  induction ls with
  | nil => intro h _; exact absurd rfl h
  | cons l rest ih =>
    intro _ hno
    cases rest with
    | nil =>
      rw [joinNl_single]
      exact splitNl_no_nl_id (hno l (List.mem_cons_self l []))
    | cons m ms =>
      rw [joinNl_cons₂, splitNl_append_nl _ (hno l (List.mem_cons_self l _)),
        ih (by simp) (fun x hx => hno x (List.mem_cons_of_mem l hx))]

theorem mem_fixLinesGo :
    ∀ (ls : List (List Char)) (prev l : List Char),
      l ∈ fixLinesGo prev ls → l ∈ ls ∨ l = [] := by
  intro ls
  induction ls with
  | nil => intro prev l h; simp [fixLinesGo] at h
  | cons x ls' ih =>
    intro prev l h
    rw [fixLinesGo] at h
    by_cases hc : needsBlank prev x = true
    · rw [if_pos hc] at h
      rcases List.mem_cons.mp h with h1 | h1
      · right; exact h1
      rcases List.mem_cons.mp h1 with h2 | h2
      · left; exact h2 ▸ List.mem_cons_self x ls'
      · rcases ih x l h2 with hm | hm
        · left; exact List.mem_cons_of_mem x hm
        · right; exact hm
    · rw [if_neg hc] at h
      rcases List.mem_cons.mp h with h2 | h2
      · left; exact h2 ▸ List.mem_cons_self x ls'
      · rcases ih x l h2 with hm | hm
        · left; exact List.mem_cons_of_mem x hm
        · right; exact hm

/-- **C10.** `fix_list_spacing` is idempotent: after one pass every list-item
line already has a blank line or another list-item line directly above it, so
a second pass inserts nothing. -/
theorem claim_C10 (s : List Char) :
    fix_list_spacing (fix_list_spacing s) = fix_list_spacing s := by
  obtain ⟨l0, ls0, hs⟩ : ∃ l0 ls0, splitNl s = l0 :: ls0 := by
    cases hsp : splitNl s with
    | nil => exact absurd hsp (splitNl_ne_nil s)
    | cons a b => exact ⟨a, b, rfl⟩
  have hnl : ∀ l ∈ l0 :: ls0, '\n' ∉ l := fun l hl => mem_splitNl_no_nl s l (hs ▸ hl)
  show fix_list_spacing (joinNl (fixLines (splitNl s))) = _
  rw [hs]
  show fix_list_spacing (joinNl (l0 :: fixLinesGo l0 ls0)) = _
  have hnl' : ∀ l ∈ l0 :: fixLinesGo l0 ls0, '\n' ∉ l := by
    intro l hl
    rcases List.mem_cons.mp hl with h1 | h1
    · exact h1 ▸ hnl l0 (List.mem_cons_self l0 ls0)
    · rcases mem_fixLinesGo ls0 l0 l h1 with hm | hm
      · exact hnl l (List.mem_cons_of_mem l0 hm)
      · simp [hm]
  show joinNl (fixLines (splitNl (joinNl (l0 :: fixLinesGo l0 ls0)))) = _
  rw [splitNl_joinNl _ (by simp) hnl']
  have hR : fix_list_spacing s = joinNl (l0 :: fixLinesGo l0 ls0) := by
    unfold fix_list_spacing
    rw [hs]
    rfl
  rw [hR]
  show joinNl (l0 :: fixLinesGo l0 (fixLinesGo l0 ls0)) = joinNl (l0 :: fixLinesGo l0 ls0)
  rw [fixLinesGo_of_chainOk _ _ (chainOk_fixLinesGo ls0 l0)]

/-! ## Step lemmas for the three extraction passes -/

theorem pass1F_nil (us : Nat → List Char) (fuel : Nat) (st : ExtractState) :
    pass1F us fuel [] st = ([], st) := by
  cases fuel <;> rfl

theorem pass1F_agree (us : Nat → List Char) :
    ∀ (f₁ f₂ : Nat) (s : List Char) (st : ExtractState),
      s.length < f₁ → s.length < f₂ → pass1F us f₁ s st = pass1F us f₂ s st := by
  intro f₁
  induction f₁ with
  | zero => intro f₂ s st h1 _; omega
  | succ f ih =>
    intro f₂ s st h1 h2
    match f₂ with
    | 0 => omega
    | g + 1 =>
      cases s with
      | nil => rfl
      | cons c rest =>
        simp only [List.length_cons] at h1 h2
        have htl : rest.tail.length ≤ rest.length := by
          cases rest <;> simp
        simp only [pass1F]
        cases hsc : (if c = '$' ∧ rest.head? = some '$' then findSub ['$', '$'] rest.tail
            else none) with
        | some j =>
          simp only [hsc]
          have hd : (rest.tail.drop (j + 2)).length ≤ rest.tail.length := by
            simp only [List.length_drop]
            omega
          rw [ih g (rest.tail.drop (j + 2)) _ (by omega) (by omega)]
        | none =>
          simp only [hsc]
          rw [ih g rest st (by omega) (by omega)]

theorem pass1_cons_none {c : Char} {rest : List Char}
    (h : (if c = '$' ∧ rest.head? = some '$' then findSub ['$', '$'] rest.tail else none)
        = none)
    (us : Nat → List Char) (st : ExtractState) :
    pass1 us (c :: rest) st = (c :: (pass1 us rest st).1, (pass1 us rest st).2) := by
  show pass1F us ((c :: rest).length + 1) (c :: rest) st = _
  simp only [List.length_cons]
  show pass1F us (rest.length + 1 + 1) (c :: rest) st = _
  simp only [pass1F, h]
  rfl

theorem pass1_cons_some {c : Char} {rest : List Char} {j : Nat}
    (h : (if c = '$' ∧ rest.head? = some '$' then findSub ['$', '$'] rest.tail else none)
        = some j)
    (us : Nat → List Char) (st : ExtractState) :
    pass1 us (c :: rest) st =
      (mkKey us st.ctr ++
          (pass1 us (rest.tail.drop (j + 2))
            ⟨st.phs ++ [(mkKey us st.ctr, wrapMath true false (fix_math_content (rest.tail.take j)))],
              st.ctr + 1⟩).1,
        (pass1 us (rest.tail.drop (j + 2))
          ⟨st.phs ++ [(mkKey us st.ctr, wrapMath true false (fix_math_content (rest.tail.take j)))],
            st.ctr + 1⟩).2) := by
  show pass1F us ((c :: rest).length + 1) (c :: rest) st = _
  simp only [List.length_cons]
  show pass1F us (rest.length + 1 + 1) (c :: rest) st = _
  simp only [pass1F, h]
  have htl : rest.tail.length ≤ rest.length := by
    cases rest <;> simp
  have hd : (rest.tail.drop (j + 2)).length ≤ rest.tail.length := by
    simp only [List.length_drop]
    omega
  rw [pass1F_agree us (rest.length + 1) ((rest.tail.drop (j + 2)).length + 1)
      (rest.tail.drop (j + 2)) _ (by omega) (by omega)]
  rfl

theorem pass2F_nil (us : Nat → List Char) (fuel : Nat) (st : ExtractState) :
    pass2F us fuel [] st = ([], st) := by
  cases fuel <;> rfl

theorem pass2F_agree (us : Nat → List Char) :
    ∀ (f₁ f₂ : Nat) (s : List Char) (st : ExtractState),
      s.length < f₁ → s.length < f₂ → pass2F us f₁ s st = pass2F us f₂ s st := by
  intro f₁
  induction f₁ with
  | zero => intro f₂ s st h1 _; omega
  | succ f ih =>
    intro f₂ s st h1 h2
    match f₂ with
    | 0 => omega
    | g + 1 =>
      cases s with
      | nil => rfl
      | cons c rest =>
        simp only [List.length_cons] at h1 h2
        simp only [pass2F]
        cases hsc : (if c = '$' then findSub ['$'] rest else none) with
        | some j =>
          simp only [hsc]
          have hd : (rest.drop (j + 1)).length ≤ rest.length := by
            simp only [List.length_drop]
            omega
          rw [ih g (rest.drop (j + 1)) _ (by omega) (by omega)]
        | none =>
          simp only [hsc]
          rw [ih g rest st (by omega) (by omega)]

theorem pass2_cons_none {c : Char} {rest : List Char}
    (h : (if c = '$' then findSub ['$'] rest else none) = none)
    (us : Nat → List Char) (st : ExtractState) :
    pass2 us (c :: rest) st = (c :: (pass2 us rest st).1, (pass2 us rest st).2) := by
  show pass2F us ((c :: rest).length + 1) (c :: rest) st = _
  simp only [List.length_cons]
  show pass2F us (rest.length + 1 + 1) (c :: rest) st = _
  simp only [pass2F, h]
  rfl

theorem pass2_cons_some {c : Char} {rest : List Char} {j : Nat}
    (h : (if c = '$' then findSub ['$'] rest else none) = some j)
    (us : Nat → List Char) (st : ExtractState) :
    pass2 us (c :: rest) st =
      (mkKey us st.ctr ++
          (pass2 us (rest.drop (j + 1))
            ⟨st.phs ++ [(mkKey us st.ctr, wrapMath false false (fix_math_content (rest.take j)))],
              st.ctr + 1⟩).1,
        (pass2 us (rest.drop (j + 1))
          ⟨st.phs ++ [(mkKey us st.ctr, wrapMath false false (fix_math_content (rest.take j)))],
            st.ctr + 1⟩).2) := by
  show pass2F us ((c :: rest).length + 1) (c :: rest) st = _
  simp only [List.length_cons]
  show pass2F us (rest.length + 1 + 1) (c :: rest) st = _
  simp only [pass2F, h]
  have hd : (rest.drop (j + 1)).length ≤ rest.length := by
    simp only [List.length_drop]
    omega
  rw [pass2F_agree us (rest.length + 1) ((rest.drop (j + 1)).length + 1)
      (rest.drop (j + 1)) _ (by omega) (by omega)]
  rfl

theorem pass3F_nil (us : Nat → List Char) (fuel : Nat) (st : ExtractState) :
    pass3F us fuel [] st = ([], st) := by
  cases fuel <;> rfl

theorem pass3F_agree (us : Nat → List Char) :
    ∀ (f₁ f₂ : Nat) (s : List Char) (st : ExtractState),
      s.length < f₁ → s.length < f₂ → pass3F us f₁ s st = pass3F us f₂ s st := by
  intro f₁
  induction f₁ with
  | zero => intro f₂ s st h1 _; omega
  | succ f ih =>
    intro f₂ s st h1 h2
    match f₂ with
    | 0 => omega
    | g + 1 =>
      cases s with
      | nil => rfl
      | cons c rest =>
        simp only [List.length_cons] at h1 h2
        simp only [pass3F]
        cases hsc : (if c = '[' then findSub [']'] rest else none) with
        | some j =>
          simp only [hsc]
          have hd : (rest.drop (j + 1)).length ≤ rest.length := by
            simp only [List.length_drop]
            omega
          by_cases hm : (stripWs (rest.take j)).any isMathChar = true
          · rw [if_pos hm, if_pos hm, ih g (rest.drop (j + 1)) _ (by omega) (by omega)]
          · rw [if_neg hm, if_neg hm, ih g (rest.drop (j + 1)) st (by omega) (by omega)]
        | none =>
          simp only [hsc]
          rw [ih g rest st (by omega) (by omega)]

theorem pass3_cons_none {c : Char} {rest : List Char}
    (h : (if c = '[' then findSub [']'] rest else none) = none)
    (us : Nat → List Char) (st : ExtractState) :
    pass3 us (c :: rest) st = (c :: (pass3 us rest st).1, (pass3 us rest st).2) := by
  show pass3F us ((c :: rest).length + 1) (c :: rest) st = _
  simp only [List.length_cons]
  show pass3F us (rest.length + 1 + 1) (c :: rest) st = _
  simp only [pass3F, h]
  rfl

theorem pass3_cons_some_math {c : Char} {rest : List Char} {j : Nat}
    (h : (if c = '[' then findSub [']'] rest else none) = some j)
    (hm : (stripWs (rest.take j)).any isMathChar = true)
    (us : Nat → List Char) (st : ExtractState) :
    pass3 us (c :: rest) st =
      (mkKey us st.ctr ++
          (pass3 us (rest.drop (j + 1))
            ⟨st.phs ++ [(mkKey us st.ctr, wrapMath true true (fix_math_content (stripWs (rest.take j))))],
              st.ctr + 1⟩).1,
        (pass3 us (rest.drop (j + 1))
          ⟨st.phs ++ [(mkKey us st.ctr, wrapMath true true (fix_math_content (stripWs (rest.take j))))],
            st.ctr + 1⟩).2) := by
  show pass3F us ((c :: rest).length + 1) (c :: rest) st = _
  simp only [List.length_cons]
  show pass3F us (rest.length + 1 + 1) (c :: rest) st = _
  simp only [pass3F, h, hm, if_pos]
  have hd : (rest.drop (j + 1)).length ≤ rest.length := by
    simp only [List.length_drop]
    omega
  rw [pass3F_agree us (rest.length + 1) ((rest.drop (j + 1)).length + 1)
      (rest.drop (j + 1)) _ (by omega) (by omega)]
  rfl

theorem pass3_cons_some_plain {c : Char} {rest : List Char} {j : Nat}
    (h : (if c = '[' then findSub [']'] rest else none) = some j)
    (hm : (stripWs (rest.take j)).any isMathChar = false)
    (us : Nat → List Char) (st : ExtractState) :
    pass3 us (c :: rest) st =
      ('[' :: (rest.take j ++ ']' :: (pass3 us (rest.drop (j + 1)) st).1),
        (pass3 us (rest.drop (j + 1)) st).2) := by
  show pass3F us ((c :: rest).length + 1) (c :: rest) st = _
  simp only [List.length_cons]
  show pass3F us (rest.length + 1 + 1) (c :: rest) st = _
  simp only [pass3F, h, hm]
  have hd : (rest.drop (j + 1)).length ≤ rest.length := by
    simp only [List.length_drop]
    omega
  rw [pass3F_agree us (rest.length + 1) ((rest.drop (j + 1)).length + 1)
      (rest.drop (j + 1)) st (by omega) (by omega), if_neg Bool.false_ne_true]
  rfl

/-! ## Locating delimiters with `findSub` -/

theorem findSub_none_of_not_mem {c : Char} :
    ∀ (l : List Char), c ∉ l → findSub [c] l = none := by
  intro l
  induction l with
  | nil => intro _; rfl
  | cons x rest ih =>
    intro h
    have hx : c ≠ x := fun hc => h (hc ▸ List.mem_cons_self x rest)
    have hr : c ∉ rest := fun hm => h (List.mem_cons_of_mem x hm)
    simp only [findSub, List.isPrefixOf]
    rw [if_neg (by simp [hx]), ih hr]
    rfl

theorem findSub_singleton_append {c : Char} :
    ∀ (l : List Char), c ∉ l → ∀ (r : List Char),
      findSub [c] (l ++ c :: r) = some l.length := by
  intro l
  induction l with
  | nil =>
    intro _ r
    simp [findSub, List.isPrefixOf]
  | cons x l' ih =>
    intro h r
    have hx : c ≠ x := fun hc => h (hc ▸ List.mem_cons_self x l')
    have hr : c ∉ l' := fun hm => h (List.mem_cons_of_mem x hm)
    simp only [List.cons_append, findSub, List.isPrefixOf, List.append_eq]
    rw [if_neg (by simp [hx]), ih hr r]
    rfl

theorem findSub_pair_append :
    ∀ (l : List Char), '$' ∉ l → ∀ (r : List Char),
      findSub ['$', '$'] (l ++ '$' :: '$' :: r) = some l.length := by
  intro l
  induction l with
  | nil =>
    intro _ r
    simp [findSub, List.isPrefixOf]
  | cons x l' ih =>
    intro h r
    have hx : ('$' : Char) ≠ x := fun hc => h (hc ▸ List.mem_cons_self x l')
    have hr : '$' ∉ l' := fun hm => h (List.mem_cons_of_mem x hm)
    simp only [List.cons_append, findSub, List.isPrefixOf, List.append_eq]
    rw [if_neg (by simp [hx]), ih hr r]
    rfl

/-! ## Scanning lemmas for the passes on structured text -/

theorem pass1_nil (us : Nat → List Char) (st : ExtractState) : pass1 us [] st = ([], st) := rfl

theorem pass2_nil (us : Nat → List Char) (st : ExtractState) : pass2 us [] st = ([], st) := rfl

theorem pass3_nil (us : Nat → List Char) (st : ExtractState) : pass3 us [] st = ([], st) := rfl

theorem pass1_cons_ne_dollar {c : Char} (hc : c ≠ '$') {rest : List Char}
    (us : Nat → List Char) (st : ExtractState) :
    pass1 us (c :: rest) st = (c :: (pass1 us rest st).1, (pass1 us rest st).2) := by
  refine pass1_cons_none ?_ us st
  rw [if_neg]
  rintro ⟨hc', -⟩
  exact hc hc'

theorem pass1_append_no_dollar :
    ∀ (g : List Char), '$' ∉ g → ∀ (t : List Char) (us : Nat → List Char) (st : ExtractState),
      pass1 us (g ++ t) st = (g ++ (pass1 us t st).1, (pass1 us t st).2) := by
  intro g
  induction g with
  | nil => intro _ t us st; simp
  | cons c g' ih =>
    intro h t us st
    have hc : c ≠ '$' := fun hc => h (hc ▸ List.mem_cons_self c g')
    have hg : '$' ∉ g' := fun hm => h (List.mem_cons_of_mem c hm)
    rw [List.cons_append, pass1_cons_ne_dollar hc, ih hg t us st]
    simp

theorem pass1_no_dollar {s : List Char} (h : '$' ∉ s)
    (us : Nat → List Char) (st : ExtractState) : pass1 us s st = (s, st) := by
  have := pass1_append_no_dollar s h [] us st
  simpa [pass1_nil] using this

theorem pass2_cons_ne_dollar {c : Char} (hc : c ≠ '$') {rest : List Char}
    (us : Nat → List Char) (st : ExtractState) :
    pass2 us (c :: rest) st = (c :: (pass2 us rest st).1, (pass2 us rest st).2) := by
  refine pass2_cons_none ?_ us st
  rw [if_neg hc]

theorem pass2_append_no_dollar :
    ∀ (g : List Char), '$' ∉ g → ∀ (t : List Char) (us : Nat → List Char) (st : ExtractState),
      pass2 us (g ++ t) st = (g ++ (pass2 us t st).1, (pass2 us t st).2) := by
  intro g
  induction g with
  | nil => intro _ t us st; simp
  | cons c g' ih =>
    intro h t us st
    have hc : c ≠ '$' := fun hc => h (hc ▸ List.mem_cons_self c g')
    have hg : '$' ∉ g' := fun hm => h (List.mem_cons_of_mem c hm)
    rw [List.cons_append, pass2_cons_ne_dollar hc, ih hg t us st]
    simp

theorem pass2_no_dollar {s : List Char} (h : '$' ∉ s)
    (us : Nat → List Char) (st : ExtractState) : pass2 us s st = (s, st) := by
  have := pass2_append_no_dollar s h [] us st
  simpa [pass2_nil] using this

theorem pass3_cons_ne_bracket {c : Char} (hc : c ≠ '[') {rest : List Char}
    (us : Nat → List Char) (st : ExtractState) :
    pass3 us (c :: rest) st = (c :: (pass3 us rest st).1, (pass3 us rest st).2) := by
  refine pass3_cons_none ?_ us st
  rw [if_neg hc]

theorem pass3_append_no_bracket :
    ∀ (g : List Char), '[' ∉ g → ∀ (t : List Char) (us : Nat → List Char) (st : ExtractState),
      pass3 us (g ++ t) st = (g ++ (pass3 us t st).1, (pass3 us t st).2) := by
  intro g
  induction g with
  | nil => intro _ t us st; simp
  | cons c g' ih =>
    intro h t us st
    have hc : c ≠ '[' := fun hc => h (hc ▸ List.mem_cons_self c g')
    have hg : '[' ∉ g' := fun hm => h (List.mem_cons_of_mem c hm)
    rw [List.cons_append, pass3_cons_ne_bracket hc, ih hg t us st]
    simp

theorem pass3_no_bracket {s : List Char} (h : '[' ∉ s)
    (us : Nat → List Char) (st : ExtractState) : pass3 us s st = (s, st) := by
  have := pass3_append_no_bracket s h [] us st
  simpa [pass3_nil] using this

theorem pass2_inline {content : List Char} (hc : '$' ∉ content)
    (t : List Char) (us : Nat → List Char) (st : ExtractState) :
    pass2 us ('$' :: (content ++ '$' :: t)) st =
      (mkKey us st.ctr ++
          (pass2 us t
            ⟨st.phs ++ [(mkKey us st.ctr, wrapMath false false (fix_math_content content))],
              st.ctr + 1⟩).1,
        (pass2 us t
          ⟨st.phs ++ [(mkKey us st.ctr, wrapMath false false (fix_math_content content))],
            st.ctr + 1⟩).2) := by
  have hfs : (if ('$' : Char) = '$' then findSub ['$'] (content ++ '$' :: t) else none)
      = some content.length := by
    rw [if_pos rfl, findSub_singleton_append content hc t]
  have h := pass2_cons_some hfs us st
  rw [h, List.take_left, show (content ++ '$' :: t).drop (content.length + 1) = t from ?_]
  have : content ++ '$' :: t = (content ++ ['$']) ++ t := by simp
  rw [this, show content.length + 1 = (content ++ ['$']).length from (by simp), List.drop_left]

theorem pass1_display {content : List Char} (hc : '$' ∉ content)
    (t : List Char) (us : Nat → List Char) (st : ExtractState) :
    pass1 us ('$' :: '$' :: (content ++ '$' :: '$' :: t)) st =
      (mkKey us st.ctr ++
          (pass1 us t
            ⟨st.phs ++ [(mkKey us st.ctr, wrapMath true false (fix_math_content content))],
              st.ctr + 1⟩).1,
        (pass1 us t
          ⟨st.phs ++ [(mkKey us st.ctr, wrapMath true false (fix_math_content content))],
            st.ctr + 1⟩).2) := by
  have hfs : (if ('$' : Char) = '$' ∧ (('$' :: (content ++ '$' :: '$' :: t)) : List Char).head? = some '$'
        then findSub ['$', '$'] (('$' :: (content ++ '$' :: '$' :: t)) : List Char).tail else none)
      = some content.length := by
    rw [if_pos ⟨rfl, rfl⟩]
    exact findSub_pair_append content hc t
  have h := pass1_cons_some hfs us st
  simp only [List.tail_cons] at h
  rw [h, List.take_left, show (content ++ '$' :: '$' :: t).drop (content.length + 2) = t from ?_]
  have : content ++ '$' :: '$' :: t = (content ++ ['$', '$']) ++ t := by simp
  rw [this, show content.length + 2 = (content ++ ['$', '$']).length from (by simp), List.drop_left]

theorem pass1_skip_inline {content : List Char} (hne : content ≠ []) (hc : '$' ∉ content)
    {t : List Char} (ht : t.head? ≠ some '$') (us : Nat → List Char) (st : ExtractState) :
    pass1 us ('$' :: (content ++ '$' :: t)) st =
      ('$' :: (content ++ '$' :: (pass1 us t st).1), (pass1 us t st).2) := by
  cases content with
  | nil => exact absurd rfl hne
  | cons x cs =>
    have hx : x ≠ '$' := fun hc' => hc (hc' ▸ List.mem_cons_self x cs)
    have hcs : '$' ∉ cs := fun hm => hc (List.mem_cons_of_mem x hm)
    have h1 : pass1 us ('$' :: ((x :: cs) ++ '$' :: t)) st =
        ('$' :: (pass1 us ((x :: cs) ++ '$' :: t) st).1,
          (pass1 us ((x :: cs) ++ '$' :: t) st).2) := by
      refine pass1_cons_none ?_ us st
      rw [if_neg]
      rintro ⟨-, hh⟩
      simp only [List.cons_append, List.head?_cons, Option.some.injEq] at hh
      exact hx hh
    rw [h1, List.cons_append, pass1_cons_ne_dollar hx us st,
      pass1_append_no_dollar cs hcs ('$' :: t) us st]
    have h2 : pass1 us ('$' :: t) st = ('$' :: (pass1 us t st).1, (pass1 us t st).2) := by
      refine pass1_cons_none ?_ us st
      rw [if_neg]
      rintro ⟨-, hh⟩
      exact ht hh
    rw [h2]
    simp

theorem pass3_bracket_math {inside : List Char} (hni : ']' ∉ inside)
    (hm : (stripWs inside).any isMathChar = true)
    (t : List Char) (us : Nat → List Char) (st : ExtractState) :
    pass3 us ('[' :: (inside ++ ']' :: t)) st =
      (mkKey us st.ctr ++
          (pass3 us t
            ⟨st.phs ++ [(mkKey us st.ctr, wrapMath true true (fix_math_content (stripWs inside)))],
              st.ctr + 1⟩).1,
        (pass3 us t
          ⟨st.phs ++ [(mkKey us st.ctr, wrapMath true true (fix_math_content (stripWs inside)))],
            st.ctr + 1⟩).2) := by
  have hfs : (if ('[' : Char) = '[' then findSub [']'] (inside ++ ']' :: t) else none)
      = some inside.length := by
    rw [if_pos rfl, findSub_singleton_append inside hni t]
  have hm' : (stripWs ((inside ++ ']' :: t).take inside.length)).any isMathChar = true := by
    rw [List.take_left]
    exact hm
  have h := pass3_cons_some_math hfs hm' us st
  rw [h, List.take_left, show (inside ++ ']' :: t).drop (inside.length + 1) = t from ?_]
  have heq : inside ++ ']' :: t = (inside ++ [']']) ++ t := by simp
  rw [heq, show inside.length + 1 = (inside ++ [']']).length from (by simp), List.drop_left]

theorem pass3_bracket_plain {inside : List Char} (hni : ']' ∉ inside)
    (hm : (stripWs inside).any isMathChar = false)
    (t : List Char) (us : Nat → List Char) (st : ExtractState) :
    pass3 us ('[' :: (inside ++ ']' :: t)) st =
      ('[' :: (inside ++ ']' :: (pass3 us t st).1), (pass3 us t st).2) := by
  have hfs : (if ('[' : Char) = '[' then findSub [']'] (inside ++ ']' :: t) else none)
      = some inside.length := by
    rw [if_pos rfl, findSub_singleton_append inside hni t]
  have hm' : (stripWs ((inside ++ ']' :: t).take inside.length)).any isMathChar = false := by
    rw [List.take_left]
    exact hm
  have h := pass3_cons_some_plain hfs hm' us st
  rw [h, List.take_left, show (inside ++ ']' :: t).drop (inside.length + 1) = t from ?_]
  have heq : inside ++ ']' :: t = (inside ++ [']']) ++ t := by simp
  rw [heq, show inside.length + 1 = (inside ++ [']']).length from (by simp), List.drop_left]

/-- **C7.** The bracket heuristic treats a bracketed span `[ ... ]` as math
exactly when its stripped content contains at least one character of the fixed
formula character set: a bracket span without such a character is left
untouched by pass 3, one with such a character is extracted and stored as
`\[ ... \]`; concretely, `"[see here](link)"` passes through the whole
pipeline (extract + restore) unmodified, while `"[x^2 + 1]"` comes out as
`"\[ x^2 + 1 \]"`. -/
theorem claim_C7 :
    (∀ (us : Nat → List Char) (st : ExtractState) (inside : List Char), ']' ∉ inside →
      (stripWs inside).any isMathChar = false →
      pass3 us ('[' :: (inside ++ [']'])) st = ('[' :: (inside ++ [']']), st)) ∧
    (∀ (us : Nat → List Char) (st : ExtractState) (inside : List Char), ']' ∉ inside →
      (stripWs inside).any isMathChar = true →
      pass3 us ('[' :: (inside ++ [']'])) st =
        (mkKey us st.ctr,
          ⟨st.phs ++ [(mkKey us st.ctr, wrapMath true true (fix_math_content (stripWs inside)))],
            st.ctr + 1⟩)) ∧
    restore_math (process_math_pre_markdown usd (strL "[see here](link)")).1
        (process_math_pre_markdown usd (strL "[see here](link)")).2 = strL "[see here](link)" ∧
    restore_math (process_math_pre_markdown usd (strL "[x^2 + 1]")).1
        (process_math_pre_markdown usd (strL "[x^2 + 1]")).2 = strL "\\[ x^2 + 1 \\]" := by
  refine ⟨?_, ?_, by decide, by decide⟩
  · intro us st inside hni hm
    rw [show inside ++ [']'] = inside ++ ']' :: ([] : List Char) from rfl,
      pass3_bracket_plain hni hm [] us st, pass3_nil]
  · intro us st inside hni hm
    rw [show inside ++ [']'] = inside ++ ']' :: ([] : List Char) from rfl,
      pass3_bracket_math hni hm [] us st, pass3_nil]
    simp

/-- Witness for C7: the plain-text bracket span `[see here]` is left
untouched, and the math bracket span `[x^2 + 1]` is extracted. -/
theorem claim_C7_witness :
    pass3 usd ('[' :: (strL "see here" ++ [']'])) ⟨[], 0⟩ =
      ('[' :: (strL "see here" ++ [']']), ⟨[], 0⟩) ∧
    pass3 usd ('[' :: (strL "x^2 + 1" ++ [']'])) ⟨[], 0⟩ =
      (mkKey usd 0,
        ⟨[(mkKey usd 0, wrapMath true true (fix_math_content (stripWs (strL "x^2 + 1"))))], 1⟩) :=
  ⟨claim_C7.1 usd ⟨[], 0⟩ (strL "see here") (by decide) (by decide),
    claim_C7.2.1 usd ⟨[], 0⟩ (strL "x^2 + 1") (by decide) (by decide)⟩

/-- The end-to-end input document of the specification's scenario. -/
def doc1 : List Char := strL "The formula is $x_1 + y_2$ and also:\n- first\n- second"

/-- **C1 (counterexample).** On the end-to-end input the pipeline (list
repair, extraction, restoration) does *not* produce the canonical inline
delimiters: the output contains `$ x_{1} + y_{2} $` and does not contain
`\( x_{1} + y_{2} \)`. -/
theorem claim_C1_counterexample :
    containsSubB
        (restore_math (process_math_pre_markdown usd (fix_list_spacing doc1)).1
          (process_math_pre_markdown usd (fix_list_spacing doc1)).2)
        (strL "\\( x_{1} + y_{2} \\)") = false ∧
    containsSubB
        (restore_math (process_math_pre_markdown usd (fix_list_spacing doc1)).1
          (process_math_pre_markdown usd (fix_list_spacing doc1)).2)
        (strL "$ x_{1} + y_{2} $") = true := by
  constructor
  · decide
  · decide

/-- **C1 (amended).** On the end-to-end input the single math span is stored
under one placeholder whose value is the *dollar*-delimited normalized span
`$ x_{1} + y_{2} $` (the code keeps dollar delimiters for dollar spans; only
bracket-heuristic spans get `\[ ... \]`), and for any rendered HTML in which
the placeholder survives, restoration makes `$ x_{1} + y_{2} $` appear in the
final output. -/
theorem claim_C1 :
    (process_math_pre_markdown usd (fix_list_spacing doc1)).2 =
      [(mkKey usd 0, strL "$ x_{1} + y_{2} $")] ∧
    ∀ html : List Char, containsSubB html (mkKey usd 0) = true →
      containsSubB
        (restore_math html (process_math_pre_markdown usd (fix_list_spacing doc1)).2)
        (strL "$ x_{1} + y_{2} $") = true := by
  have h2 : (process_math_pre_markdown usd (fix_list_spacing doc1)).2 =
      [(mkKey usd 0, strL "$ x_{1} + y_{2} $")] := by decide
  refine ⟨h2, fun html hh => ?_⟩
  rw [h2]
  show containsSubB (replaceAll html (mkKey usd 0) (strL "$ x_{1} + y_{2} $")) _ = true
  exact replaceAll_contains_repl _ (by decide) hh

/-- Witness for C1: applying the amended theorem to the actual pre-render
text (in which the placeholder occurs) puts `$ x_{1} + y_{2} $` in the
output. -/
theorem claim_C1_witness :
    containsSubB
      (restore_math (process_math_pre_markdown usd (fix_list_spacing doc1)).1
        (process_math_pre_markdown usd (fix_list_spacing doc1)).2)
      (strL "$ x_{1} + y_{2} $") = true :=
  claim_C1.2 (process_math_pre_markdown usd (fix_list_spacing doc1)).1 (by decide)

/-- **C2 (counterexample).** Extract-then-restore (no renderer in between) on
the document `$x_1$` yields `$ x_{1} $`: the math content is *not*
byte-identical modulo the delimiter rewrite — the normalizer has braced the
subscript, so the original content `x_1` no longer occurs at all. -/
theorem claim_C2_counterexample :
    restore_math (process_math_pre_markdown usd (strL "$x_1$")).1
        (process_math_pre_markdown usd (strL "$x_1$")).2 = strL "$ x_{1} $" ∧
    containsSubB
        (restore_math (process_math_pre_markdown usd (strL "$x_1$")).1
          (process_math_pre_markdown usd (strL "$x_1$")).2)
        (strL "x_1") = false := by
  constructor
  · decide
  · decide

/-! ## Structured documents of well-formed dollar math spans -/

/-- A dollar-delimited math span: display (`$$c$$`) or inline (`$c$`). -/
structure MSpan where
  disp : Bool
  content : List Char
deriving DecidableEq

/-- The source form of a span. -/
def spanSrc (sp : MSpan) : List Char :=
  if sp.disp then '$' :: '$' :: (sp.content ++ ['$', '$']) else '$' :: (sp.content ++ ['$'])

/-- Source text of the alternating span/gap part of a structured document. -/
def renderPairs : List (MSpan × List Char) → List Char
  | [] => []
  | (sp, g) :: ps => spanSrc sp ++ (g ++ renderPairs ps)

/-- Source text of a structured document: a leading gap, then alternating
spans and gaps. -/
def renderMDoc (d : List Char × List (MSpan × List Char)) : List Char :=
  d.1 ++ renderPairs d.2

/-- A gap contains no dollar and no opening bracket, so no scanner fires
inside it. -/
def goodGapB (g : List Char) : Bool := g.all (fun c => !(c = '$') && !(c = '['))

/-- A well-formed span: no dollar in the content and a nonempty content for
inline spans. -/
def wfSpanB (sp : MSpan) : Bool :=
  sp.content.all (fun c => !(c = '$')) && (sp.disp || !sp.content.isEmpty)

/-- Well-formedness of the span/gap list: spans well formed, gaps good, and
every gap except the last nonempty (spans are separated by text). -/
def wfPairsB : List (MSpan × List Char) → Bool
  | [] => true
  | (sp, g) :: ps => wfSpanB sp && goodGapB g && (ps.isEmpty || !g.isEmpty) && wfPairsB ps

theorem goodGapB_no_dollar {g : List Char} (h : goodGapB g = true) : '$' ∉ g := by
  intro hm
  simp only [goodGapB, List.all_eq_true] at h
  have := h '$' hm
  simp at this

theorem goodGapB_no_bracket {g : List Char} (h : goodGapB g = true) : '[' ∉ g := by
  intro hm
  simp only [goodGapB, List.all_eq_true] at h
  have := h '[' hm
  simp at this

theorem wfSpanB_no_dollar {sp : MSpan} (h : wfSpanB sp = true) : '$' ∉ sp.content := by
  intro hm
  simp only [wfSpanB, Bool.and_eq_true_iff, List.all_eq_true] at h
  have := h.1 '$' hm
  simp at this

theorem wfSpanB_inline_ne {sp : MSpan} (h : wfSpanB sp = true) (hd : sp.disp = false) :
    sp.content ≠ [] := by
  simp only [wfSpanB, Bool.and_eq_true_iff, Bool.or_eq_true_iff, hd] at h
  rcases h.2 with h2 | h2
  · simp at h2
  · simpa [List.isEmpty_iff] using h2

theorem wfPairsB_cons {sp : MSpan} {g : List Char} {ps : List (MSpan × List Char)}
    (h : wfPairsB ((sp, g) :: ps) = true) :
    wfSpanB sp = true ∧ goodGapB g = true ∧ (ps = [] ∨ g ≠ []) ∧ wfPairsB ps = true := by
  simp only [wfPairsB, Bool.and_eq_true_iff, Bool.or_eq_true_iff] at h
  refine ⟨h.1.1.1, h.1.1.2, ?_, h.2⟩
  rcases h.1.2 with h2 | h2
  · left; simpa [List.isEmpty_iff] using h2
  · right; simpa [List.isEmpty_iff] using h2

/-- Number of display spans. -/
def dCount : List (MSpan × List Char) → Nat
  | [] => 0
  | (sp, _) :: ps => (if sp.disp then 1 else 0) + dCount ps

/-- Number of inline spans. -/
def iCount : List (MSpan × List Char) → Nat
  | [] => 0
  | (sp, _) :: ps => (if sp.disp then 0 else 1) + iCount ps

/-- Text after pass 1 (display spans replaced by keys numbered from `n`). -/
def mid1 (us : Nat → List Char) : Nat → List (MSpan × List Char) → List Char
  | _, [] => []
  | n, (sp, g) :: ps =>
    if sp.disp then mkKey us n ++ (g ++ mid1 us (n + 1) ps)
    else spanSrc sp ++ (g ++ mid1 us n ps)

/-- Placeholder pairs appended by pass 1 (display spans, keys from `n`). -/
def phsD (us : Nat → List Char) : Nat → List (MSpan × List Char) → List (List Char × List Char)
  | _, [] => []
  | n, (sp, _) :: ps =>
    if sp.disp then
      (mkKey us n, wrapMath true false (fix_math_content sp.content)) :: phsD us (n + 1) ps
    else phsD us n ps

/-- Text after pass 2 (display keys from `dc`, inline keys from `n`). -/
def mid2 (us : Nat → List Char) : Nat → Nat → List (MSpan × List Char) → List Char
  | _, _, [] => []
  | dc, n, (sp, g) :: ps =>
    if sp.disp then mkKey us dc ++ (g ++ mid2 us (dc + 1) n ps)
    else mkKey us n ++ (g ++ mid2 us dc (n + 1) ps)

/-- Placeholder pairs appended by pass 2 (inline spans, keys from `n`). -/
def phsI (us : Nat → List Char) : Nat → List (MSpan × List Char) → List (List Char × List Char)
  | _, [] => []
  | n, (sp, _) :: ps =>
    if sp.disp then phsI us n ps
    else (mkKey us n, wrapMath false false (fix_math_content sp.content)) :: phsI us (n + 1) ps

theorem markerL_no_dollar : '$' ∉ markerL := by decide

theorem endMarkL_no_dollar : '$' ∉ endMarkL := by decide

theorem mkKey_no_dollar {us : Nat → List Char} (husD : ∀ m, '$' ∉ us m) (m : Nat) :
    '$' ∉ mkKey us m := by
  intro hm
  rcases List.mem_append.mp hm with h | h
  · rcases List.mem_append.mp h with h1 | h1
    · exact markerL_no_dollar h1
    · exact husD m h1
  · exact endMarkL_no_dollar h

theorem mkKey_no_bracket {us : Nat → List Char} (husB : ∀ m, '[' ∉ us m) (m : Nat) :
    '[' ∉ mkKey us m := by
  intro hm
  rcases List.mem_append.mp hm with h | h
  · rcases List.mem_append.mp h with h1 | h1
    · revert h1; decide
    · exact husB m h1
  · revert h; decide

theorem pass1_renderPairs (us : Nat → List Char) :
    ∀ (ps : List (MSpan × List Char)) (n : Nat) (phs : List (List Char × List Char)),
      wfPairsB ps = true →
      pass1 us (renderPairs ps) ⟨phs, n⟩ = (mid1 us n ps, ⟨phs ++ phsD us n ps, n + dCount ps⟩) := by
  intro ps
  induction ps with
  | nil =>
    intro n phs _
    simp [renderPairs, pass1_nil, mid1, phsD, dCount]
  | cons pg ps ih =>
    intro n phs hwf
    obtain ⟨sp, g⟩ := pg
    obtain ⟨hsp, hg, hsep, hps⟩ := wfPairsB_cons hwf
    have hcd : '$' ∉ sp.content := wfSpanB_no_dollar hsp
    have hgd : '$' ∉ g := goodGapB_no_dollar hg
    by_cases hd : sp.disp = true
    · have hre : renderPairs ((sp, g) :: ps) =
          '$' :: '$' :: (sp.content ++ '$' :: '$' :: (g ++ renderPairs ps)) := by
        simp [renderPairs, spanSrc, hd]
      rw [hre, pass1_display hcd (g ++ renderPairs ps) us ⟨phs, n⟩,
        pass1_append_no_dollar g hgd (renderPairs ps) us _, ih (n + 1) _ hps]
      simp [mid1, phsD, dCount, hd]
      omega
    · rw [Bool.not_eq_true] at hd
      have hne : sp.content ≠ [] := wfSpanB_inline_ne hsp hd
      have hre : renderPairs ((sp, g) :: ps) =
          '$' :: (sp.content ++ '$' :: (g ++ renderPairs ps)) := by
        simp [renderPairs, spanSrc, hd]
      have ht : (g ++ renderPairs ps).head? ≠ some '$' := by
        cases g with
        | nil =>
          rcases hsep with hps0 | hg0
          · subst hps0
            simp [renderPairs]
          · exact absurd rfl hg0
        | cons x g' =>
          have hx : x ≠ '$' := fun hx => hgd (hx ▸ List.mem_cons_self x g')
          simp only [List.cons_append, List.head?_cons, ne_eq, Option.some.injEq]
          exact hx
      rw [hre, pass1_skip_inline hne hcd ht us ⟨phs, n⟩,
        pass1_append_no_dollar g hgd (renderPairs ps) us _, ih n phs hps]
      simp [mid1, phsD, dCount, hd, spanSrc]

theorem pass2_mid1 (us : Nat → List Char) (husD : ∀ m, '$' ∉ us m) :
    ∀ (ps : List (MSpan × List Char)) (dc n : Nat) (phs : List (List Char × List Char)),
      wfPairsB ps = true →
      pass2 us (mid1 us dc ps) ⟨phs, n⟩ =
        (mid2 us dc n ps, ⟨phs ++ phsI us n ps, n + iCount ps⟩) := by
  intro ps
  induction ps with
  | nil =>
    intro dc n phs _
    simp [mid1, pass2_nil, mid2, phsI, iCount]
  | cons pg ps ih =>
    intro dc n phs hwf
    obtain ⟨sp, g⟩ := pg
    obtain ⟨hsp, hg, hsep, hps⟩ := wfPairsB_cons hwf
    have hcd : '$' ∉ sp.content := wfSpanB_no_dollar hsp
    have hgd : '$' ∉ g := goodGapB_no_dollar hg
    by_cases hd : sp.disp = true
    · have hre : mid1 us dc ((sp, g) :: ps) =
          (mkKey us dc ++ g) ++ mid1 us (dc + 1) ps := by
        simp [mid1, hd, List.append_assoc]
      have hkg : '$' ∉ mkKey us dc ++ g := by
        intro hm
        rcases List.mem_append.mp hm with h | h
        · exact mkKey_no_dollar husD dc h
        · exact hgd h
      rw [hre, pass2_append_no_dollar _ hkg (mid1 us (dc + 1) ps) us _, ih (dc + 1) n phs hps]
      simp [mid2, phsI, iCount, hd, List.append_assoc]
    · rw [Bool.not_eq_true] at hd
      have hre : mid1 us dc ((sp, g) :: ps) =
          '$' :: (sp.content ++ '$' :: (g ++ mid1 us dc ps)) := by
        simp [mid1, spanSrc, hd]
      rw [hre, pass2_inline hcd (g ++ mid1 us dc ps) us ⟨phs, n⟩,
        pass2_append_no_dollar g hgd (mid1 us dc ps) us _, ih dc (n + 1) _ hps]
      simp [mid2, phsI, iCount, hd]
      omega

theorem mid2_no_bracket {us : Nat → List Char} (husB : ∀ m, '[' ∉ us m) :
    ∀ (ps : List (MSpan × List Char)) (dc n : Nat), wfPairsB ps = true →
      '[' ∉ mid2 us dc n ps := by
  intro ps
  induction ps with
  | nil => intro dc n _ hm; simp [mid2] at hm
  | cons pg ps ih =>
    intro dc n hwf hm
    obtain ⟨sp, g⟩ := pg
    obtain ⟨-, hg, -, hps⟩ := wfPairsB_cons hwf
    by_cases hd : sp.disp = true
    · rw [show mid2 us dc n ((sp, g) :: ps) = mkKey us dc ++ (g ++ mid2 us (dc + 1) n ps)
          from (by simp [mid2, hd])] at hm
      rcases List.mem_append.mp hm with h | h
      · exact mkKey_no_bracket husB dc h
      rcases List.mem_append.mp h with h | h
      · exact goodGapB_no_bracket hg h
      · exact ih (dc + 1) n hps h
    · rw [Bool.not_eq_true] at hd
      rw [show mid2 us dc n ((sp, g) :: ps) = mkKey us n ++ (g ++ mid2 us dc (n + 1) ps)
          from (by simp [mid2, hd])] at hm
      rcases List.mem_append.mp hm with h | h
      · exact mkKey_no_bracket husB n h
      rcases List.mem_append.mp h with h | h
      · exact goodGapB_no_bracket hg h
      · exact ih dc (n + 1) hps h

theorem process_structure (us : Nat → List Char) (husD : ∀ m, '$' ∉ us m)
    (husB : ∀ m, '[' ∉ us m) (g0 : List Char) (ps : List (MSpan × List Char))
    (hg0 : goodGapB g0 = true) (hps : wfPairsB ps = true) :
    process_math_pre_markdown us (renderMDoc (g0, ps)) =
      (g0 ++ mid2 us 0 (dCount ps) ps, phsD us 0 ps ++ phsI us (dCount ps) ps) := by
  have h1 : pass1 us (g0 ++ renderPairs ps) ⟨[], 0⟩ =
      (g0 ++ mid1 us 0 ps, ⟨phsD us 0 ps, dCount ps⟩) := by
    rw [pass1_append_no_dollar g0 (goodGapB_no_dollar hg0) (renderPairs ps) us _,
      pass1_renderPairs us ps 0 [] hps]
    simp
  have h2 : pass2 us (g0 ++ mid1 us 0 ps) ⟨phsD us 0 ps, dCount ps⟩ =
      (g0 ++ mid2 us 0 (dCount ps) ps,
        ⟨phsD us 0 ps ++ phsI us (dCount ps) ps, dCount ps + iCount ps⟩) := by
    rw [pass2_append_no_dollar g0 (goodGapB_no_dollar hg0) (mid1 us 0 ps) us _,
      pass2_mid1 us husD ps 0 (dCount ps) (phsD us 0 ps) hps]
  have hnb : '[' ∉ g0 ++ mid2 us 0 (dCount ps) ps := by
    intro hm
    rcases List.mem_append.mp hm with h | h
    · exact goodGapB_no_bracket hg0 h
    · exact mid2_no_bracket husB ps 0 (dCount ps) hps h
  have h3 := pass3_no_bracket hnb us
    (⟨phsD us 0 ps ++ phsI us (dCount ps) ps, dCount ps + iCount ps⟩ : ExtractState)
  show (let r1 := pass1 us (renderMDoc (g0, ps)) ⟨[], 0⟩
        let r2 := pass2 us r1.1 r1.2
        let r3 := pass3 us r2.1 r2.2
        (r3.1, r3.2.phs)) = _
  show (let r1 := pass1 us (g0 ++ renderPairs ps) ⟨[], 0⟩
        let r2 := pass2 us r1.1 r1.2
        let r3 := pass3 us r2.1 r2.2
        (r3.1, r3.2.phs)) = _
  rw [h1]
  show (let r2 := pass2 us (g0 ++ mid1 us 0 ps) ⟨phsD us 0 ps, dCount ps⟩
        let r3 := pass3 us r2.1 r2.2
        (r3.1, r3.2.phs)) = _
  rw [h2]
  show (let r3 := pass3 us (g0 ++ mid2 us 0 (dCount ps) ps)
          ⟨phsD us 0 ps ++ phsI us (dCount ps) ps, dCount ps + iCount ps⟩
        (r3.1, r3.2.phs)) = _
  rw [h3]

/-! ## Freshness of uuid hex strings and the chunk model of the pre-render text -/

/-- Lowercase hexadecimal characters, the alphabet of `uuid.uuid4().hex`. -/
def hexLowerB (c : Char) : Bool := ('0' ≤ c && c ≤ '9') || ('a' ≤ c && c ≤ 'f')

/-- The freshness properties of the uuid stream actually used by the pipeline
on the key indices it draws: each hex string has 32 lowercase-hex characters
and the drawn strings are pairwise distinct. -/
def UsGood (us : Nat → List Char) (N : Nat) : Prop :=
  (∀ i, i < N → (us i).length = 32) ∧
  (∀ i, i < N → ∀ c ∈ us i, hexLowerB c = true) ∧
  (∀ i, i < N → ∀ j, j < N → us i = us j → i = j)

theorem hexLower_ne_M {c : Char} (h : hexLowerB c = true) : c ≠ 'M' := by
  intro he
  rw [he] at h
  exact absurd h (by decide)

theorem hexLower_ne_dollar {c : Char} (h : hexLowerB c = true) : c ≠ '$' := by
  intro he
  rw [he] at h
  exact absurd h (by decide)

theorem hexLower_not_math {c : Char} (h : hexLowerB c = true) : isMathChar c = false := by
  by_contra hm
  rw [Bool.not_eq_false] at hm
  simp only [isMathChar, Bool.or_eq_true_iff, decide_eq_true_eq] at hm
  have hmem : c ∈ ['\\', '^', '_', '{', '}', '=', '<', '>', '+', '-', '*', '/'] := by
    simp only [List.mem_cons, List.mem_singleton]
    tauto
  fin_cases hmem <;> exact absurd h (by decide)

/-- A chunk of the pre-render text: either raw text or a placeholder key. -/
inductive Chk where
  | raw : List Char → Chk
  | kkey : Nat → Chk
deriving DecidableEq

/-- The string a chunk denotes. -/
def chkStr (us : Nat → List Char) : Chk → List Char
  | Chk.raw s => s
  | Chk.kkey n => mkKey us n

/-- The string a chunk list denotes. -/
def chkJoin (us : Nat → List Char) (cs : List Chk) : List Char :=
  (cs.map (chkStr us)).flatten

/-- Key indices of a chunk list, in order. -/
def keyIdxs : List Chk → List Nat
  | [] => []
  | Chk.raw _ :: cs => keyIdxs cs
  | Chk.kkey j :: cs => j :: keyIdxs cs

/-- A raw chunk safe against placeholder collisions: nonempty, and containing
neither the marker string nor any drawn uuid hex string. -/
def rawOk (us : Nat → List Char) (N : Nat) (r : List Char) : Prop :=
  r ≠ [] ∧ ¬ markerL <:+: r ∧ ∀ i, i < N → ¬ us i <:+: r

/-- A separating character: not a lowercase hex digit and not a letter of the
marker (the delimiters `$`, `\`, `]` produced by `wrapMath` all qualify). -/
def sepChar (c : Char) : Prop := hexLowerB c = false ∧ c ∉ markerL

/-- Adjacency discipline of a chunk list: two adjacent raw chunks only occur
when the second starts with a separating character or the first ends with one
(as is the case for gaps following restored span values). -/
def chkOk2 : Chk → Chk → Prop
  | _, Chk.kkey _ => True
  | Chk.kkey _, Chk.raw _ => True
  | Chk.raw s, Chk.raw r =>
      (∃ c, r.head? = some c ∧ sepChar c) ∨ (∃ c, s.getLast? = some c ∧ sepChar c)

theorem chkJoin_nil (us : Nat → List Char) : chkJoin us [] = [] := rfl

theorem chkJoin_cons (us : Nat → List Char) (c : Chk) (cs : List Chk) :
    chkJoin us (c :: cs) = chkStr us c ++ chkJoin us cs := by
  simp [chkJoin]

theorem chkJoin_append (us : Nat → List Char) (cs ds : List Chk) :
    chkJoin us (cs ++ ds) = chkJoin us cs ++ chkJoin us ds := by
  simp [chkJoin]

/-- Occurrence count of `pat` starting inside `x` (possibly running into the
following text `y`). -/
def countPre : List Char → List Char → List Char → Nat
  | [], _, _ => 0
  | c :: rest, y, pat => (if pat.isPrefixOf (c :: rest ++ y) then 1 else 0) + countPre rest y pat

theorem countOcc_append (pat : List Char) :
    ∀ (x y : List Char), countOcc (x ++ y) pat = countPre x y pat + countOcc y pat := by
  intro x
  induction x with
  | nil => intro y; simp [countPre]
  | cons c rest ih =>
    intro y
    show countOcc (c :: (rest ++ y)) pat = _
    rw [countOcc, ih y]
    simp [countPre]
    omega

theorem countPre_append (pat : List Char) :
    ∀ (a b y : List Char), countPre (a ++ b) y pat = countPre a (b ++ y) pat + countPre b y pat := by
  intro a
  induction a with
  | nil => intro b y; simp [countPre]
  | cons c rest ih =>
    intro b y
    show countPre (c :: (rest ++ b)) y pat = _
    rw [countPre, ih b y]
    simp only [countPre, List.cons_append, List.append_assoc]
    omega

theorem countPre_zero_of_no_head {p : Char} {pt : List Char} :
    ∀ (x y : List Char), (∀ c ∈ x, c ≠ p) → countPre x y (p :: pt) = 0 := by
  intro x
  induction x with
  | nil => intro y _; rfl
  | cons c rest ih =>
    intro y h
    have hc : c ≠ p := h c (List.mem_cons_self c rest)
    have hnp : ¬ ((p :: pt).isPrefixOf (c :: rest ++ y) = true) := by
      intro hpre
      simp only [List.cons_append, List.isPrefixOf, Bool.and_eq_true_iff, beq_iff_eq] at hpre
      exact hc hpre.1.symm
    rw [countPre, if_neg hnp, ih y (fun d hd => h d (List.mem_cons_of_mem c hd))]

/-! ## Prefix-splitting utilities and marker character facts -/

theorem mem_of_headQ {l : List Char} {a : Char} (h : l.head? = some a) : a ∈ l := by
  cases l with
  | nil => simp at h
  | cons c cs =>
    simp only [List.head?_cons, Option.some.injEq] at h
    exact h ▸ List.mem_cons_self c cs

theorem mem_of_getLastQ {l : List Char} {a : Char} (h : l.getLast? = some a) : a ∈ l := by
  have ha : a ∈ l.getLast? := by rw [h]; rfl
  obtain ⟨hne, heq⟩ := List.mem_getLast?_eq_getLast ha
  exact heq ▸ List.getLast_mem hne

theorem prefix_head_eq {p z : List Char} (h : p <+: z) (hp : p ≠ []) :
    z.head? = p.head? := by
  obtain ⟨t, ht⟩ := h
  subst ht
  cases p with
  | nil => exact absurd rfl hp
  | cons c cs => rfl

theorem prefix_contain {x y p : List Char} (h : p <+: x ++ y) (hlen : p.length ≤ x.length) :
    p <+: x := by
  have h1 : p = (x ++ y).take p.length := List.prefix_iff_eq_take.mp h
  rw [List.take_append_of_le_length hlen] at h1
  exact List.prefix_iff_eq_take.mpr h1

theorem prefix_unsplit {x y p : List Char} (h : p <+: x ++ y) (hlen : x.length ≤ p.length) :
    x <+: p ∧ p.drop x.length <+: y := by
  have hx : x <+: p :=
    List.prefix_of_prefix_length_le (List.prefix_append x y) h hlen
  refine ⟨hx, ?_⟩
  obtain ⟨p₂, hp₂⟩ := hx
  obtain ⟨t, ht⟩ := h
  rw [← hp₂, List.append_assoc] at ht
  have hy : y = p₂ ++ t := (List.append_cancel_left ht).symm
  have hdrop : p.drop x.length = p₂ := by
    rw [← hp₂, List.drop_left]
  rw [hdrop, hy]
  exact List.prefix_append p₂ t

theorem getLast_cons_ne_nil {c : Char} {rest : List Char} (h : rest ≠ []) :
    (c :: rest).getLast? = rest.getLast? := by
  cases rest with
  | nil => exact absurd rfl h
  | cons b l => exact List.getLast?_cons_cons

/-- The character positions of `M` inside the marker: only position 0. -/
theorem markerL_drop_ne_M :
    ∀ k, k < 15 → 1 ≤ k → (markerL.drop k).head? ≠ some 'M' := by decide

theorem markerL_length : markerL.length = 15 := rfl

theorem markerL_prefix_mkKey (us : Nat → List Char) (i : Nat) : markerL <+: mkKey us i :=
  ⟨us i ++ endMarkL, by simp [mkKey]⟩

theorem mkKey_head (us : Nat → List Char) (i : Nat) : (mkKey us i).head? = some 'M' := rfl

theorem mkKey_ne_nil (us : Nat → List Char) (i : Nat) : mkKey us i ≠ [] := by
  simp [mkKey, markerL]

/-- No occurrence of a placeholder key can start inside a collision-free raw
chunk, given the junction discipline with the following text. -/
theorem countPre_raw_zero (us : Nat → List Char) (i : Nat) :
    ∀ (r y : List Char),
      ¬ markerL <:+: r →
      (y = [] ∨ y.head? = some 'M' ∨ (∃ c, y.head? = some c ∧ c ∉ markerL) ∨
        (∃ c, r.getLast? = some c ∧ c ∉ markerL)) →
      countPre r y (mkKey us i) = 0 := by
  intro r
  induction r with
  | nil => intro y _ _; rfl
  | cons c rest ih =>
    intro y hmk hjy
    have hterm : ¬ ((mkKey us i).isPrefixOf (c :: rest ++ y) = true) := by
      intro hpreB
      have hpre : mkKey us i <+: (c :: rest) ++ y := by
        rw [← List.isPrefixOf_iff_prefix]
        simpa using hpreB
      have hmarker : markerL <+: (c :: rest) ++ y :=
        (markerL_prefix_mkKey us i).trans hpre
      by_cases hlen : markerL.length ≤ (c :: rest).length
      · exact hmk ((prefix_contain hmarker hlen).isInfix)
      · push_neg at hlen
        obtain ⟨hxp, hdp⟩ := prefix_unsplit hmarker (le_of_lt hlen)
        have hm2ne : markerL.drop (c :: rest).length ≠ [] := by
          have : (markerL.drop (c :: rest).length).length = 15 - (c :: rest).length := by
            simp [List.length_drop, markerL_length]
          intro hnil
          rw [hnil] at this
          simp only [List.length_nil] at this
          rw [markerL_length] at hlen
          omega
        rcases hjy with hy | hy | hy | hy
        · rw [hy] at hdp
          exact hm2ne (List.prefix_nil.mp hdp)
        · have := prefix_head_eq hdp hm2ne
          rw [hy] at this
          exact markerL_drop_ne_M (c :: rest).length (by rw [markerL_length] at hlen; omega)
            (by simp) this.symm
        · obtain ⟨c1, hy, hcm⟩ := hy
          have := prefix_head_eq hdp hm2ne
          rw [hy] at this
          have hdm : c1 ∈ markerL.drop (c :: rest).length := mem_of_headQ this.symm
          exact hcm (List.drop_subset _ markerL hdm)
        · obtain ⟨c1, hy, hcm⟩ := hy
          have hdm : c1 ∈ (c :: rest) := mem_of_getLastQ hy
          exact hcm (hxp.subset hdm)
    rw [countPre, if_neg hterm]
    cases hrest : rest with
    | nil => rfl
    | cons b l =>
      rw [← hrest]
      have hmk' : ¬ markerL <:+: rest := fun hm => hmk (List.infix_cons hm)
      have hjy' : y = [] ∨ y.head? = some 'M' ∨ (∃ c, y.head? = some c ∧ c ∉ markerL) ∨
          (∃ c, rest.getLast? = some c ∧ c ∉ markerL) := by
        rcases hjy with hy | hy | hy | hy
        · exact Or.inl hy
        · exact Or.inr (Or.inl hy)
        · exact Or.inr (Or.inr (Or.inl hy))
        · obtain ⟨c1, hy, hcm⟩ := hy
          refine Or.inr (Or.inr (Or.inr ⟨c1, ?_, hcm⟩))
          rw [← getLast_cons_ne_nil (c := c) (by rw [hrest]; simp)]
          exact hy
      rw [ih y hmk' hjy']

theorem headQ_append {a b : List Char} (h : a ≠ []) : (a ++ b).head? = a.head? := by
  cases a with
  | nil => exact absurd rfl h
  | cons c cs => rfl

theorem chkJoin_key_cons (us : Nat → List Char) (m : Nat) (cs : List Chk) :
    chkJoin us (Chk.kkey m :: cs) = mkKey us m ++ chkJoin us cs := by
  simp [chkJoin, chkStr]

theorem chkJoin_raw_cons (us : Nat → List Char) (r : List Char) (cs : List Chk) :
    chkJoin us (Chk.raw r :: cs) = r ++ chkJoin us cs := by
  simp [chkJoin, chkStr]

theorem usGood_ne_nil {us : Nat → List Char} {N i : Nat} (hUs : UsGood us N) (hiN : i < N) :
    us i ≠ [] := by
  intro h
  have := hUs.1 i hiN
  rw [h] at this
  simp at this

/-- The tail `us i ++ ENDMATHPLACEHOLDER` of a key is never a prefix of the
text denoted by a disciplined chunk list (this is where a stray occurrence of
a key starting at the second marker copy inside another key would have to
continue). -/
theorem noUsEnd (us : Nat → List Char) (N i : Nat) (hUs : UsGood us N) (hiN : i < N) :
    ∀ (rest : List Chk),
      (∀ r, Chk.raw r ∈ rest → rawOk us N r) →
      List.Chain' chkOk2 rest →
      ¬ (us i ++ endMarkL) <+: chkJoin us rest := by
  intro rest hraw hch hpre
  match rest with
  | [] =>
    rw [chkJoin_nil] at hpre
    have := List.prefix_nil.mp hpre
    exact usGood_ne_nil hUs hiN (by simpa using (List.append_eq_nil.mp this).1)
  | Chk.kkey m :: rest' =>
    rw [chkJoin_key_cons] at hpre
    have hne : us i ++ endMarkL ≠ [] := by simp [endMarkL]
    have hhe := prefix_head_eq hpre hne
    rw [headQ_append (mkKey_ne_nil us m), mkKey_head us m,
      headQ_append (usGood_ne_nil hUs hiN)] at hhe
    obtain ⟨u0, u', hu⟩ : ∃ u0 u', us i = u0 :: u' := by
      cases hus : us i with
      | nil => exact absurd hus (usGood_ne_nil hUs hiN)
      | cons a b => exact ⟨a, b, rfl⟩
    rw [hu] at hhe
    simp only [List.head?_cons, Option.some.injEq] at hhe
    have : hexLowerB u0 = true := hUs.2.1 i hiN u0 (hu ▸ List.mem_cons_self u0 u')
    exact hexLower_ne_M this hhe.symm
  | Chk.raw r' :: rest' =>
    rw [chkJoin_raw_cons] at hpre
    have hr' : rawOk us N r' := hraw r' (List.mem_cons_self _ _)
    have husl : (us i).length = 32 := hUs.1 i hiN
    by_cases hlr : 32 ≤ r'.length
    · have h1 : us i <+: r' ++ chkJoin us rest' :=
        (List.prefix_append (us i) endMarkL).trans hpre
      have h2 : us i <+: r' := prefix_contain h1 (by omega)
      exact hr'.2.2 i hiN h2.isInfix
    · push_neg at hlr
      have hlen2 : r'.length ≤ (us i ++ endMarkL).length := by
        simp only [List.length_append, husl]
        have : endMarkL.length = 18 := rfl
        omega
      obtain ⟨hrp, hdp⟩ := prefix_unsplit hpre hlen2
      have hrpu : r' <+: us i := prefix_contain hrp (by omega)
      have hrhex : ∀ c ∈ r', hexLowerB c = true :=
        fun c hc => hUs.2.1 i hiN c (hrpu.subset hc)
      have hm2eq : (us i ++ endMarkL).drop r'.length = (us i).drop r'.length ++ endMarkL :=
        List.drop_append_of_le_length (by omega)
      have hdropne : (us i).drop r'.length ≠ [] := by
        intro hnil
        have := congrArg List.length hnil
        simp only [List.length_drop, husl, List.length_nil] at this
        omega
      have hm2ne : (us i ++ endMarkL).drop r'.length ≠ [] := by
        rw [hm2eq]
        simp [hdropne]
      have hm2head : ((us i ++ endMarkL).drop r'.length).head? = ((us i).drop r'.length).head? := by
        rw [hm2eq, headQ_append hdropne]
      obtain ⟨d0, hd0⟩ : ∃ d0, ((us i).drop r'.length).head? = some d0 := by
        cases hdd : (us i).drop r'.length with
        | nil => exact absurd hdd hdropne
        | cons a b => exact ⟨a, rfl⟩
      have hd0hex : hexLowerB d0 = true :=
        hUs.2.1 i hiN d0 (List.drop_subset _ (us i) (mem_of_headQ hd0))
      have hYhead := prefix_head_eq hdp hm2ne
      rw [hm2head, hd0] at hYhead
      match rest', hch with
      | [], _ =>
        rw [chkJoin_nil] at hdp
        exact hm2ne (List.prefix_nil.mp hdp)
      | Chk.kkey m2 :: rest'', _ =>
        rw [chkJoin_key_cons, headQ_append (mkKey_ne_nil us m2), mkKey_head us m2] at hYhead
        exact hexLower_ne_M hd0hex (by simpa using hYhead.symm)
      | Chk.raw r'' :: rest'', hch =>
        have hr'' : rawOk us N r'' :=
          hraw r'' (List.mem_cons_of_mem _ (List.mem_cons_self _ _))
        rw [chkJoin_raw_cons, headQ_append hr''.1] at hYhead
        have hrel : chkOk2 (Chk.raw r') (Chk.raw r'') := (List.chain'_cons.mp hch).1
        rcases hrel with ⟨c0, hc0, hc0hex, -⟩ | ⟨c0, hc0, hc0hex, -⟩
        · rw [hc0] at hYhead
          have hdc : d0 = c0 := by simpa using hYhead.symm
          rw [hdc, hc0hex] at hd0hex
          exact Bool.false_ne_true hd0hex
        · have hmem : c0 ∈ r' := mem_of_getLastQ hc0
          rw [hrhex c0 hmem] at hc0hex
          exact Bool.false_ne_true hc0hex.symm

/-- The tail of the marker. -/
def markerTail : List Char :=
  ['A', 'T', 'H', 'P', 'L', 'A', 'C', 'E', 'H', 'O', 'L', 'D', 'E', 'R']

theorem mkKey_decomp (us : Nat → List Char) (j : Nat) :
    mkKey us j = 'M' :: ((markerTail ++ (us j ++ ['E', 'N', 'D'])) ++ ('M' :: markerTail)) := by
  simp [mkKey, markerL, endMarkL, markerTail]

theorem mkKey_cons_form (us : Nat → List Char) (i : Nat) :
    mkKey us i = 'M' :: (markerTail ++ (us i ++ endMarkL)) := by
  simp [mkKey, markerL, markerTail]

/-- Occurrences of a key starting inside another key: only the full-key
position, and only for the same index. -/
theorem countPre_key (us : Nat → List Char) (N : Nat) (hUs : UsGood us N) (i j : Nat)
    (hiN : i < N) (hjN : j < N) (rest : List Chk)
    (hraw : ∀ r, Chk.raw r ∈ rest → rawOk us N r)
    (hch : List.Chain' chkOk2 rest) :
    countPre (mkKey us j) (chkJoin us rest) (mkKey us i) = if i = j then 1 else 0 := by
  set Y := chkJoin us rest with hY
  have hPnoM : ∀ c ∈ markerTail ++ (us j ++ ['E', 'N', 'D']), c ≠ 'M' := by
    intro c hc
    rcases List.mem_append.mp hc with h | h
    · fin_cases h <;> decide
    rcases List.mem_append.mp h with h | h
    · exact hexLower_ne_M (hUs.2.1 j hjN c h)
    · fin_cases h <;> decide
  have hTnoM : ∀ c ∈ markerTail, c ≠ 'M' := by
    intro c hc
    fin_cases hc <;> decide
  have hiform := mkKey_cons_form us i
  -- the three inner blocks contribute nothing except the position at the
  -- second marker copy, which `noUsEnd` rules out
  have hmid : countPre (markerTail ++ (us j ++ ['E', 'N', 'D']))
      (('M' :: markerTail) ++ Y) (mkKey us i) = 0 := by
    rw [hiform]
    exact countPre_zero_of_no_head _ _ hPnoM
  have htail : countPre markerTail Y (mkKey us i) = 0 := by
    rw [hiform]
    exact countPre_zero_of_no_head _ _ hTnoM
  have hterm50 : ¬ ((mkKey us i).isPrefixOf ('M' :: markerTail ++ Y) = true) := by
    intro hpreB
    have hpre : mkKey us i <+: markerL ++ Y := by
      rw [← List.isPrefixOf_iff_prefix]
      simpa [markerL, markerTail] using hpreB
    rw [show mkKey us i = markerL ++ (us i ++ endMarkL) from (by simp [mkKey])] at hpre
    rw [List.prefix_append_right_inj] at hpre
    exact noUsEnd us N i hUs hiN rest hraw hch (hY ▸ hpre)
  have hterm0 : ((mkKey us i).isPrefixOf (mkKey us j ++ Y) = true) ↔ i = j := by
    constructor
    · intro hpreB
      have hpre : mkKey us i <+: mkKey us j ++ Y := by
        rw [← List.isPrefixOf_iff_prefix]
        exact hpreB
      have hleni : (mkKey us i).length = 65 := by
        simp [mkKey, markerL, endMarkL, hUs.1 i hiN]
      have hlenj : (mkKey us j).length = 65 := by
        simp [mkKey, markerL, endMarkL, hUs.1 j hjN]
      have hpc : mkKey us i <+: mkKey us j := prefix_contain hpre (by omega)
      have heq : mkKey us i = mkKey us j := hpc.eq_of_length (by omega)
      have heq2 : us i ++ endMarkL = us j ++ endMarkL := by
        have h5 := heq
        simp only [mkKey, List.append_assoc] at h5
        exact List.append_cancel_left h5
      have heq3 : us i = us j :=
        List.append_inj_left heq2 (by rw [hUs.1 i hiN, hUs.1 j hjN])
      exact hUs.2.2 i hiN j hjN heq3
    · intro hij
      subst hij
      rw [List.isPrefixOf_iff_prefix]
      exact List.prefix_append _ _
  calc countPre (mkKey us j) Y (mkKey us i)
      = countPre ('M' :: ((markerTail ++ (us j ++ ['E', 'N', 'D'])) ++ ('M' :: markerTail)))
          Y (mkKey us i) := by rw [← mkKey_decomp]
    _ = (if (mkKey us i).isPrefixOf
            (((markerTail ++ (us j ++ ['E', 'N', 'D'])) ++ ('M' :: markerTail)) ++ Y |>.cons 'M')
          then 1 else 0) +
        countPre ((markerTail ++ (us j ++ ['E', 'N', 'D'])) ++ ('M' :: markerTail)) Y
          (mkKey us i) := by rw [countPre]; rfl
    _ = (if i = j then 1 else 0) := by
        rw [countPre_append]
        rw [hmid]
        rw [show countPre ('M' :: markerTail) Y (mkKey us i) =
            (if (mkKey us i).isPrefixOf ('M' :: markerTail ++ Y) then 1 else 0) +
              countPre markerTail Y (mkKey us i) from (by rw [countPre])]
        rw [htail, if_neg hterm50]
        have hsc : (((markerTail ++ (us j ++ ['E', 'N', 'D'])) ++ ('M' :: markerTail)) ++ Y |>.cons 'M')
            = mkKey us j ++ Y := by
          rw [mkKey_decomp]
          simp
        rw [hsc]
        by_cases hij : i = j
        · rw [if_pos (hterm0.mpr hij), if_pos hij]
        · rw [if_neg (fun hb => hij (hterm0.mp hb)), if_neg hij]

/-- Helpers: head of the text denoted by a chunk list. -/
theorem chkJoin_head_cases (us : Nat → List Char) (N : Nat) :
    ∀ (cs : List Chk), (∀ r, Chk.raw r ∈ cs → rawOk us N r) →
      cs = [] ∨ (chkJoin us cs).head? = some 'M' ∨
        (∃ r cs', cs = Chk.raw r :: cs' ∧ (chkJoin us cs).head? = r.head?) := by
  intro cs hraw
  match cs, hraw with
  | [], _ => exact Or.inl rfl
  | Chk.kkey m :: cs', _ =>
    refine Or.inr (Or.inl ?_)
    rw [chkJoin_key_cons, headQ_append (mkKey_ne_nil us m), mkKey_head]
  | Chk.raw r :: cs', hraw =>
    refine Or.inr (Or.inr ⟨r, cs', rfl, ?_⟩)
    rw [chkJoin_raw_cons, headQ_append (hraw r (List.mem_cons_self _ _)).1]

/-- **Key uniqueness at the chunk level.** In the text denoted by a
disciplined, collision-free chunk list, each key occurs exactly as often as
its chunk does. -/
theorem countOcc_chkJoin (us : Nat → List Char) (N : Nat) (hUs : UsGood us N) (i : Nat)
    (hiN : i < N) :
    ∀ (cs : List Chk),
      (∀ r, Chk.raw r ∈ cs → rawOk us N r) →
      (∀ j, Chk.kkey j ∈ cs → j < N) →
      List.Chain' chkOk2 cs →
      countOcc (chkJoin us cs) (mkKey us i) = (keyIdxs cs).count i := by
  intro cs
  induction cs with
  | nil => intro _ _ _; rfl
  | cons c cs' ih =>
    intro hraw hkeys hch
    have hraw' : ∀ r, Chk.raw r ∈ cs' → rawOk us N r :=
      fun r hr => hraw r (List.mem_cons_of_mem c hr)
    have hkeys' : ∀ j, Chk.kkey j ∈ cs' → j < N :=
      fun j hj => hkeys j (List.mem_cons_of_mem c hj)
    have hch' : List.Chain' chkOk2 cs' := hch.tail
    match c with
    | Chk.raw r =>
      rw [chkJoin_raw_cons, countOcc_append]
      have hr : rawOk us N r := hraw r (List.mem_cons_self _ _)
      have hjy : chkJoin us cs' = [] ∨ (chkJoin us cs').head? = some 'M' ∨
          (∃ c, (chkJoin us cs').head? = some c ∧ c ∉ markerL) ∨
          (∃ c, r.getLast? = some c ∧ c ∉ markerL) := by
        rcases chkJoin_head_cases us N cs' hraw' with h0 | h0 | ⟨r2, cs2, hcs2, hh⟩
        · exact Or.inl (by rw [h0]; rfl)
        · exact Or.inr (Or.inl h0)
        · have hrel : chkOk2 (Chk.raw r) (Chk.raw r2) := by
            rw [hcs2] at hch
            exact (List.chain'_cons.mp hch).1
          rcases hrel with ⟨c0, hc0, -, hcm⟩ | ⟨c0, hc0, -, hcm⟩
          · exact Or.inr (Or.inr (Or.inl ⟨c0, by rw [hh, hc0], hcm⟩))
          · exact Or.inr (Or.inr (Or.inr ⟨c0, hc0, hcm⟩))
      rw [countPre_raw_zero us i r (chkJoin us cs') hr.2.1 hjy,
        ih hraw' hkeys' hch']
      simp [keyIdxs]
    | Chk.kkey j =>
      rw [chkJoin_key_cons, countOcc_append]
      have hjN : j < N := hkeys j (List.mem_cons_self _ _)
      rw [countPre_key us N hUs i j hiN hjN cs' hraw' hch',
        ih hraw' hkeys' hch']
      have hkk : keyIdxs (Chk.kkey j :: cs') = j :: keyIdxs cs' := rfl
      rw [hkk, List.count_cons]
      by_cases hij : i = j
      · subst hij
        simp [Nat.add_comm]
      · have hji : (j == i) = false := by
          simp only [beq_eq_false_iff_ne, ne_eq]
          exact fun h => hij h.symm
        rw [if_neg hij, hji]
        simp

/-! ## Replacement of a uniquely occurring key -/

theorem countOcc_zero_not_contains {p : List Char} (hp : p ≠ []) :
    ∀ (s : List Char), countOcc s p = 0 → containsSubB s p = false := by
  intro s
  induction s with
  | nil =>
    intro _
    show p.isEmpty = false
    cases p with
    | nil => exact absurd rfl hp
    | cons a b => rfl
  | cons c rest ih =>
    intro h
    rw [countOcc] at h
    have h1 : ¬ (p.isPrefixOf (c :: rest) = true) := by
      intro hb
      rw [if_pos hb] at h
      omega
    have h2 : countOcc rest p = 0 := by
      by_cases hb : p.isPrefixOf (c :: rest) = true
      · exact absurd hb h1
      · rw [if_neg hb] at h; omega
    simp only [containsSubB, Bool.or_eq_false_iff]
    exact ⟨Bool.eq_false_iff.mpr h1, ih h2⟩

theorem countOcc_head_pos {k : List Char} (hk : k ≠ []) (B : List Char) :
    1 ≤ countOcc (k ++ B) k := by
  cases k with
  | nil => exact absurd rfl hk
  | cons k0 kt =>
    show 1 ≤ countOcc (k0 :: (kt ++ B)) (k0 :: kt)
    rw [countOcc]
    rw [if_pos]
    · omega
    · rw [List.isPrefixOf_iff_prefix]
      exact List.prefix_append (k0 :: kt) B

theorem replaceAllF_single :
    ∀ (fuel : Nat) (A B k v : List Char), k ≠ [] → (A ++ (k ++ B)).length < fuel →
      countOcc (A ++ (k ++ B)) k = 1 →
      replaceAllF fuel (A ++ (k ++ B)) k v = A ++ (v ++ B) := by
  intro fuel
  induction fuel with
  | zero => intro A B k v _ h _; omega
  | succ f ih =>
    intro A B k v hk hlen hcount
    cases A with
    | nil =>
      simp only [List.nil_append] at hlen hcount ⊢
      have hpre : k.isPrefixOf (k ++ B) = true := by
        rw [List.isPrefixOf_iff_prefix]
        exact List.prefix_append k B
      obtain ⟨k0, kt, hkk⟩ : ∃ k0 kt, k = k0 :: kt := by
        cases k with
        | nil => exact absurd rfl hk
        | cons a b => exact ⟨a, b, rfl⟩
      have hBzero : countOcc B k = 0 := by
        rw [countOcc_append] at hcount
        have hp1 : 1 ≤ countPre k B k := by
          rw [hkk]
          show 1 ≤ countPre (k0 :: kt) B (k0 :: kt)
          rw [countPre, if_pos (by rw [hkk] at hpre; simpa using hpre)]
          omega
        omega
      have hstep : replaceAllF (f + 1) (k ++ B) k v =
          v ++ replaceAllF f ((k ++ B).drop k.length) k v := by
        rw [hkk]
        show replaceAllF (f + 1) (k0 :: (kt ++ B)) (k0 :: kt) v = _
        rw [replaceAllF, if_pos ⟨by simp, by rw [hkk] at hpre; simpa using hpre⟩]
        rw [List.cons_append]
      rw [hstep, List.drop_left,
        replaceAllF_not_contains v f B k (countOcc_zero_not_contains hk B hBzero)]
    | cons a A' =>
      have hnp : ¬ (k.isPrefixOf (a :: (A' ++ (k ++ B))) = true) := by
        intro hb
        have h1 : countOcc (a :: (A' ++ (k ++ B))) k =
            1 + countOcc (A' ++ (k ++ B)) k := by
          rw [countOcc, if_pos hb]
        have h2 : 1 ≤ countOcc (A' ++ (k ++ B)) k := by
          rw [countOcc_append]
          have := countOcc_head_pos hk B
          omega
        rw [show a :: (A' ++ (k ++ B)) = (a :: A') ++ (k ++ B) from rfl] at h1
        omega
      have hstep : replaceAllF (f + 1) ((a :: A') ++ (k ++ B)) k v =
          a :: replaceAllF f (A' ++ (k ++ B)) k v := by
        show replaceAllF (f + 1) (a :: (A' ++ (k ++ B))) k v = _
        cases k with
        | nil => exact absurd rfl hk
        | cons k0 kt =>
          rw [replaceAllF, if_neg]
          rintro ⟨-, hb⟩
          exact hnp hb
      have hcount' : countOcc (A' ++ (k ++ B)) k = 1 := by
        have : countOcc ((a :: A') ++ (k ++ B)) k =
            (if k.isPrefixOf (a :: (A' ++ (k ++ B))) then 1 else 0) +
              countOcc (A' ++ (k ++ B)) k := by
          rw [show (a :: A') ++ (k ++ B) = a :: (A' ++ (k ++ B)) from rfl, countOcc]
        rw [this, if_neg hnp] at hcount
        omega
      have hlen' : (A' ++ (k ++ B)).length < f := by
        simp only [List.cons_append, List.length_cons] at hlen
        omega
      rw [hstep, ih A' B k v hk hlen' hcount']
      rfl

theorem replaceAll_single {A B k v : List Char} (hk : k ≠ [])
    (hcount : countOcc (A ++ (k ++ B)) k = 1) :
    replaceAll (A ++ (k ++ B)) k v = A ++ (v ++ B) := by
  unfold replaceAll
  rw [if_neg (by simpa [List.isEmpty_iff] using hk)]
  exact replaceAllF_single _ A B k v hk (by omega) hcount

/-! ## Filling stored values back into a chunk list -/

def lookupIdx (j : Nat) : List (Nat × List Char) → Option (List Char)
  | [] => none
  | p :: ps => if p.1 = j then some p.2 else lookupIdx j ps

def fillChk (ivs : List (Nat × List Char)) : Chk → Chk
  | Chk.raw s => Chk.raw s
  | Chk.kkey j =>
    match lookupIdx j ivs with
    | some v => Chk.raw v
    | none => Chk.kkey j

def fillCs (ivs : List (Nat × List Char)) (cs : List Chk) : List Chk :=
  cs.map (fillChk ivs)

/-- A value safe to splice back into the text: delimited on both sides by
separating characters, and free of the marker and of every drawn uuid string
(every `wrapMath` output satisfies this). -/
def goodVal (us : Nat → List Char) (N : Nat) (v : List Char) : Prop :=
  (∃ c, v.head? = some c ∧ sepChar c) ∧ (∃ c, v.getLast? = some c ∧ sepChar c) ∧
    ¬ markerL <:+: v ∧ ∀ i, i < N → ¬ us i <:+: v

theorem goodVal_ne_nil {us : Nat → List Char} {N : Nat} {v : List Char}
    (h : goodVal us N v) : v ≠ [] := by
  obtain ⟨⟨c, hc, -⟩, -, -, -⟩ := h
  intro hv
  rw [hv] at hc
  exact Option.noConfusion hc

theorem goodVal_rawOk {us : Nat → List Char} {N : Nat} {v : List Char}
    (h : goodVal us N v) : rawOk us N v :=
  ⟨goodVal_ne_nil h, h.2.2.1, h.2.2.2⟩

theorem keyIdxs_append : ∀ (a b : List Chk), keyIdxs (a ++ b) = keyIdxs a ++ keyIdxs b := by
  intro a b
  induction a with
  | nil => rfl
  | cons c cs ih =>
    match c with
    | Chk.raw r =>
      show keyIdxs (cs ++ b) = keyIdxs cs ++ keyIdxs b
      exact ih
    | Chk.kkey j =>
      show j :: keyIdxs (cs ++ b) = (j :: keyIdxs cs) ++ keyIdxs b
      rw [ih]
      rfl

theorem keyIdxs_split {n : Nat} :
    ∀ {cs : List Chk}, n ∈ keyIdxs cs →
      ∃ cs₁ cs₂, cs = cs₁ ++ Chk.kkey n :: cs₂ ∧ n ∉ keyIdxs cs₁ := by
  intro cs
  induction cs with
  | nil => intro h; exact absurd h (List.not_mem_nil n)
  | cons c cs' ih =>
    intro h
    match c with
    | Chk.raw r =>
      obtain ⟨a, b, hab, hna⟩ := ih h
      exact ⟨Chk.raw r :: a, b, by rw [hab]; rfl, hna⟩
    | Chk.kkey j =>
      by_cases hj : j = n
      · subst hj
        exact ⟨[], cs', rfl, by simp [keyIdxs]⟩
      · have h' : n ∈ keyIdxs cs' := by
          have hm : n ∈ j :: keyIdxs cs' := h
          rcases List.mem_cons.mp hm with h1 | h1
          · exact absurd h1.symm hj
          · exact h1
        obtain ⟨a, b, hab, hna⟩ := ih h'
        refine ⟨Chk.kkey j :: a, b, by rw [hab]; rfl, ?_⟩
        show n ∉ j :: keyIdxs a
        intro hmem
        rcases List.mem_cons.mp hmem with h1 | h1
        · exact hj h1.symm
        · exact hna h1

theorem fillChk_nil_ivs : ∀ c : Chk, fillChk [] c = c := by
  intro c
  match c with
  | Chk.raw r => rfl
  | Chk.kkey j => rfl

theorem fillCs_nil_ivs : ∀ cs : List Chk, fillCs [] cs = cs := by
  intro cs
  induction cs with
  | nil => rfl
  | cons c cs ih =>
    show fillChk [] c :: fillCs [] cs = c :: cs
    rw [fillChk_nil_ivs, ih]

theorem fillChk_cons_ne (n : Nat) (v : List Char) (ivs : List (Nat × List Char))
    (j : Nat) (hjn : n ≠ j) : fillChk ((n, v) :: ivs) (Chk.kkey j) = fillChk ivs (Chk.kkey j) := by
  have hl : lookupIdx j ((n, v) :: ivs) = lookupIdx j ivs := by
    rw [lookupIdx, if_neg hjn]
  simp only [fillChk]
  rw [hl]

theorem fillCs_cons_notin (n : Nat) (v : List Char) (ivs : List (Nat × List Char)) :
    ∀ cs : List Chk, n ∉ keyIdxs cs → fillCs ((n, v) :: ivs) cs = fillCs ivs cs := by
  intro cs
  induction cs with
  | nil => intro _; rfl
  | cons c cs ih =>
    intro hn
    match c with
    | Chk.raw r =>
      have hn' : n ∉ keyIdxs cs := hn
      show Chk.raw r :: fillCs ((n, v) :: ivs) cs = Chk.raw r :: fillCs ivs cs
      rw [ih hn']
    | Chk.kkey j =>
      have hm : ¬ n ∈ j :: keyIdxs cs := hn
      simp only [List.mem_cons, not_or] at hm
      show fillChk ((n, v) :: ivs) (Chk.kkey j) :: fillCs ((n, v) :: ivs) cs = _
      rw [fillChk_cons_ne n v ivs j hm.1, ih hm.2]
      rfl

theorem fillChk_cons_self (n : Nat) (v : List Char) (ivs : List (Nat × List Char)) :
    fillChk ((n, v) :: ivs) (Chk.kkey n) = Chk.raw v := by
  have hl : lookupIdx n ((n, v) :: ivs) = some v := by
    rw [lookupIdx, if_pos rfl]
  simp only [fillChk]
  rw [hl]

theorem restore_math_cons (s : List Char) (kv : List Char × List Char)
    (rest : List (List Char × List Char)) :
    restore_math s (kv :: rest) = restore_math (replaceAll s kv.1 kv.2) rest := rfl

/-- **Restoration over a disciplined chunk list.** Looping `str.replace` over
the stored keys fills exactly the matching key chunks with their values and
touches nothing else. -/
theorem restoreFold (us : Nat → List Char) (N : Nat) (hUs : UsGood us N) :
    ∀ (ivs : List (Nat × List Char)) (cs : List Chk),
      (∀ r, Chk.raw r ∈ cs → rawOk us N r) →
      (∀ j, Chk.kkey j ∈ cs → j < N) →
      (keyIdxs cs).Nodup →
      List.Chain' chkOk2 cs →
      (∀ p ∈ ivs, p.1 < N ∧ goodVal us N p.2) →
      restore_math (chkJoin us cs) (ivs.map (fun p => (mkKey us p.1, p.2))) =
        chkJoin us (fillCs ivs cs) := by
  intro ivs
  induction ivs with
  | nil =>
    intro cs _ _ _ _ _
    rw [fillCs_nil_ivs]
    rfl
  | cons p ivs' ih =>
    obtain ⟨n, v⟩ := p
    intro cs hraw hkeys hnd hch hvals
    have hnN : n < N := (hvals (n, v) (List.mem_cons_self _ _)).1
    have hgv : goodVal us N v := (hvals (n, v) (List.mem_cons_self _ _)).2
    have hvals' : ∀ p ∈ ivs', p.1 < N ∧ goodVal us N p.2 :=
      fun p hp => hvals p (List.mem_cons_of_mem _ hp)
    rw [List.map_cons, restore_math_cons]
    show restore_math (replaceAll (chkJoin us cs) (mkKey us n) v)
        (List.map (fun p => (mkKey us p.1, p.2)) ivs') =
      chkJoin us (fillCs ((n, v) :: ivs') cs)
    by_cases hmem : n ∈ keyIdxs cs
    · obtain ⟨cs₁, cs₂, hcs, hn1⟩ := keyIdxs_split hmem
      have hki : keyIdxs cs = keyIdxs cs₁ ++ n :: keyIdxs cs₂ := by
        rw [hcs, keyIdxs_append]
        rfl
      have hn2 : n ∉ keyIdxs cs₂ := by
        rw [hki, List.nodup_append] at hnd
        exact (List.nodup_cons.mp hnd.2.1).1
      have hcount1 : (keyIdxs cs).count n = 1 := by
        rw [hki, List.count_append, List.count_cons_self,
          List.count_eq_zero_of_not_mem hn1, List.count_eq_zero_of_not_mem hn2]
      have hocc : countOcc (chkJoin us cs) (mkKey us n) = 1 := by
        rw [countOcc_chkJoin us N hUs n hnN cs hraw hkeys hch, hcount1]
      have hjoin : chkJoin us cs = chkJoin us cs₁ ++ (mkKey us n ++ chkJoin us cs₂) := by
        rw [hcs, chkJoin_append, chkJoin_key_cons]
      have hrepl : replaceAll (chkJoin us cs) (mkKey us n) v =
          chkJoin us cs₁ ++ (v ++ chkJoin us cs₂) := by
        rw [hjoin]
        exact replaceAll_single (mkKey_ne_nil us n) (by rw [← hjoin]; exact hocc)
      have hmid : chkJoin us cs₁ ++ (v ++ chkJoin us cs₂) =
          chkJoin us (cs₁ ++ Chk.raw v :: cs₂) := by
        rw [chkJoin_append, chkJoin_raw_cons]
      have hraw2 : ∀ r, Chk.raw r ∈ cs₁ ++ Chk.raw v :: cs₂ → rawOk us N r := by
        intro r hr
        rcases List.mem_append.mp hr with h1 | h1
        · exact hraw r (by rw [hcs]; exact List.mem_append_left _ h1)
        · rcases List.mem_cons.mp h1 with h2 | h2
          · injection h2 with h3
            subst h3
            exact goodVal_rawOk hgv
          · exact hraw r
              (by rw [hcs]; exact List.mem_append_right _ (List.mem_cons_of_mem _ h2))
      have hkeys2 : ∀ j, Chk.kkey j ∈ cs₁ ++ Chk.raw v :: cs₂ → j < N := by
        intro j hj
        rcases List.mem_append.mp hj with h1 | h1
        · exact hkeys j (by rw [hcs]; exact List.mem_append_left _ h1)
        · rcases List.mem_cons.mp h1 with h2 | h2
          · exact absurd h2 (fun h3 => Chk.noConfusion h3)
          · exact hkeys j
              (by rw [hcs]; exact List.mem_append_right _ (List.mem_cons_of_mem _ h2))
      have hki2 : keyIdxs (cs₁ ++ Chk.raw v :: cs₂) = keyIdxs cs₁ ++ keyIdxs cs₂ := by
        rw [keyIdxs_append]
        rfl
      have hnd2 : (keyIdxs (cs₁ ++ Chk.raw v :: cs₂)).Nodup := by
        rw [hki2]
        rw [hki, List.nodup_append] at hnd
        rw [List.nodup_append]
        refine ⟨hnd.1, (List.nodup_cons.mp hnd.2.1).2, ?_⟩
        intro a ha hb
        exact hnd.2.2 ha (List.mem_cons_of_mem _ hb)
      have hch2 : List.Chain' chkOk2 (cs₁ ++ Chk.raw v :: cs₂) := by
        rw [hcs, List.chain'_append] at hch
        rw [List.chain'_append]
        refine ⟨hch.1, ?_, ?_⟩
        · rw [List.chain'_cons']
          refine ⟨?_, (List.chain'_cons'.mp hch.2.1).2⟩
          intro y hy
          match y with
          | Chk.kkey m => exact trivial
          | Chk.raw r => exact Or.inr hgv.2.1
        · intro x hx y hy
          simp only [List.head?_cons, Option.mem_def, Option.some.injEq] at hy
          subst hy
          match x with
          | Chk.kkey m => exact trivial
          | Chk.raw s => exact Or.inl hgv.1
      have hIH := ih (cs₁ ++ Chk.raw v :: cs₂) hraw2 hkeys2 hnd2 hch2 hvals'
      have hfill : fillCs ((n, v) :: ivs') cs = fillCs ivs' (cs₁ ++ Chk.raw v :: cs₂) := by
        rw [hcs]
        show fillCs ((n, v) :: ivs') (cs₁ ++ Chk.kkey n :: cs₂) = _
        unfold fillCs
        rw [List.map_append, List.map_append, List.map_cons, List.map_cons, fillChk_cons_self]
        have h1 : List.map (fillChk ((n, v) :: ivs')) cs₁ = List.map (fillChk ivs') cs₁ :=
          fillCs_cons_notin n v ivs' cs₁ hn1
        have h2 : List.map (fillChk ((n, v) :: ivs')) cs₂ = List.map (fillChk ivs') cs₂ :=
          fillCs_cons_notin n v ivs' cs₂ hn2
        rw [h1, h2]
        rfl
      rw [hrepl, hmid, hIH, hfill]
    · have hocc : countOcc (chkJoin us cs) (mkKey us n) = 0 := by
        rw [countOcc_chkJoin us N hUs n hnN cs hraw hkeys hch]
        exact List.count_eq_zero_of_not_mem hmem
      have hrepl : replaceAll (chkJoin us cs) (mkKey us n) v = chkJoin us cs :=
        replaceAll_not_contains v (countOcc_zero_not_contains (mkKey_ne_nil us n) _ hocc)
      rw [hrepl, ih cs hraw hkeys hnd hch hvals', fillCs_cons_notin n v ivs' cs hmem]

/-! ## Infixes of a delimited concatenation -/

theorem getLastQ_append {a b : List Char} (hb : b ≠ []) :
    (a ++ b).getLast? = b.getLast? := by
  induction a with
  | nil => rfl
  | cons c cs ih =>
    have hne : cs ++ b ≠ [] := by
      intro h
      exact hb (List.append_eq_nil.mp h).2
    rw [List.cons_append, getLast_cons_ne_nil hne, ih]

/-- An occurrence of `p` in `a ++ x ++ b` lies entirely inside `x` when no
character of the flanks `a`, `b` occurs in `p`. -/
theorem infix_sandwich {p a x b : List Char} (hp : p ≠ [])
    (ha : ∀ c ∈ a, c ∉ p) (hb : ∀ c ∈ b, c ∉ p)
    (h : p <:+: a ++ (x ++ b)) : p <:+: x := by
  obtain ⟨u, v, huv⟩ := h
  have hup : u <+: a ++ (x ++ b) := ⟨p ++ v, by rw [← huv]; rw [List.append_assoc]⟩
  have hap : a <+: a ++ (x ++ b) := List.prefix_append a _
  have hau : a <+: u := by
    rcases List.prefix_or_prefix_of_prefix hup hap with h1 | h1
    · obtain ⟨u₂, hu₂⟩ := h1
      cases u₂ with
      | nil =>
        rw [List.append_nil] at hu₂
        rw [← hu₂]
      | cons d u₂' =>
        exfalso
        have hpv : p ++ v = (d :: u₂') ++ (x ++ b) := by
          have h2 := huv
          rw [← hu₂, List.append_assoc, List.append_assoc] at h2
          exact List.append_cancel_left h2
        obtain ⟨p0, pt, hp0⟩ : ∃ p0 pt, p = p0 :: pt := by
          cases p with
          | nil => exact absurd rfl hp
          | cons e f => exact ⟨e, f, rfl⟩
        have hhead : p0 = d := by
          rw [hp0] at hpv
          simpa using congrArg List.head? hpv
        have hd_in_a : d ∈ a := by
          rw [← hu₂]
          exact List.mem_append_right u (List.mem_cons_self d u₂')
        exact ha d hd_in_a (hhead ▸ (hp0 ▸ List.mem_cons_self p0 pt))
    · exact h1
  obtain ⟨u', hu'⟩ := hau
  have hx : u' ++ (p ++ v) = x ++ b := by
    rw [← hu', List.append_assoc, List.append_assoc] at huv
    exact List.append_cancel_left huv
  have hvs : v <:+ x ++ b := ⟨u' ++ p, by rw [List.append_assoc]; exact hx⟩
  have hbs : b <:+ x ++ b := List.suffix_append x b
  have hbv : b <:+ v := by
    rcases List.suffix_or_suffix_of_suffix hvs hbs with h1 | h1
    · obtain ⟨b₁, hb₁⟩ := h1
      cases b₁ with
      | nil =>
        rw [List.nil_append] at hb₁
        rw [← hb₁]
      | cons d b₁' =>
        exfalso
        have h2 : u' ++ p = x ++ (d :: b₁') := by
          have h3 : (u' ++ p) ++ v = (x ++ (d :: b₁')) ++ v := by
            rw [List.append_assoc, List.append_assoc, hx, ← hb₁]
          exact List.append_cancel_right h3
        have hplast : (u' ++ p).getLast? = p.getLast? := getLastQ_append hp
        have hblast : (x ++ (d :: b₁')).getLast? = (d :: b₁').getLast? :=
          getLastQ_append (by simp)
        obtain ⟨q, hq⟩ : ∃ q, p.getLast? = some q := by
          cases p with
          | nil => exact absurd rfl hp
          | cons e f => exact ⟨_, List.getLast?_eq_getLast (e :: f) (by simp)⟩
        have hq2 : (d :: b₁').getLast? = some q := by
          rw [← hblast, ← h2, hplast, hq]
        have hqb : q ∈ b := by
          rw [← hb₁]
          exact List.mem_append_left _ (mem_of_getLastQ hq2)
        exact hb q hqb (mem_of_getLastQ hq)
    · exact h1
  obtain ⟨v', hv'⟩ := hbv
  have hfin : u' ++ (p ++ v') = x := by
    have h3 : (u' ++ (p ++ v')) ++ b = x ++ b := by
      rw [List.append_assoc, List.append_assoc, hv']
      exact hx
    exact List.append_cancel_right h3
  exact ⟨u', v', by rw [← hfin]; rw [List.append_assoc]⟩

/-! ## The pre-render text of a structured document as a chunk list -/

/-- Prepend a gap, dropping it when empty (raw chunks must be nonempty). -/
def consGap (g : List Char) (cs : List Chk) : List Chk :=
  if g.isEmpty then cs else Chk.raw g :: cs

/-- Chunk list of the pass-2 output text: keys in span order (display counter
`dc`, inline counter `n`) separated by the gaps. -/
def csPairs : Nat → Nat → List (MSpan × List Char) → List Chk
  | _, _, [] => []
  | dc, n, (sp, g) :: ps =>
    if sp.disp then Chk.kkey dc :: consGap g (csPairs (dc + 1) n ps)
    else Chk.kkey n :: consGap g (csPairs dc (n + 1) ps)

/-- The fully restored (normalized) document body: every span rewritten with
the code's delimiters around its normalized content. -/
def normPairs : List (MSpan × List Char) → List Char
  | [] => []
  | (sp, g) :: ps =>
    wrapMath sp.disp false (fix_math_content sp.content) ++ (g ++ normPairs ps)

/-- Index/value pairs of the display placeholders, keys numbered from `n`. -/
def ivsD : Nat → List (MSpan × List Char) → List (Nat × List Char)
  | _, [] => []
  | n, (sp, _) :: ps =>
    if sp.disp then
      (n, wrapMath true false (fix_math_content sp.content)) :: ivsD (n + 1) ps
    else ivsD n ps

/-- Index/value pairs of the inline placeholders, keys numbered from `n`. -/
def ivsI : Nat → List (MSpan × List Char) → List (Nat × List Char)
  | _, [] => []
  | n, (sp, _) :: ps =>
    if sp.disp then ivsI n ps
    else (n, wrapMath false false (fix_math_content sp.content)) :: ivsI (n + 1) ps

/-- Index/value pairs in span order (display counter `dc`, inline counter `n`). -/
def ivsP : Nat → Nat → List (MSpan × List Char) → List (Nat × List Char)
  | _, _, [] => []
  | dc, n, (sp, _) :: ps =>
    if sp.disp then
      (dc, wrapMath true false (fix_math_content sp.content)) :: ivsP (dc + 1) n ps
    else (n, wrapMath false false (fix_math_content sp.content)) :: ivsP dc (n + 1) ps

theorem phsD_eq_map (us : Nat → List Char) :
    ∀ (ps : List (MSpan × List Char)) (n : Nat),
      phsD us n ps = (ivsD n ps).map (fun p => (mkKey us p.1, p.2)) := by
  intro ps
  induction ps with
  | nil => intro n; rfl
  | cons p ps ih =>
    intro n
    obtain ⟨sp, g⟩ := p
    cases hd : sp.disp with
    | true => simp only [phsD, ivsD, hd, if_true, List.map_cons, ih]
    | false =>
      simp only [phsD, ivsD, hd, ih]
      simp

theorem phsI_eq_map (us : Nat → List Char) :
    ∀ (ps : List (MSpan × List Char)) (n : Nat),
      phsI us n ps = (ivsI n ps).map (fun p => (mkKey us p.1, p.2)) := by
  intro ps
  induction ps with
  | nil => intro n; rfl
  | cons p ps ih =>
    intro n
    obtain ⟨sp, g⟩ := p
    cases hd : sp.disp with
    | true => simp only [phsI, ivsI, hd, if_true, ih]
    | false =>
      simp only [phsI, ivsI, hd, List.map_cons, ih]
      simp

theorem chkJoin_consGap (us : Nat → List Char) (g : List Char) (cs : List Chk) :
    chkJoin us (consGap g cs) = g ++ chkJoin us cs := by
  unfold consGap
  by_cases hg : g.isEmpty = true
  · rw [if_pos hg, List.isEmpty_iff.mp hg, List.nil_append]
  · rw [if_neg hg, chkJoin_raw_cons]

theorem chkJoin_csPairs (us : Nat → List Char) :
    ∀ (ps : List (MSpan × List Char)) (dc n : Nat),
      chkJoin us (csPairs dc n ps) = mid2 us dc n ps := by
  intro ps
  induction ps with
  | nil => intro dc n; rfl
  | cons p ps ih =>
    intro dc n
    obtain ⟨sp, g⟩ := p
    cases hd : sp.disp with
    | true =>
      simp only [csPairs, mid2, hd, if_true]
      rw [chkJoin_key_cons, chkJoin_consGap, ih]
    | false =>
      simp only [csPairs, mid2, hd]
      rw [if_neg Bool.false_ne_true, if_neg Bool.false_ne_true,
        chkJoin_key_cons, chkJoin_consGap, ih]

theorem keyIdxs_key_cons (j : Nat) (cs : List Chk) :
    keyIdxs (Chk.kkey j :: cs) = j :: keyIdxs cs := rfl

theorem keyIdxs_raw_cons (r : List Char) (cs : List Chk) :
    keyIdxs (Chk.raw r :: cs) = keyIdxs cs := rfl

theorem keyIdxs_consGap (g : List Char) (cs : List Chk) :
    keyIdxs (consGap g cs) = keyIdxs cs := by
  unfold consGap
  by_cases hg : g.isEmpty = true
  · rw [if_pos hg]
  · rw [if_neg hg, keyIdxs_raw_cons]

theorem raw_mem_consGap {r g : List Char} {cs : List Chk}
    (h : Chk.raw r ∈ consGap g cs) : r = g ∨ Chk.raw r ∈ cs := by
  unfold consGap at h
  by_cases hg : g.isEmpty = true
  · rw [if_pos hg] at h
    exact Or.inr h
  · rw [if_neg hg] at h
    rcases List.mem_cons.mp h with h1 | h1
    · left
      injection h1
    · exact Or.inr h1

theorem kkey_mem_consGap {j : Nat} {g : List Char} {cs : List Chk}
    (h : Chk.kkey j ∈ consGap g cs) : Chk.kkey j ∈ cs := by
  unfold consGap at h
  by_cases hg : g.isEmpty = true
  · rwa [if_pos hg] at h
  · rw [if_neg hg] at h
    rcases List.mem_cons.mp h with h1 | h1
    · exact absurd h1 (fun h2 => Chk.noConfusion h2)
    · exact h1

theorem csPairs_cons_disp {sp : MSpan} (hd : sp.disp = true) {g : List Char}
    {ps : List (MSpan × List Char)} {dc n : Nat} :
    csPairs dc n ((sp, g) :: ps) = Chk.kkey dc :: consGap g (csPairs (dc + 1) n ps) := by
  simp only [csPairs, hd, if_true]

theorem csPairs_cons_inl {sp : MSpan} (hd : sp.disp = false) {g : List Char}
    {ps : List (MSpan × List Char)} {dc n : Nat} :
    csPairs dc n ((sp, g) :: ps) = Chk.kkey n :: consGap g (csPairs dc (n + 1) ps) := by
  simp only [csPairs, hd]
  rw [if_neg Bool.false_ne_true]

theorem dCount_cons_disp {sp : MSpan} (hd : sp.disp = true) {g : List Char}
    {ps : List (MSpan × List Char)} : dCount ((sp, g) :: ps) = 1 + dCount ps := by
  simp [dCount, hd]

theorem dCount_cons_inl {sp : MSpan} (hd : sp.disp = false) {g : List Char}
    {ps : List (MSpan × List Char)} : dCount ((sp, g) :: ps) = dCount ps := by
  simp [dCount, hd]

theorem iCount_cons_disp {sp : MSpan} (hd : sp.disp = true) {g : List Char}
    {ps : List (MSpan × List Char)} : iCount ((sp, g) :: ps) = iCount ps := by
  simp [iCount, hd]

theorem iCount_cons_inl {sp : MSpan} (hd : sp.disp = false) {g : List Char}
    {ps : List (MSpan × List Char)} : iCount ((sp, g) :: ps) = 1 + iCount ps := by
  simp [iCount, hd]

theorem keyIdxs_csPairs_range :
    ∀ (ps : List (MSpan × List Char)) (dc n j : Nat),
      j ∈ keyIdxs (csPairs dc n ps) →
      (dc ≤ j ∧ j < dc + dCount ps) ∨ (n ≤ j ∧ j < n + iCount ps) := by
  intro ps
  induction ps with
  | nil => intro dc n j h; exact absurd h (List.not_mem_nil j)
  | cons p ps ih =>
    intro dc n j h
    obtain ⟨sp, g⟩ := p
    cases hd : sp.disp with
    | true =>
      rw [csPairs_cons_disp hd, keyIdxs_key_cons, keyIdxs_consGap] at h
      rw [dCount_cons_disp hd, iCount_cons_disp hd]
      rcases List.mem_cons.mp h with h1 | h1
      · subst h1
        left
        omega
      · rcases ih (dc + 1) n j h1 with ⟨h2, h3⟩ | ⟨h2, h3⟩
        · left; omega
        · right; omega
    | false =>
      rw [csPairs_cons_inl hd, keyIdxs_key_cons, keyIdxs_consGap] at h
      rw [dCount_cons_inl hd, iCount_cons_inl hd]
      rcases List.mem_cons.mp h with h1 | h1
      · subst h1
        right
        omega
      · rcases ih dc (n + 1) j h1 with ⟨h2, h3⟩ | ⟨h2, h3⟩
        · left; omega
        · right; omega

theorem keyIdxs_csPairs_nodup :
    ∀ (ps : List (MSpan × List Char)) (dc n : Nat), dc + dCount ps ≤ n →
      (keyIdxs (csPairs dc n ps)).Nodup := by
  intro ps
  induction ps with
  | nil => intro dc n _; exact List.nodup_nil
  | cons p ps ih =>
    intro dc n hle
    obtain ⟨sp, g⟩ := p
    cases hd : sp.disp with
    | true =>
      rw [dCount_cons_disp hd] at hle
      rw [csPairs_cons_disp hd, keyIdxs_key_cons, keyIdxs_consGap, List.nodup_cons]
      constructor
      · intro hmem
        rcases keyIdxs_csPairs_range ps (dc + 1) n dc hmem with ⟨h1, h2⟩ | ⟨h1, h2⟩
        · omega
        · omega
      · exact ih (dc + 1) n (by omega)
    | false =>
      rw [dCount_cons_inl hd] at hle
      rw [csPairs_cons_inl hd, keyIdxs_key_cons, keyIdxs_consGap, List.nodup_cons]
      constructor
      · intro hmem
        rcases keyIdxs_csPairs_range ps dc (n + 1) n hmem with ⟨h1, h2⟩ | ⟨h1, h2⟩
        · omega
        · omega
      · exact ih dc (n + 1) (by omega)

theorem kkey_mem_iff_keyIdxs : ∀ (cs : List Chk) (j : Nat), Chk.kkey j ∈ cs ↔ j ∈ keyIdxs cs := by
  intro cs j
  induction cs with
  | nil => simp [keyIdxs]
  | cons c cs ih =>
    match c with
    | Chk.raw r =>
      rw [keyIdxs_raw_cons]
      constructor
      · intro h
        rcases List.mem_cons.mp h with h1 | h1
        · exact absurd h1 (fun h2 => Chk.noConfusion h2)
        · exact ih.mp h1
      · intro h
        exact List.mem_cons_of_mem _ (ih.mpr h)
    | Chk.kkey m =>
      rw [keyIdxs_key_cons]
      constructor
      · intro h
        rcases List.mem_cons.mp h with h1 | h1
        · injection h1 with h2
          rw [h2]
          exact List.mem_cons_self _ _
        · exact List.mem_cons_of_mem _ (ih.mp h1)
      · intro h
        rcases List.mem_cons.mp h with h1 | h1
        · rw [h1]
          exact List.mem_cons_self _ _
        · exact List.mem_cons_of_mem _ (ih.mpr h1)

theorem raw_mem_csPairs :
    ∀ (ps : List (MSpan × List Char)) (dc n : Nat) (r : List Char),
      Chk.raw r ∈ csPairs dc n ps → ∃ q ∈ ps, r = q.2 := by
  intro ps
  induction ps with
  | nil => intro dc n r h; exact absurd h (List.not_mem_nil _)
  | cons p ps ih =>
    intro dc n r h
    obtain ⟨sp, g⟩ := p
    cases hd : sp.disp with
    | true =>
      rw [csPairs_cons_disp hd] at h
      rcases List.mem_cons.mp h with h1 | h1
      · exact absurd h1 (fun h2 => Chk.noConfusion h2)
      · rcases raw_mem_consGap h1 with h2 | h2
        · exact ⟨(sp, g), List.mem_cons_self _ _, h2⟩
        · obtain ⟨q, hq, hr⟩ := ih (dc + 1) n r h2
          exact ⟨q, List.mem_cons_of_mem _ hq, hr⟩
    | false =>
      rw [csPairs_cons_inl hd] at h
      rcases List.mem_cons.mp h with h1 | h1
      · exact absurd h1 (fun h2 => Chk.noConfusion h2)
      · rcases raw_mem_consGap h1 with h2 | h2
        · exact ⟨(sp, g), List.mem_cons_self _ _, h2⟩
        · obtain ⟨q, hq, hr⟩ := ih dc (n + 1) r h2
          exact ⟨q, List.mem_cons_of_mem _ hq, hr⟩

theorem csPairs_head_key :
    ∀ (ps : List (MSpan × List Char)) (dc n : Nat),
      csPairs dc n ps = [] ∨ ∃ j t, csPairs dc n ps = Chk.kkey j :: t := by
  intro ps dc n
  match ps with
  | [] => exact Or.inl rfl
  | (sp, g) :: ps =>
    cases hd : sp.disp with
    | true => exact Or.inr ⟨dc, consGap g (csPairs (dc + 1) n ps), csPairs_cons_disp hd⟩
    | false => exact Or.inr ⟨n, consGap g (csPairs dc (n + 1) ps), csPairs_cons_inl hd⟩

theorem chkOk2_from_key (j : Nat) (y : Chk) : chkOk2 (Chk.kkey j) y := by
  match y with
  | Chk.kkey m => exact trivial
  | Chk.raw r => exact trivial

theorem chain'_consGap {g : List Char} {cs : List Chk}
    (hcs : List.Chain' chkOk2 cs) (hhead : cs = [] ∨ ∃ m t, cs = Chk.kkey m :: t) :
    List.Chain' chkOk2 (consGap g cs) := by
  unfold consGap
  by_cases hg : g.isEmpty = true
  · rwa [if_pos hg]
  · rw [if_neg hg]
    refine List.chain'_cons'.mpr ⟨?_, hcs⟩
    intro y hy
    rcases hhead with h0 | ⟨m, t, h0⟩
    · rw [h0] at hy
      exact absurd hy (by simp)
    · rw [h0] at hy
      simp only [List.head?_cons, Option.mem_def, Option.some.injEq] at hy
      subst hy
      exact trivial

theorem chain'_key_consGap {g : List Char} {cs : List Chk} (j : Nat)
    (hcs : List.Chain' chkOk2 cs) (hhead : cs = [] ∨ ∃ m t, cs = Chk.kkey m :: t) :
    List.Chain' chkOk2 (Chk.kkey j :: consGap g cs) :=
  List.chain'_cons'.mpr ⟨fun y _ => chkOk2_from_key j y, chain'_consGap hcs hhead⟩

theorem chain'_csPairs :
    ∀ (ps : List (MSpan × List Char)) (dc n : Nat),
      List.Chain' chkOk2 (csPairs dc n ps) := by
  intro ps
  induction ps with
  | nil => intro dc n; exact List.chain'_nil
  | cons p ps ih =>
    intro dc n
    obtain ⟨sp, g⟩ := p
    cases hd : sp.disp with
    | true =>
      rw [csPairs_cons_disp hd]
      exact chain'_key_consGap dc (ih (dc + 1) n) (csPairs_head_key ps (dc + 1) n)
    | false =>
      rw [csPairs_cons_inl hd]
      exact chain'_key_consGap n (ih dc (n + 1)) (csPairs_head_key ps dc (n + 1))

theorem ivsD_cons_disp {sp : MSpan} (hd : sp.disp = true) {g : List Char}
    {ps : List (MSpan × List Char)} {n : Nat} :
    ivsD n ((sp, g) :: ps) =
      (n, wrapMath true false (fix_math_content sp.content)) :: ivsD (n + 1) ps := by
  simp only [ivsD, hd, if_true]

theorem ivsD_cons_inl {sp : MSpan} (hd : sp.disp = false) {g : List Char}
    {ps : List (MSpan × List Char)} {n : Nat} :
    ivsD n ((sp, g) :: ps) = ivsD n ps := by
  simp only [ivsD, hd]
  rw [if_neg Bool.false_ne_true]

theorem ivsI_cons_disp {sp : MSpan} (hd : sp.disp = true) {g : List Char}
    {ps : List (MSpan × List Char)} {n : Nat} :
    ivsI n ((sp, g) :: ps) = ivsI n ps := by
  simp only [ivsI, hd, if_true]

theorem ivsI_cons_inl {sp : MSpan} (hd : sp.disp = false) {g : List Char}
    {ps : List (MSpan × List Char)} {n : Nat} :
    ivsI n ((sp, g) :: ps) =
      (n, wrapMath false false (fix_math_content sp.content)) :: ivsI (n + 1) ps := by
  simp only [ivsI, hd]
  rw [if_neg Bool.false_ne_true]

theorem ivsP_cons_disp {sp : MSpan} (hd : sp.disp = true) {g : List Char}
    {ps : List (MSpan × List Char)} {dc n : Nat} :
    ivsP dc n ((sp, g) :: ps) =
      (dc, wrapMath true false (fix_math_content sp.content)) :: ivsP (dc + 1) n ps := by
  simp only [ivsP, hd, if_true]

theorem ivsP_cons_inl {sp : MSpan} (hd : sp.disp = false) {g : List Char}
    {ps : List (MSpan × List Char)} {dc n : Nat} :
    ivsP dc n ((sp, g) :: ps) =
      (n, wrapMath false false (fix_math_content sp.content)) :: ivsP dc (n + 1) ps := by
  simp only [ivsP, hd]
  rw [if_neg Bool.false_ne_true]

theorem lookupIdx_cons_pos (j : Nat) (v : List Char) (ivs : List (Nat × List Char)) :
    lookupIdx j ((j, v) :: ivs) = some v := by
  rw [lookupIdx, if_pos rfl]

theorem lookupIdx_cons_neg {m j : Nat} (h : m ≠ j) (v : List Char)
    (ivs : List (Nat × List Char)) : lookupIdx j ((m, v) :: ivs) = lookupIdx j ivs := by
  rw [lookupIdx, if_neg h]

theorem ivsD_idx_bounds :
    ∀ (ps : List (MSpan × List Char)) (n : Nat) (p : Nat × List Char),
      p ∈ ivsD n ps → n ≤ p.1 ∧ p.1 < n + dCount ps := by
  intro ps
  induction ps with
  | nil => intro n p h; exact absurd h (List.not_mem_nil _)
  | cons q ps ih =>
    intro n p h
    obtain ⟨sp, g⟩ := q
    cases hd : sp.disp with
    | true =>
      rw [ivsD_cons_disp hd] at h
      rw [dCount_cons_disp hd]
      rcases List.mem_cons.mp h with h1 | h1
      · subst h1
        constructor
        · exact le_refl n
        · omega
      · have := ih (n + 1) p h1
        omega
    | false =>
      rw [ivsD_cons_inl hd] at h
      rw [dCount_cons_inl hd]
      exact ih n p h

theorem ivsI_idx_bounds :
    ∀ (ps : List (MSpan × List Char)) (n : Nat) (p : Nat × List Char),
      p ∈ ivsI n ps → n ≤ p.1 ∧ p.1 < n + iCount ps := by
  intro ps
  induction ps with
  | nil => intro n p h; exact absurd h (List.not_mem_nil _)
  | cons q ps ih =>
    intro n p h
    obtain ⟨sp, g⟩ := q
    cases hd : sp.disp with
    | true =>
      rw [ivsI_cons_disp hd] at h
      rw [iCount_cons_disp hd]
      exact ih n p h
    | false =>
      rw [ivsI_cons_inl hd] at h
      rw [iCount_cons_inl hd]
      rcases List.mem_cons.mp h with h1 | h1
      · subst h1
        constructor
        · exact le_refl n
        · omega
      · have := ih (n + 1) p h1
        omega

theorem lookup_ivsD_self :
    ∀ (ps : List (MSpan × List Char)) (n : Nat) (p : Nat × List Char),
      p ∈ ivsD n ps → lookupIdx p.1 (ivsD n ps) = some p.2 := by
  intro ps
  induction ps with
  | nil => intro n p h; exact absurd h (List.not_mem_nil _)
  | cons q ps ih =>
    intro n p h
    obtain ⟨sp, g⟩ := q
    cases hd : sp.disp with
    | true =>
      rw [ivsD_cons_disp hd] at h ⊢
      rcases List.mem_cons.mp h with h1 | h1
      · subst h1
        exact lookupIdx_cons_pos n _ _
      · have hb := ivsD_idx_bounds ps (n + 1) p h1
        rw [lookupIdx_cons_neg (by omega) _ _]
        exact ih (n + 1) p h1
    | false =>
      rw [ivsD_cons_inl hd] at h ⊢
      exact ih n p h

theorem lookup_ivsI_self :
    ∀ (ps : List (MSpan × List Char)) (n : Nat) (p : Nat × List Char),
      p ∈ ivsI n ps → lookupIdx p.1 (ivsI n ps) = some p.2 := by
  intro ps
  induction ps with
  | nil => intro n p h; exact absurd h (List.not_mem_nil _)
  | cons q ps ih =>
    intro n p h
    obtain ⟨sp, g⟩ := q
    cases hd : sp.disp with
    | true =>
      rw [ivsI_cons_disp hd] at h ⊢
      exact ih n p h
    | false =>
      rw [ivsI_cons_inl hd] at h ⊢
      rcases List.mem_cons.mp h with h1 | h1
      · subst h1
        exact lookupIdx_cons_pos n _ _
      · have hb := ivsI_idx_bounds ps (n + 1) p h1
        rw [lookupIdx_cons_neg (by omega) _ _]
        exact ih (n + 1) p h1

theorem lookupIdx_mem :
    ∀ (ivs : List (Nat × List Char)) (j : Nat) (v : List Char),
      lookupIdx j ivs = some v → (j, v) ∈ ivs := by
  intro ivs
  induction ivs with
  | nil =>
    intro j v h
    rw [lookupIdx] at h
    exact Option.noConfusion h
  | cons q ivs ih =>
    intro j v h
    rw [lookupIdx] at h
    by_cases hq : q.1 = j
    · rw [if_pos hq] at h
      injection h with h2
      have hqe : q = (j, v) := Prod.ext hq h2
      rw [← hqe]
      exact List.mem_cons_self _ _
    · rw [if_neg hq] at h
      exact List.mem_cons_of_mem _ (ih j v h)

theorem lookup_none_of_ub :
    ∀ (ivs : List (Nat × List Char)) (m j : Nat),
      (∀ q ∈ ivs, q.1 < m) → m ≤ j → lookupIdx j ivs = none := by
  intro ivs
  induction ivs with
  | nil => intro m j _ _; rfl
  | cons q ivs ih =>
    intro m j hub hj
    have hq := hub q (List.mem_cons_self _ _)
    rw [lookupIdx, if_neg (by omega)]
    exact ih m j (fun r hr => hub r (List.mem_cons_of_mem _ hr)) hj

theorem lookupIdx_append_some {j : Nat} {v : List Char} {A : List (Nat × List Char)}
    (B : List (Nat × List Char)) (h : lookupIdx j A = some v) :
    lookupIdx j (A ++ B) = some v := by
  induction A with
  | nil =>
    rw [lookupIdx] at h
    exact Option.noConfusion h
  | cons q A ih =>
    rw [lookupIdx] at h
    rw [List.cons_append, lookupIdx]
    by_cases hq : q.1 = j
    · rw [if_pos hq] at h ⊢
      exact h
    · rw [if_neg hq] at h ⊢
      exact ih h

theorem lookupIdx_append_none {j : Nat} {A : List (Nat × List Char)}
    (h : lookupIdx j A = none) (B : List (Nat × List Char)) :
    lookupIdx j (A ++ B) = lookupIdx j B := by
  induction A with
  | nil => rfl
  | cons q A ih =>
    rw [lookupIdx] at h
    rw [List.cons_append, lookupIdx]
    by_cases hq : q.1 = j
    · rw [if_pos hq] at h
      exact Option.noConfusion h
    · rw [if_neg hq] at h ⊢
      exact ih h

theorem ivsP_mem_split :
    ∀ (ps : List (MSpan × List Char)) (dc n : Nat) (p : Nat × List Char),
      p ∈ ivsP dc n ps → p ∈ ivsD dc ps ∨ p ∈ ivsI n ps := by
  intro ps
  induction ps with
  | nil => intro dc n p h; exact absurd h (List.not_mem_nil _)
  | cons q ps ih =>
    intro dc n p h
    obtain ⟨sp, g⟩ := q
    cases hd : sp.disp with
    | true =>
      rw [ivsP_cons_disp hd] at h
      rw [ivsD_cons_disp hd, ivsI_cons_disp hd]
      rcases List.mem_cons.mp h with h1 | h1
      · exact Or.inl (h1 ▸ List.mem_cons_self _ _)
      · rcases ih (dc + 1) n p h1 with h2 | h2
        · exact Or.inl (List.mem_cons_of_mem _ h2)
        · exact Or.inr h2
    | false =>
      rw [ivsP_cons_inl hd] at h
      rw [ivsD_cons_inl hd, ivsI_cons_inl hd]
      rcases List.mem_cons.mp h with h1 | h1
      · exact Or.inr (h1 ▸ List.mem_cons_self _ _)
      · rcases ih dc (n + 1) p h1 with h2 | h2
        · exact Or.inl h2
        · exact Or.inr (List.mem_cons_of_mem _ h2)

theorem lookup_global :
    ∀ (ps : List (MSpan × List Char)) (p : Nat × List Char),
      p ∈ ivsP 0 (dCount ps) ps →
      lookupIdx p.1 (ivsD 0 ps ++ ivsI (dCount ps) ps) = some p.2 := by
  intro ps p hp
  rcases ivsP_mem_split ps 0 (dCount ps) p hp with h | h
  · exact lookupIdx_append_some _ (lookup_ivsD_self ps 0 p h)
  · have hb := ivsI_idx_bounds ps (dCount ps) p h
    have hnone : lookupIdx p.1 (ivsD 0 ps) = none :=
      lookup_none_of_ub (ivsD 0 ps) (dCount ps) p.1
        (fun q hq => by have := ivsD_idx_bounds ps 0 q hq; omega) (by omega)
    rw [lookupIdx_append_none hnone]
    exact lookup_ivsI_self ps (dCount ps) p h

theorem ivsD_val :
    ∀ (ps : List (MSpan × List Char)) (n : Nat) (p : Nat × List Char),
      p ∈ ivsD n ps →
      ∃ q ∈ ps, p.2 = wrapMath true false (fix_math_content q.1.content) := by
  intro ps
  induction ps with
  | nil => intro n p h; exact absurd h (List.not_mem_nil _)
  | cons q ps ih =>
    intro n p h
    obtain ⟨sp, g⟩ := q
    cases hd : sp.disp with
    | true =>
      rw [ivsD_cons_disp hd] at h
      rcases List.mem_cons.mp h with h1 | h1
      · exact ⟨(sp, g), List.mem_cons_self _ _, by rw [h1]⟩
      · obtain ⟨q, hq, hv⟩ := ih (n + 1) p h1
        exact ⟨q, List.mem_cons_of_mem _ hq, hv⟩
    | false =>
      rw [ivsD_cons_inl hd] at h
      obtain ⟨q, hq, hv⟩ := ih n p h
      exact ⟨q, List.mem_cons_of_mem _ hq, hv⟩

theorem ivsI_val :
    ∀ (ps : List (MSpan × List Char)) (n : Nat) (p : Nat × List Char),
      p ∈ ivsI n ps →
      ∃ q ∈ ps, p.2 = wrapMath false false (fix_math_content q.1.content) := by
  intro ps
  induction ps with
  | nil => intro n p h; exact absurd h (List.not_mem_nil _)
  | cons q ps ih =>
    intro n p h
    obtain ⟨sp, g⟩ := q
    cases hd : sp.disp with
    | true =>
      rw [ivsI_cons_disp hd] at h
      obtain ⟨q, hq, hv⟩ := ih n p h
      exact ⟨q, List.mem_cons_of_mem _ hq, hv⟩
    | false =>
      rw [ivsI_cons_inl hd] at h
      rcases List.mem_cons.mp h with h1 | h1
      · exact ⟨(sp, g), List.mem_cons_self _ _, by rw [h1]⟩
      · obtain ⟨q, hq, hv⟩ := ih (n + 1) p h1
        exact ⟨q, List.mem_cons_of_mem _ hq, hv⟩

theorem goodVal_wrapMath (us : Nat → List Char) (N : Nat)
    (hhex : ∀ i, i < N → ∀ c ∈ us i, hexLowerB c = true)
    (isD : Bool) (fixed : List Char)
    (hm : ¬ markerL <:+: fixed) (hus : ∀ i, i < N → ¬ us i <:+: fixed) :
    goodVal us N (wrapMath isD false fixed) := by
  cases isD with
  | true =>
    have hshape : wrapMath true false fixed = ['$', '$', ' '] ++ (fixed ++ [' ', '$', '$']) := by
      simp [wrapMath]
    rw [hshape]
    refine ⟨⟨'$', rfl, ⟨by decide, by decide⟩⟩, ⟨'$', ?_, ⟨by decide, by decide⟩⟩, ?_, ?_⟩
    · rw [getLastQ_append (by simp), getLastQ_append (by simp)]
      decide
    · intro hinf
      exact hm (infix_sandwich (by decide) (by decide) (by decide) hinf)
    · intro i hi hinf
      by_cases hne : us i = []
      · exact hus i hi (by rw [hne]; exact List.nil_infix)
      · have hflank1 : ∀ c ∈ ['$', '$', ' '], c ∉ us i := by
          intro c hc hmem
          have h1 := hhex i hi c hmem
          fin_cases hc <;> exact absurd h1 (by decide)
        have hflank2 : ∀ c ∈ [' ', '$', '$'], c ∉ us i := by
          intro c hc hmem
          have h1 := hhex i hi c hmem
          fin_cases hc <;> exact absurd h1 (by decide)
        have hswap1 : ∀ c ∈ (['$', '$', ' '] : List Char), c ∉ us i := hflank1
        exact hus i hi (infix_sandwich hne hswap1 hflank2 hinf)
  | false =>
    have hshape : wrapMath false false fixed = ['$', ' '] ++ (fixed ++ [' ', '$']) := by
      simp [wrapMath]
    rw [hshape]
    refine ⟨⟨'$', rfl, ⟨by decide, by decide⟩⟩, ⟨'$', ?_, ⟨by decide, by decide⟩⟩, ?_, ?_⟩
    · rw [getLastQ_append (by simp), getLastQ_append (by simp)]
      decide
    · intro hinf
      exact hm (infix_sandwich (by decide) (by decide) (by decide) hinf)
    · intro i hi hinf
      by_cases hne : us i = []
      · exact hus i hi (by rw [hne]; exact List.nil_infix)
      · have hflank1 : ∀ c ∈ ['$', ' '], c ∉ us i := by
          intro c hc hmem
          have h1 := hhex i hi c hmem
          fin_cases hc <;> exact absurd h1 (by decide)
        have hflank2 : ∀ c ∈ [' ', '$'], c ∉ us i := by
          intro c hc hmem
          have h1 := hhex i hi c hmem
          fin_cases hc <;> exact absurd h1 (by decide)
        exact hus i hi (infix_sandwich hne hflank1 hflank2 hinf)

theorem mkKey_length {us : Nat → List Char} {N : Nat} (hUs : UsGood us N) {i : Nat}
    (hi : i < N) : (mkKey us i).length = 65 := by
  simp [mkKey, markerL, endMarkL, hUs.1 i hi]

theorem mkKey_inj {us : Nat → List Char} {N : Nat} (hUs : UsGood us N) {i j : Nat}
    (hi : i < N) (hj : j < N) (h : mkKey us i = mkKey us j) : i = j := by
  have heq2 : us i ++ endMarkL = us j ++ endMarkL := by
    have h5 := h
    simp only [mkKey, List.append_assoc] at h5
    exact List.append_cancel_left h5
  have heq3 : us i = us j :=
    List.append_inj_left heq2 (by rw [hUs.1 i hi, hUs.1 j hj])
  exact hUs.2.2 i hi j hj heq3

theorem fillCs_consGap (ivs : List (Nat × List Char)) (g : List Char) (cs : List Chk) :
    fillCs ivs (consGap g cs) = consGap g (fillCs ivs cs) := by
  unfold consGap
  by_cases hg : g.isEmpty = true
  · rw [if_pos hg, if_pos hg]
  · rw [if_neg hg, if_neg hg]
    rfl

theorem fill_csPairs (us : Nat → List Char) (ivs : List (Nat × List Char)) :
    ∀ (ps : List (MSpan × List Char)) (dc n : Nat),
      (∀ p ∈ ivsP dc n ps, lookupIdx p.1 ivs = some p.2) →
      chkJoin us (fillCs ivs (csPairs dc n ps)) = normPairs ps := by
  intro ps
  induction ps with
  | nil => intro dc n _; rfl
  | cons q ps ih =>
    intro dc n hlk
    obtain ⟨sp, g⟩ := q
    cases hd : sp.disp with
    | true =>
      rw [csPairs_cons_disp hd]
      have hlk0 : lookupIdx dc ivs = some (wrapMath true false (fix_math_content sp.content)) :=
        hlk (dc, wrapMath true false (fix_math_content sp.content))
          (by rw [ivsP_cons_disp hd]; exact List.mem_cons_self _ _)
      have hfk : fillChk ivs (Chk.kkey dc) =
          Chk.raw (wrapMath true false (fix_math_content sp.content)) := by
        simp only [fillChk]
        rw [hlk0]
      show chkJoin us (fillChk ivs (Chk.kkey dc) ::
        fillCs ivs (consGap g (csPairs (dc + 1) n ps))) = _
      rw [hfk, chkJoin_raw_cons, fillCs_consGap, chkJoin_consGap,
        ih (dc + 1) n
          (fun p hp => hlk p (by rw [ivsP_cons_disp hd]; exact List.mem_cons_of_mem _ hp))]
      show _ = wrapMath sp.disp false (fix_math_content sp.content) ++ (g ++ normPairs ps)
      rw [hd]
    | false =>
      rw [csPairs_cons_inl hd]
      have hlk0 : lookupIdx n ivs = some (wrapMath false false (fix_math_content sp.content)) :=
        hlk (n, wrapMath false false (fix_math_content sp.content))
          (by rw [ivsP_cons_inl hd]; exact List.mem_cons_self _ _)
      have hfk : fillChk ivs (Chk.kkey n) =
          Chk.raw (wrapMath false false (fix_math_content sp.content)) := by
        simp only [fillChk]
        rw [hlk0]
      show chkJoin us (fillChk ivs (Chk.kkey n) ::
        fillCs ivs (consGap g (csPairs dc (n + 1) ps))) = _
      rw [hfk, chkJoin_raw_cons, fillCs_consGap, chkJoin_consGap,
        ih dc (n + 1)
          (fun p hp => hlk p (by rw [ivsP_cons_inl hd]; exact List.mem_cons_of_mem _ hp))]
      show _ = wrapMath sp.disp false (fix_math_content sp.content) ++ (g ++ normPairs ps)
      rw [hd]

theorem raw_mem_fillCs {ivs : List (Nat × List Char)} :
    ∀ (cs : List Chk) (r : List Char), Chk.raw r ∈ fillCs ivs cs →
      Chk.raw r ∈ cs ∨ ∃ j, (j, r) ∈ ivs := by
  intro cs
  induction cs with
  | nil => intro r h; exact absurd h (List.not_mem_nil _)
  | cons c cs ih =>
    intro r h
    rcases List.mem_cons.mp h with h1 | h1
    · match c with
      | Chk.raw s =>
        simp only [fillChk] at h1
        injection h1 with h2
        rw [h2]
        exact Or.inl (List.mem_cons_self _ _)
      | Chk.kkey j =>
        simp only [fillChk] at h1
        cases hl : lookupIdx j ivs with
        | some v =>
          rw [hl] at h1
          injection h1 with h2
          exact Or.inr ⟨j, h2 ▸ lookupIdx_mem ivs j v hl⟩
        | none =>
          rw [hl] at h1
          exact Chk.noConfusion h1
    · rcases ih r h1 with h2 | h2
      · exact Or.inl (List.mem_cons_of_mem _ h2)
      · exact Or.inr h2

theorem keyIdxs_fillCs_nil {ivs : List (Nat × List Char)} :
    ∀ (cs : List Chk), (∀ j ∈ keyIdxs cs, ∃ v, lookupIdx j ivs = some v) →
      keyIdxs (fillCs ivs cs) = [] := by
  intro cs
  induction cs with
  | nil => intro _; rfl
  | cons c cs ih =>
    intro hcov
    match c with
    | Chk.raw s =>
      show keyIdxs (fillChk ivs (Chk.raw s) :: fillCs ivs cs) = []
      rw [show fillChk ivs (Chk.raw s) = Chk.raw s from rfl, keyIdxs_raw_cons]
      exact ih (fun j hj => hcov j hj)
    | Chk.kkey m =>
      obtain ⟨v, hv⟩ := hcov m (by rw [keyIdxs_key_cons]; exact List.mem_cons_self _ _)
      show keyIdxs (fillChk ivs (Chk.kkey m) :: fillCs ivs cs) = []
      have hfk : fillChk ivs (Chk.kkey m) = Chk.raw v := by
        simp only [fillChk]
        rw [hv]
      rw [hfk, keyIdxs_raw_cons]
      exact ih (fun j hj => hcov j (by rw [keyIdxs_key_cons]; exact List.mem_cons_of_mem _ hj))

theorem chkOk2_raw_goodVal_left {us : Nat → List Char} {N : Nat} {v : List Char}
    (hv : goodVal us N v) (y : Chk) : chkOk2 (Chk.raw v) y := by
  match y with
  | Chk.kkey m => exact trivial
  | Chk.raw r => exact Or.inr hv.2.1

theorem chkOk2_raw_goodVal_right {us : Nat → List Char} {N : Nat} {v : List Char}
    (hv : goodVal us N v) (x : Chk) : chkOk2 x (Chk.raw v) := by
  match x with
  | Chk.kkey m => exact trivial
  | Chk.raw s => exact Or.inl hv.1

theorem chkOk2_fillChk {us : Nat → List Char} {N : Nat} {ivs : List (Nat × List Char)}
    (hgv : ∀ p ∈ ivs, goodVal us N p.2)
    {a b : Chk} (hab : chkOk2 a b) : chkOk2 (fillChk ivs a) (fillChk ivs b) := by
  match a with
  | Chk.kkey j =>
    show chkOk2 (fillChk ivs (Chk.kkey j)) (fillChk ivs b)
    simp only [fillChk]
    cases hl : lookupIdx j ivs with
    | none => exact chkOk2_from_key j _
    | some v =>
      exact chkOk2_raw_goodVal_left (hgv (j, v) (lookupIdx_mem _ _ _ hl)) _
  | Chk.raw s =>
    match b with
    | Chk.kkey m =>
      show chkOk2 (Chk.raw s) (fillChk ivs (Chk.kkey m))
      simp only [fillChk]
      cases hl : lookupIdx m ivs with
      | none => exact trivial
      | some v => exact chkOk2_raw_goodVal_right (hgv (m, v) (lookupIdx_mem _ _ _ hl)) _
    | Chk.raw r =>
      exact hab

theorem chain'_fillCs {us : Nat → List Char} {N : Nat} {ivs : List (Nat × List Char)}
    (hgv : ∀ p ∈ ivs, goodVal us N p.2) :
    ∀ {cs : List Chk}, List.Chain' chkOk2 cs → List.Chain' chkOk2 (fillCs ivs cs) := by
  intro cs h
  unfold fillCs
  rw [List.chain'_map]
  exact List.Chain'.imp (fun a b hab => chkOk2_fillChk hgv hab) h

theorem raw_mem_consGap' {r g : List Char} {cs : List Chk}
    (h : Chk.raw r ∈ consGap g cs) : (r = g ∧ g ≠ []) ∨ Chk.raw r ∈ cs := by
  unfold consGap at h
  by_cases hg : g.isEmpty = true
  · rw [if_pos hg] at h
    exact Or.inr h
  · rw [if_neg hg] at h
    rcases List.mem_cons.mp h with h1 | h1
    · refine Or.inl ⟨by injection h1, ?_⟩
      intro hnil
      rw [hnil] at hg
      exact hg rfl
    · exact Or.inr h1

theorem raw_mem_csPairs' :
    ∀ (ps : List (MSpan × List Char)) (dc n : Nat) (r : List Char),
      Chk.raw r ∈ csPairs dc n ps → ∃ q ∈ ps, r = q.2 ∧ q.2 ≠ [] := by
  intro ps
  induction ps with
  | nil => intro dc n r h; exact absurd h (List.not_mem_nil _)
  | cons p ps ih =>
    intro dc n r h
    obtain ⟨sp, g⟩ := p
    cases hd : sp.disp with
    | true =>
      rw [csPairs_cons_disp hd] at h
      rcases List.mem_cons.mp h with h1 | h1
      · exact absurd h1 (fun h2 => Chk.noConfusion h2)
      · rcases raw_mem_consGap' h1 with ⟨h2, hne⟩ | h2
        · exact ⟨(sp, g), List.mem_cons_self _ _, h2, hne⟩
        · obtain ⟨q, hq, hr, hne⟩ := ih (dc + 1) n r h2
          exact ⟨q, List.mem_cons_of_mem _ hq, hr, hne⟩
    | false =>
      rw [csPairs_cons_inl hd] at h
      rcases List.mem_cons.mp h with h1 | h1
      · exact absurd h1 (fun h2 => Chk.noConfusion h2)
      · rcases raw_mem_consGap' h1 with ⟨h2, hne⟩ | h2
        · exact ⟨(sp, g), List.mem_cons_self _ _, h2, hne⟩
        · obtain ⟨q, hq, hr, hne⟩ := ih dc (n + 1) r h2
          exact ⟨q, List.mem_cons_of_mem _ hq, hr, hne⟩

/-! ## The full document chunk list and its discipline -/

theorem csDoc_raw {us : Nat → List Char} {N : Nat} {g0 : List Char}
    {ps : List (MSpan × List Char)}
    (hg0m : ¬ markerL <:+: g0) (hg0u : ∀ i, i < N → ¬ us i <:+: g0)
    (hgm : ∀ q ∈ ps, ¬ markerL <:+: q.2) (hgu : ∀ q ∈ ps, ∀ i, i < N → ¬ us i <:+: q.2) :
    ∀ r, Chk.raw r ∈ consGap g0 (csPairs 0 (dCount ps) ps) → rawOk us N r := by
  intro r hr
  rcases raw_mem_consGap' hr with ⟨h1, hne⟩ | h1
  · subst h1
    exact ⟨hne, hg0m, hg0u⟩
  · obtain ⟨q, hq, hr2, hne⟩ := raw_mem_csPairs' ps 0 (dCount ps) r h1
    subst hr2
    exact ⟨hne, hgm q hq, hgu q hq⟩

theorem csDoc_keys {N : Nat} {g0 : List Char} {ps : List (MSpan × List Char)}
    (hN : N = dCount ps + iCount ps) :
    ∀ j, Chk.kkey j ∈ consGap g0 (csPairs 0 (dCount ps) ps) → j < N := by
  intro j hj
  have h1 := kkey_mem_consGap hj
  have h2 := (kkey_mem_iff_keyIdxs _ j).mp h1
  rcases keyIdxs_csPairs_range ps 0 (dCount ps) j h2 with ⟨h3, h4⟩ | ⟨h3, h4⟩
  · omega
  · omega

theorem csDoc_nodup (g0 : List Char) (ps : List (MSpan × List Char)) :
    (keyIdxs (consGap g0 (csPairs 0 (dCount ps) ps))).Nodup := by
  rw [keyIdxs_consGap]
  exact keyIdxs_csPairs_nodup ps 0 (dCount ps) (by omega)

theorem csDoc_chain (g0 : List Char) (ps : List (MSpan × List Char)) :
    List.Chain' chkOk2 (consGap g0 (csPairs 0 (dCount ps) ps)) :=
  chain'_consGap (chain'_csPairs ps 0 (dCount ps)) (csPairs_head_key ps 0 (dCount ps))

theorem csDoc_vals {us : Nat → List Char} {N : Nat} {ps : List (MSpan × List Char)}
    (hN : N = dCount ps + iCount ps) (hUs : UsGood us N)
    (hcm : ∀ q ∈ ps, ¬ markerL <:+: fix_math_content q.1.content)
    (hcu : ∀ q ∈ ps, ∀ i, i < N → ¬ us i <:+: fix_math_content q.1.content) :
    ∀ p ∈ ivsD 0 ps ++ ivsI (dCount ps) ps, p.1 < N ∧ goodVal us N p.2 := by
  intro p hp
  rcases List.mem_append.mp hp with h1 | h1
  · have hb := ivsD_idx_bounds ps 0 p h1
    obtain ⟨q, hq, hv⟩ := ivsD_val ps 0 p h1
    refine ⟨by omega, ?_⟩
    rw [hv]
    exact goodVal_wrapMath us N hUs.2.1 true _ (hcm q hq) (hcu q hq)
  · have hb := ivsI_idx_bounds ps (dCount ps) p h1
    obtain ⟨q, hq, hv⟩ := ivsI_val ps (dCount ps) p h1
    refine ⟨by omega, ?_⟩
    rw [hv]
    exact goodVal_wrapMath us N hUs.2.1 false _ (hcm q hq) (hcu q hq)

/-- **The round trip on a structured document.** Extraction followed directly
by restoration yields the document with every span rewritten in the code's
output delimiters around its normalized content. -/
theorem doc_roundtrip (us : Nat → List Char) (g0 : List Char)
    (ps : List (MSpan × List Char)) (N : Nat) (hN : N = dCount ps + iCount ps)
    (hUs : UsGood us N)
    (husD : ∀ m, '$' ∉ us m) (husB : ∀ m, '[' ∉ us m)
    (hg0 : goodGapB g0 = true) (hps : wfPairsB ps = true)
    (hg0m : ¬ markerL <:+: g0) (hg0u : ∀ i, i < N → ¬ us i <:+: g0)
    (hgm : ∀ q ∈ ps, ¬ markerL <:+: q.2) (hgu : ∀ q ∈ ps, ∀ i, i < N → ¬ us i <:+: q.2)
    (hcm : ∀ q ∈ ps, ¬ markerL <:+: fix_math_content q.1.content)
    (hcu : ∀ q ∈ ps, ∀ i, i < N → ¬ us i <:+: fix_math_content q.1.content) :
    restore_math (process_math_pre_markdown us (renderMDoc (g0, ps))).1
        (process_math_pre_markdown us (renderMDoc (g0, ps))).2
      = g0 ++ normPairs ps := by
  have hproc := process_structure us husD husB g0 ps hg0 hps
  rw [hproc]
  have hjoin : chkJoin us (consGap g0 (csPairs 0 (dCount ps) ps))
      = g0 ++ mid2 us 0 (dCount ps) ps := by
    rw [chkJoin_consGap, chkJoin_csPairs]
  have hphs : phsD us 0 ps ++ phsI us (dCount ps) ps
      = (ivsD 0 ps ++ ivsI (dCount ps) ps).map (fun p => (mkKey us p.1, p.2)) := by
    rw [List.map_append, phsD_eq_map, phsI_eq_map]
  rw [← hjoin, hphs,
    restoreFold us N hUs (ivsD 0 ps ++ ivsI (dCount ps) ps)
      (consGap g0 (csPairs 0 (dCount ps) ps))
      (csDoc_raw hg0m hg0u hgm hgu) (csDoc_keys hN) (csDoc_nodup g0 ps)
      (csDoc_chain g0 ps) (csDoc_vals hN hUs hcm hcu),
    fillCs_consGap, chkJoin_consGap,
    fill_csPairs us (ivsD 0 ps ++ ivsI (dCount ps) ps) ps 0 (dCount ps)
      (fun p hp => lookup_global ps p hp)]

theorem ivsD_length : ∀ (ps : List (MSpan × List Char)) (n : Nat),
    (ivsD n ps).length = dCount ps := by
  intro ps
  induction ps with
  | nil => intro n; rfl
  | cons q ps ih =>
    intro n
    obtain ⟨sp, g⟩ := q
    cases hd : sp.disp with
    | true => rw [ivsD_cons_disp hd, dCount_cons_disp hd, List.length_cons, ih, Nat.add_comm]
    | false => rw [ivsD_cons_inl hd, dCount_cons_inl hd, ih]

theorem ivsI_length : ∀ (ps : List (MSpan × List Char)) (n : Nat),
    (ivsI n ps).length = iCount ps := by
  intro ps
  induction ps with
  | nil => intro n; rfl
  | cons q ps ih =>
    intro n
    obtain ⟨sp, g⟩ := q
    cases hd : sp.disp with
    | true => rw [ivsI_cons_disp hd, iCount_cons_disp hd, ih]
    | false => rw [ivsI_cons_inl hd, iCount_cons_inl hd, List.length_cons, ih, Nat.add_comm]

theorem ivsD_idx_nodup : ∀ (ps : List (MSpan × List Char)) (n : Nat),
    ((ivsD n ps).map Prod.fst).Nodup := by
  intro ps
  induction ps with
  | nil => intro n; exact List.nodup_nil
  | cons q ps ih =>
    intro n
    obtain ⟨sp, g⟩ := q
    cases hd : sp.disp with
    | true =>
      rw [ivsD_cons_disp hd, List.map_cons, List.nodup_cons]
      refine ⟨?_, ih (n + 1)⟩
      intro hmem
      obtain ⟨p, hp, hfst⟩ := List.mem_map.mp hmem
      have := ivsD_idx_bounds ps (n + 1) p hp
      omega
    | false =>
      rw [ivsD_cons_inl hd]
      exact ih n

theorem ivsI_idx_nodup : ∀ (ps : List (MSpan × List Char)) (n : Nat),
    ((ivsI n ps).map Prod.fst).Nodup := by
  intro ps
  induction ps with
  | nil => intro n; exact List.nodup_nil
  | cons q ps ih =>
    intro n
    obtain ⟨sp, g⟩ := q
    cases hd : sp.disp with
    | true =>
      rw [ivsI_cons_disp hd]
      exact ih n
    | false =>
      rw [ivsI_cons_inl hd, List.map_cons, List.nodup_cons]
      refine ⟨?_, ih (n + 1)⟩
      intro hmem
      obtain ⟨p, hp, hfst⟩ := List.mem_map.mp hmem
      have := ivsI_idx_bounds ps (n + 1) p hp
      omega

theorem ivs_global_idx_nodup (ps : List (MSpan × List Char)) :
    (((ivsD 0 ps ++ ivsI (dCount ps) ps)).map Prod.fst).Nodup := by
  rw [List.map_append, List.nodup_append]
  refine ⟨ivsD_idx_nodup ps 0, ivsI_idx_nodup ps (dCount ps), ?_⟩
  intro a ha hb
  obtain ⟨p, hp, hfst⟩ := List.mem_map.mp ha
  obtain ⟨q, hq, hfst2⟩ := List.mem_map.mp hb
  have h1 := ivsD_idx_bounds ps 0 p hp
  have h2 := ivsI_idx_bounds ps (dCount ps) q hq
  omega

theorem lookup_ivsD_cover : ∀ (ps : List (MSpan × List Char)) (n j : Nat),
    n ≤ j → j < n + dCount ps → ∃ v, lookupIdx j (ivsD n ps) = some v := by
  intro ps
  induction ps with
  | nil =>
    intro n j h1 h2
    simp only [dCount] at h2
    omega
  | cons q ps ih =>
    intro n j h1 h2
    obtain ⟨sp, g⟩ := q
    cases hd : sp.disp with
    | true =>
      rw [dCount_cons_disp hd] at h2
      rw [ivsD_cons_disp hd]
      by_cases hj : n = j
      · subst hj
        exact ⟨_, lookupIdx_cons_pos n _ _⟩
      · rw [lookupIdx_cons_neg hj _ _]
        exact ih (n + 1) j (by omega) (by omega)
    | false =>
      rw [dCount_cons_inl hd] at h2
      rw [ivsD_cons_inl hd]
      exact ih n j h1 h2

theorem lookup_ivsI_cover : ∀ (ps : List (MSpan × List Char)) (n j : Nat),
    n ≤ j → j < n + iCount ps → ∃ v, lookupIdx j (ivsI n ps) = some v := by
  intro ps
  induction ps with
  | nil =>
    intro n j h1 h2
    simp only [iCount] at h2
    omega
  | cons q ps ih =>
    intro n j h1 h2
    obtain ⟨sp, g⟩ := q
    cases hd : sp.disp with
    | true =>
      rw [iCount_cons_disp hd] at h2
      rw [ivsI_cons_disp hd]
      exact ih n j h1 h2
    | false =>
      rw [iCount_cons_inl hd] at h2
      rw [ivsI_cons_inl hd]
      by_cases hj : n = j
      · subst hj
        exact ⟨_, lookupIdx_cons_pos n _ _⟩
      · rw [lookupIdx_cons_neg hj _ _]
        exact ih (n + 1) j (by omega) (by omega)

theorem lookup_global_cover {ps : List (MSpan × List Char)} {N : Nat}
    (hN : N = dCount ps + iCount ps) {j : Nat} (hj : j < N) :
    ∃ v, lookupIdx j (ivsD 0 ps ++ ivsI (dCount ps) ps) = some v := by
  by_cases hlt : j < dCount ps
  · obtain ⟨v, hv⟩ := lookup_ivsD_cover ps 0 j (by omega) (by omega)
    exact ⟨v, lookupIdx_append_some _ hv⟩
  · have hnone : lookupIdx j (ivsD 0 ps) = none :=
      lookup_none_of_ub (ivsD 0 ps) (dCount ps) j
        (fun q hq => by have := ivsD_idx_bounds ps 0 q hq; omega) (by omega)
    rw [lookupIdx_append_none hnone]
    exact lookup_ivsI_cover ps (dCount ps) j (by omega) (by omega)

theorem keyIdxs_csPairs_full :
    ∀ (ps : List (MSpan × List Char)) (dc n j : Nat),
      ((dc ≤ j ∧ j < dc + dCount ps) ∨ (n ≤ j ∧ j < n + iCount ps)) →
      j ∈ keyIdxs (csPairs dc n ps) := by
  intro ps
  induction ps with
  | nil =>
    intro dc n j h
    simp only [dCount, iCount] at h
    omega
  | cons q ps ih =>
    intro dc n j h
    obtain ⟨sp, g⟩ := q
    cases hd : sp.disp with
    | true =>
      rw [dCount_cons_disp hd, iCount_cons_disp hd] at h
      rw [csPairs_cons_disp hd, keyIdxs_key_cons, keyIdxs_consGap]
      by_cases hj : j = dc
      · rw [hj]
        exact List.mem_cons_self _ _
      · refine List.mem_cons_of_mem _ (ih (dc + 1) n j ?_)
        rcases h with ⟨h1, h2⟩ | ⟨h1, h2⟩
        · left; omega
        · right; omega
    | false =>
      rw [dCount_cons_inl hd, iCount_cons_inl hd] at h
      rw [csPairs_cons_inl hd, keyIdxs_key_cons, keyIdxs_consGap]
      by_cases hj : j = n
      · rw [hj]
        exact List.mem_cons_self _ _
      · refine List.mem_cons_of_mem _ (ih dc (n + 1) j ?_)
        rcases h with ⟨h1, h2⟩ | ⟨h1, h2⟩
        · left; omega
        · right; omega

theorem usd_no_dollar : ∀ m, '$' ∉ usd m := by
  intro m hmem
  rw [usd, List.mem_replicate] at hmem
  have h16 : m % 16 < 16 := Nat.mod_lt m (by omega)
  have hall : ∀ k, k < 16 → hexDigitC k ≠ '$' := by decide
  exact hall (m % 16) h16 hmem.2.symm

theorem usd_no_bracket : ∀ m, '[' ∉ usd m := by
  intro m hmem
  rw [usd, List.mem_replicate] at hmem
  have h16 : m % 16 < 16 := Nat.mod_lt m (by omega)
  have hall : ∀ k, k < 16 → hexDigitC k ≠ '[' := by decide
  exact hall (m % 16) h16 hmem.2.symm

/-- **C2 (amended).** For a document of well-formed dollar math spans
(collision-free with respect to the generated placeholders), extraction
followed directly by restoration yields the document with every span
rewritten in the code's own delimiters around its *normalized* content
(`fix_math_content`): gaps are byte-identical, span contents are not —
they undergo newline replacement and subscript bracing (see the
counterexample for the failure of byte-identity). -/
theorem claim_C2 (us : Nat → List Char) (g0 : List Char)
    (ps : List (MSpan × List Char)) (N : Nat) (hN : N = dCount ps + iCount ps)
    (hUs : UsGood us N)
    (husD : ∀ m, '$' ∉ us m) (husB : ∀ m, '[' ∉ us m)
    (hg0 : goodGapB g0 = true) (hps : wfPairsB ps = true)
    (hg0m : ¬ markerL <:+: g0) (hg0u : ∀ i, i < N → ¬ us i <:+: g0)
    (hgm : ∀ q ∈ ps, ¬ markerL <:+: q.2) (hgu : ∀ q ∈ ps, ∀ i, i < N → ¬ us i <:+: q.2)
    (hcm : ∀ q ∈ ps, ¬ markerL <:+: fix_math_content q.1.content)
    (hcu : ∀ q ∈ ps, ∀ i, i < N → ¬ us i <:+: fix_math_content q.1.content) :
    restore_math (process_math_pre_markdown us (renderMDoc (g0, ps))).1
        (process_math_pre_markdown us (renderMDoc (g0, ps))).2
      = g0 ++ normPairs ps :=
  doc_roundtrip us g0 ps N hN hUs husD husB hg0 hps hg0m hg0u hgm hgu hcm hcu

/-- Witness for C2 on the concrete document `T $$a$$ t $b$`. -/
theorem claim_C2_witness :
    restore_math
        (process_math_pre_markdown usd (renderMDoc (strL "T ",
          [(⟨true, strL "a"⟩, strL " t "), (⟨false, strL "b"⟩, [])]))).1
        (process_math_pre_markdown usd (renderMDoc (strL "T ",
          [(⟨true, strL "a"⟩, strL " t "), (⟨false, strL "b"⟩, [])]))).2
      = strL "T " ++ normPairs [(⟨true, strL "a"⟩, strL " t "), (⟨false, strL "b"⟩, [])] :=
  claim_C2 usd (strL "T ")
    [(⟨true, strL "a"⟩, strL " t "), (⟨false, strL "b"⟩, [])] 2 (by decide)
    ⟨by decide, by decide, by decide⟩ usd_no_dollar usd_no_bracket
    (by decide) (by decide) (by decide) (by decide) (by decide) (by decide)
    (by decide) (by decide)

/-- **C3 counterexample.** On `[$x$ +]` the bracket heuristic swallows the
inline placeholder: two tokens are generated, but the first token occurs
*zero* times in the pre-render text (the claim says each token occurs exactly
once), and after restoration the first token survives as an orphan in the
final output. -/
theorem claim_C3_counterexample :
    (process_math_pre_markdown usd (strL "[$x$ +]")).2.map Prod.fst
        = [mkKey usd 0, mkKey usd 1] ∧
    countOcc (process_math_pre_markdown usd (strL "[$x$ +]")).1 (mkKey usd 0) = 0 ∧
    containsSubB
        (restore_math (process_math_pre_markdown usd (strL "[$x$ +]")).1
          (process_math_pre_markdown usd (strL "[$x$ +]")).2)
        (mkKey usd 0) = true := by
  refine ⟨?_, ?_, ?_⟩ <;> decide

/-- **C3 (amended).** For a collision-free document of well-formed dollar math
spans separated by bracket-free gaps, the claim's guarantees do hold: `N`
pairwise-distinct placeholder tokens are generated, none a substring of
another, each occurs exactly once in the pre-render text, restoration puts
every stored span back in its own position, and no token survives in the
restored output.  (Outside this fragment the guarantee fails: see the
counterexample, where a bracket-heuristic match swallows a token.) -/
theorem claim_C3 (us : Nat → List Char) (g0 : List Char)
    (ps : List (MSpan × List Char)) (N : Nat) (hN : N = dCount ps + iCount ps)
    (hUs : UsGood us N)
    (husD : ∀ m, '$' ∉ us m) (husB : ∀ m, '[' ∉ us m)
    (hg0 : goodGapB g0 = true) (hps : wfPairsB ps = true)
    (hg0m : ¬ markerL <:+: g0) (hg0u : ∀ i, i < N → ¬ us i <:+: g0)
    (hgm : ∀ q ∈ ps, ¬ markerL <:+: q.2) (hgu : ∀ q ∈ ps, ∀ i, i < N → ¬ us i <:+: q.2)
    (hcm : ∀ q ∈ ps, ¬ markerL <:+: fix_math_content q.1.content)
    (hcu : ∀ q ∈ ps, ∀ i, i < N → ¬ us i <:+: fix_math_content q.1.content) :
    (process_math_pre_markdown us (renderMDoc (g0, ps))).2.length = N ∧
    ((process_math_pre_markdown us (renderMDoc (g0, ps))).2.map Prod.fst).Nodup ∧
    (∀ p ∈ (process_math_pre_markdown us (renderMDoc (g0, ps))).2,
      ∀ q ∈ (process_math_pre_markdown us (renderMDoc (g0, ps))).2,
        p.1 ≠ q.1 → ¬ p.1 <:+: q.1) ∧
    (∀ p ∈ (process_math_pre_markdown us (renderMDoc (g0, ps))).2,
      countOcc (process_math_pre_markdown us (renderMDoc (g0, ps))).1 p.1 = 1) ∧
    restore_math (process_math_pre_markdown us (renderMDoc (g0, ps))).1
        (process_math_pre_markdown us (renderMDoc (g0, ps))).2
      = g0 ++ normPairs ps ∧
    (∀ p ∈ (process_math_pre_markdown us (renderMDoc (g0, ps))).2,
      containsSubB
        (restore_math (process_math_pre_markdown us (renderMDoc (g0, ps))).1
          (process_math_pre_markdown us (renderMDoc (g0, ps))).2) p.1 = false) := by
  have hproc := process_structure us husD husB g0 ps hg0 hps
  have hP2 : (process_math_pre_markdown us (renderMDoc (g0, ps))).2
      = (ivsD 0 ps ++ ivsI (dCount ps) ps).map (fun p => (mkKey us p.1, p.2)) := by
    rw [hproc]
    show phsD us 0 ps ++ phsI us (dCount ps) ps = _
    rw [List.map_append, phsD_eq_map, phsI_eq_map]
  have hP1 : (process_math_pre_markdown us (renderMDoc (g0, ps))).1
      = chkJoin us (consGap g0 (csPairs 0 (dCount ps) ps)) := by
    rw [hproc]
    show g0 ++ mid2 us 0 (dCount ps) ps = _
    rw [chkJoin_consGap, chkJoin_csPairs]
  have hmemP : ∀ p ∈ (process_math_pre_markdown us (renderMDoc (g0, ps))).2,
      ∃ a, a ∈ ivsD 0 ps ++ ivsI (dCount ps) ps ∧
        p = (mkKey us a.1, a.2) ∧ a.1 < N := by
    intro p hp
    rw [hP2] at hp
    obtain ⟨a, ha, hfa⟩ := List.mem_map.mp hp
    refine ⟨a, ha, hfa.symm, ?_⟩
    rcases List.mem_append.mp ha with h1 | h1
    · have := ivsD_idx_bounds ps 0 a h1
      omega
    · have := ivsI_idx_bounds ps (dCount ps) a h1
      omega
  have hgv : ∀ p ∈ ivsD 0 ps ++ ivsI (dCount ps) ps, goodVal us N p.2 :=
    fun p hp => (csDoc_vals hN hUs hcm hcu p hp).2
  have hcov : ∀ j ∈ keyIdxs (consGap g0 (csPairs 0 (dCount ps) ps)),
      ∃ v, lookupIdx j (ivsD 0 ps ++ ivsI (dCount ps) ps) = some v := by
    intro j hj
    rw [keyIdxs_consGap] at hj
    rcases keyIdxs_csPairs_range ps 0 (dCount ps) j hj with ⟨h1, h2⟩ | ⟨h1, h2⟩ <;>
      exact lookup_global_cover hN (by omega)
  refine ⟨?_, ?_, ?_, ?_, ?_, ?_⟩
  · rw [hP2, List.length_map, List.length_append, ivsD_length, ivsI_length]
    omega
  · rw [hP2, List.map_map]
    have hcomp : (Prod.fst ∘ fun p : Nat × List Char => (mkKey us p.1, p.2))
        = (mkKey us ∘ Prod.fst) := rfl
    rw [hcomp, ← List.map_map]
    refine List.Nodup.map_on ?_ (ivs_global_idx_nodup ps)
    intro x hx y hy hxy
    obtain ⟨a, ha, hax⟩ := List.mem_map.mp hx
    obtain ⟨b, hb, hby⟩ := List.mem_map.mp hy
    have haN : x < N := by
      rcases List.mem_append.mp ha with h1 | h1
      · have := ivsD_idx_bounds ps 0 a h1
        omega
      · have := ivsI_idx_bounds ps (dCount ps) a h1
        omega
    have hbN : y < N := by
      rcases List.mem_append.mp hb with h1 | h1
      · have := ivsD_idx_bounds ps 0 b h1
        omega
      · have := ivsI_idx_bounds ps (dCount ps) b h1
        omega
    exact mkKey_inj hUs haN hbN hxy
  · intro p hp q hq hne hinf
    obtain ⟨a, ha, hpa, haN⟩ := hmemP p hp
    obtain ⟨b, hb, hqb, hbN⟩ := hmemP q hq
    subst hpa
    subst hqb
    have heq : mkKey us a.1 = mkKey us b.1 :=
      List.IsInfix.eq_of_length hinf
        (by rw [mkKey_length hUs haN, mkKey_length hUs hbN])
    exact hne heq
  · intro p hp
    obtain ⟨a, ha, hpa, haN⟩ := hmemP p hp
    subst hpa
    show countOcc (process_math_pre_markdown us (renderMDoc (g0, ps))).1 (mkKey us a.1) = 1
    rw [hP1, countOcc_chkJoin us N hUs a.1 haN _
      (csDoc_raw hg0m hg0u hgm hgu) (csDoc_keys hN) (csDoc_chain g0 ps),
      keyIdxs_consGap]
    refine List.count_eq_one_of_mem (keyIdxs_csPairs_nodup ps 0 (dCount ps) (by omega)) ?_
    refine keyIdxs_csPairs_full ps 0 (dCount ps) a.1 ?_
    rcases List.mem_append.mp ha with h1 | h1
    · have := ivsD_idx_bounds ps 0 a h1
      left
      omega
    · have := ivsI_idx_bounds ps (dCount ps) a h1
      right
      omega
  · exact doc_roundtrip us g0 ps N hN hUs husD husB hg0 hps hg0m hg0u hgm hgu hcm hcu
  · intro p hp
    obtain ⟨a, ha, hpa, haN⟩ := hmemP p hp
    subst hpa
    show containsSubB
      (restore_math (process_math_pre_markdown us (renderMDoc (g0, ps))).1
        (process_math_pre_markdown us (renderMDoc (g0, ps))).2) (mkKey us a.1) = false
    rw [doc_roundtrip us g0 ps N hN hUs husD husB hg0 hps hg0m hg0u hgm hgu hcm hcu]
    have hfan : g0 ++ normPairs ps
        = chkJoin us (fillCs (ivsD 0 ps ++ ivsI (dCount ps) ps)
            (consGap g0 (csPairs 0 (dCount ps) ps))) := by
      rw [fillCs_consGap, chkJoin_consGap,
        fill_csPairs us (ivsD 0 ps ++ ivsI (dCount ps) ps) ps 0 (dCount ps)
          (fun p hp => lookup_global ps p hp)]
    rw [hfan]
    apply countOcc_zero_not_contains (mkKey_ne_nil us a.1)
    have hrawF : ∀ r, Chk.raw r ∈ fillCs (ivsD 0 ps ++ ivsI (dCount ps) ps)
        (consGap g0 (csPairs 0 (dCount ps) ps)) → rawOk us N r := by
      intro r hr
      rcases raw_mem_fillCs _ r hr with h1 | ⟨j, hj⟩
      · exact csDoc_raw hg0m hg0u hgm hgu r h1
      · exact goodVal_rawOk (hgv (j, r) hj)
    have hkeysF : ∀ j, Chk.kkey j ∈ fillCs (ivsD 0 ps ++ ivsI (dCount ps) ps)
        (consGap g0 (csPairs 0 (dCount ps) ps)) → j < N := by
      intro j hj
      have hmem := (kkey_mem_iff_keyIdxs _ j).mp hj
      rw [keyIdxs_fillCs_nil _ hcov] at hmem
      exact absurd hmem (List.not_mem_nil j)
    rw [countOcc_chkJoin us N hUs a.1 haN _ hrawF hkeysF
      (chain'_fillCs hgv (csDoc_chain g0 ps)), keyIdxs_fillCs_nil _ hcov]
    rfl

/-- Witness for C3 on the concrete document `U $x$, $$y$$`. -/
theorem claim_C3_witness :
    (process_math_pre_markdown usd (renderMDoc (strL "U ",
      [(⟨false, strL "x"⟩, strL ", "), (⟨true, strL "y"⟩, [])]))).2.length = 2 ∧
    restore_math
        (process_math_pre_markdown usd (renderMDoc (strL "U ",
          [(⟨false, strL "x"⟩, strL ", "), (⟨true, strL "y"⟩, [])]))).1
        (process_math_pre_markdown usd (renderMDoc (strL "U ",
          [(⟨false, strL "x"⟩, strL ", "), (⟨true, strL "y"⟩, [])]))).2
      = strL "U " ++ normPairs [(⟨false, strL "x"⟩, strL ", "), (⟨true, strL "y"⟩, [])] :=
  ⟨(claim_C3 usd (strL "U ")
      [(⟨false, strL "x"⟩, strL ", "), (⟨true, strL "y"⟩, [])] 2 (by decide)
      ⟨by decide, by decide, by decide⟩ usd_no_dollar usd_no_bracket
      (by decide) (by decide) (by decide) (by decide) (by decide) (by decide)
      (by decide) (by decide)).1,
   (claim_C3 usd (strL "U ")
      [(⟨false, strL "x"⟩, strL ", "), (⟨true, strL "y"⟩, [])] 2 (by decide)
      ⟨by decide, by decide, by decide⟩ usd_no_dollar usd_no_bracket
      (by decide) (by decide) (by decide) (by decide) (by decide) (by decide)
      (by decide) (by decide)).2.2.2.2.1⟩

theorem mem_stripWs {c : Char} {s : List Char} (h : c ∈ stripWs s) : c ∈ s := by
  unfold stripWs at h
  rw [List.mem_reverse] at h
  have h1 := (List.dropWhile_sublist _).subset h
  rw [List.mem_reverse] at h1
  exact (List.dropWhile_sublist _).subset h1

/-- **C8 counterexample.** On `[$x$ +]` the bracket-heuristic match swallows
the already-inserted inline placeholder: the pre-render text is the bracket
token alone, and the inline token has been folded into the bracket span's
stored value. -/
theorem claim_C8_counterexample :
    (process_math_pre_markdown usd (strL "[$x$ +]")).1 = mkKey usd 1 ∧
    ((process_math_pre_markdown usd (strL "[$x$ +]")).2.map Prod.snd).getLastD [] =
      strL "\\[ " ++ (mkKey usd 0 ++ strL " + \\]") := by
  refine ⟨?_, ?_⟩ <;> decide

/-- **C8 (amended).** The pass priority holds: a `$$...$$` span flanked by
good gaps is extracted by the display pass as a single display placeholder
(never as two inline spans), and a bracket group containing only a
placeholder token is left untouched by the bracket pass (the token's
characters contain no formula character).  The claim's further assertion that
a bracket-heuristic match never swallows a placeholder is false: see the
counterexample, where `[$x$ +]` folds the inline token into the bracket
span's stored value. -/
theorem claim_C8 (us : Nat → List Char) (husD : ∀ m, '$' ∉ us m) (husB : ∀ m, '[' ∉ us m)
    (g0 g1 c : List Char) (hg0 : goodGapB g0 = true) (hg1 : goodGapB g1 = true)
    (hc : '$' ∉ c)
    (i : Nat) (hhex : ∀ ch ∈ us i, hexLowerB ch = true)
    (t : List Char) (st : ExtractState) :
    (process_math_pre_markdown us (g0 ++ ('$' :: '$' :: (c ++ ('$' :: '$' :: g1))))
        = (g0 ++ (mkKey us 0 ++ g1),
           [(mkKey us 0, wrapMath true false (fix_math_content c))])) ∧
    pass3 us ('[' :: (mkKey us i ++ ']' :: t)) st =
      ('[' :: (mkKey us i ++ ']' :: (pass3 us t st).1), (pass3 us t st).2) := by
  constructor
  · have hall : c.all (fun x => !(x = '$')) = true := by
      rw [List.all_eq_true]
      intro x hx
      rw [Bool.not_eq_true']
      rw [decide_eq_false_iff_not]
      exact fun he => hc (he ▸ hx)
    have hwf : wfPairsB [(⟨true, c⟩, g1)] = true := by
      simp [wfPairsB, wfSpanB, hg1, hall]
    have hdoc : g0 ++ ('$' :: '$' :: (c ++ ('$' :: '$' :: g1)))
        = renderMDoc (g0, [(⟨true, c⟩, g1)]) := by
      show _ = g0 ++ (spanSrc ⟨true, c⟩ ++ (g1 ++ []))
      rw [spanSrc]
      simp
    rw [hdoc, process_structure us husD husB g0 [(⟨true, c⟩, g1)] hg0 hwf]
    have h1 : mid2 us 0 (dCount [(⟨true, c⟩, g1)]) [(⟨true, c⟩, g1)] = mkKey us 0 ++ g1 := by
      show mid2 us 0 1 [(⟨true, c⟩, g1)] = _
      simp [mid2]
    have h2 : phsD us 0 [(⟨true, c⟩, g1)] =
        [(mkKey us 0, wrapMath true false (fix_math_content c))] := by
      simp [phsD]
    have h3 : phsI us (dCount [(⟨true, c⟩, g1)]) [(⟨true, c⟩, g1)] = [] := by
      simp [phsI]
    rw [h1, h2, h3]
    simp
  · have hnb : ']' ∉ mkKey us i := by
      intro hm
      rcases List.mem_append.mp hm with h | h
      · rcases List.mem_append.mp h with h1 | h1
        · exact absurd h1 (by decide)
        · exact absurd (hhex ']' h1) (by decide)
      · exact absurd h (by decide)
    have hsm : (stripWs (mkKey us i)).any isMathChar = false := by
      rw [List.any_eq_false]
      intro x hx
      have hx2 : x ∈ mkKey us i := mem_stripWs hx
      rw [Bool.not_eq_true]
      rcases List.mem_append.mp hx2 with h | h
      · rcases List.mem_append.mp h with h1 | h1
        · fin_cases h1 <;> decide
        · exact hexLower_not_math (hhex x h1)
      · fin_cases h <;> decide
    exact pass3_bracket_plain hnb hsm t us st

/-- Witness for C8: display span `$$x+y$$` between text, and a bracket group
holding key 3 before text `tail`. -/
theorem claim_C8_witness :
    (process_math_pre_markdown usd
        (strL "A " ++ ('$' :: '$' :: (strL "x+y" ++ ('$' :: '$' :: strL " B"))))
      = (strL "A " ++ (mkKey usd 0 ++ strL " B"),
         [(mkKey usd 0, wrapMath true false (fix_math_content (strL "x+y")))])) ∧
    pass3 usd ('[' :: (mkKey usd 3 ++ ']' :: strL "tail")) ⟨[], 7⟩ =
      ('[' :: (mkKey usd 3 ++ ']' :: (pass3 usd (strL "tail") ⟨[], 7⟩).1),
       (pass3 usd (strL "tail") ⟨[], 7⟩).2) :=
  claim_C8 usd usd_no_dollar usd_no_bracket (strL "A ") (strL " B") (strL "x+y")
    (by decide) (by decide) (by decide) 3 (by decide) (strL "tail") ⟨[], 7⟩
